import Mathlib

/-!
LMQ: queue engine and recovery journal.

A shallow embedding of `LMQ.go` (the queue server) and `cleanup.go` (the offline
compactor), followed by theorems about the queue store, the recovery journal,
the startup replay and the compaction pass.

Modelling conventions.

* Go strings are byte sequences: `GoString` is a list of bytes.
* A Go `map[string]V` is an association list with pairwise distinct keys. Go leaves
  the iteration order of `range` over a map unspecified; the embedding iterates in
  list order and the theorems speak about order-independent observables (membership,
  number of copies of a message).
* A buffered `chan string` is its pending contents together with its capacity.
  A handler runs to completion on its own; an operation that would wait for
  another goroutine for ever (receive on an empty channel, send on a full one)
  yields `none`.
* `recoveryCh` is drained by the writer goroutine concurrently with the handlers.
  Whether the non-blocking send `select { case recoveryCh <- r: ... default: ... }`
  finds a free slot is therefore an input of each handler (`room`); the state keeps
  the records the channel has accepted, in order.
* `int` counters are unbounded integers: a net count changes by one per journal line.
* A journal file that is read is the list of lines `scanner.Text()` yields for it, and
  the recovery directory is the list of its files in name order. A file that is
  written is the list of lines written to it; `scanLines` gives what a later scan of
  it yields. Segment names are clock readings,
  taken to differ from one segment to the next, so that creation order is name order.
* `main` starts the writer goroutine, which creates its first segment, and then calls
  `initialRecovery`, which lists the directory and removes every file it lists. The
  embedding takes the listing before the writer's segment exists: `files` are the
  segments of earlier runs, and the segments of `writingRecovery` stay in the directory.
  The other interleaving of the two goroutines is outside the embedding.
-/

namespace LMQ

/-! ## Strings -/

abbrev Byte := Fin 256

abbrev GoString := List Byte

/-- Bytes of an ASCII literal. -/
def str (s : String) : GoString := s.toList.map (fun c => Fin.ofNat c.toNat)

/-- The space byte, the field separator of a journal line. -/
def SP : Byte := 32

/-! ## Library functions used by the sources -/

/-- Go `strings.SplitN(s, sep, n)` for a one-byte separator and `n ≥ 0`: at most `n`
pieces, the last one being the unsplit remainder. -/
def SplitN (sep : Byte) : Nat → GoString → List GoString
  | 0, _ => []
  | 1, s => [s]
  | n + 2, s =>
    match s.span (fun c => c != sep) with
    | (a, []) => [a]
    | (a, _ :: rest) => a :: SplitN sep (n + 1) rest

/-- Value of a hexadecimal digit, `unhex` of Go `net/url`; `none` when `ishex` fails. -/
def unhex (c : Byte) : Option Nat :=
  if 48 ≤ c.val ∧ c.val ≤ 57 then some (c.val - 48)
  else if 97 ≤ c.val ∧ c.val ≤ 102 then some (c.val - 97 + 10)
  else if 65 ≤ c.val ∧ c.val ≤ 70 then some (c.val - 65 + 10)
  else none

/-- The digit `"0123456789ABCDEF"[n]` that Go `net/url` writes for a nibble. -/
def upperhex (n : Nat) : Byte :=
  if n < 10 then Fin.ofNat (48 + n) else Fin.ofNat (65 + (n - 10))

/-- Go `shouldEscape(c, encodeQueryComponent)`: everything but ASCII letters, digits
and `-`, `_`, `.`, `~` is escaped. -/
def shouldEscape (c : Byte) : Bool :=
  !((97 ≤ c.val && c.val ≤ 122) || (65 ≤ c.val && c.val ≤ 90) || (48 ≤ c.val && c.val ≤ 57)
    || c.val == 45 || c.val == 95 || c.val == 46 || c.val == 126)

/-- Go `url.QueryEscape`: a space becomes `+`, an escaped byte becomes `%XX`. -/
def QueryEscape : GoString → GoString
  | [] => []
  | c :: s =>
    if c = SP then (43 : Byte) :: QueryEscape s
    else if shouldEscape c then
      (37 : Byte) :: upperhex (c.val / 16) :: upperhex (c.val % 16) :: QueryEscape s
    else c :: QueryEscape s

/-- Go `url.QueryUnescape`: `%XX` becomes the byte `XX`, `+` becomes a space; a `%`
that is not followed by two hexadecimal digits is an error (`none`). -/
def QueryUnescape : GoString → Option GoString
  | [] => some []
  | c :: s =>
    if c = (37 : Byte) then
      match s with
      | h :: l :: rest =>
        match unhex h, unhex l with
        | some a, some b => (QueryUnescape rest).map (fun t => Fin.ofNat (a * 16 + b) :: t)
        | _, _ => none
      | _ => none
    else if c = (43 : Byte) then (QueryUnescape s).map (fun t => SP :: t)
    else (QueryUnescape s).map (fun t => c :: t)

/-! ## Go maps -/

/-- A Go `map[string]V`: association list with distinct keys. -/
abbrev GoMap (V : Type) := List (GoString × V)

namespace GoMap

/-- Lookup `m[k]` with the comma-ok result. -/
def get {V : Type} : GoMap V → GoString → Option V
  | [], _ => none
  | (k0, v) :: m, k => if k0 = k then some v else get m k

/-- Assignment `m[k] = v`. -/
def set {V : Type} : GoMap V → GoString → V → GoMap V
  | [], k, v => [(k, v)]
  | (k0, v0) :: m, k, v => if k0 = k then (k0, v) :: m else (k0, v0) :: set m k v

/-- Builtin `delete(m, k)`. -/
def delete {V : Type} : GoMap V → GoString → GoMap V
  | [], _ => []
  | (k0, v0) :: m, k => if k0 = k then delete m k else (k0, v0) :: delete m k

end GoMap

/-! ## Journal records and the replay fold -/

def SET : GoString := str "SET"

def GET : GoString := str "GET"

def DEL : GoString := str "DEL"

/-- Source: `getRecovery` (LMQ.go) and `Utils.GetRecovery` (cleanup.go). -/
def getRecovery (method queueName message : GoString) : GoString :=
  method ++ [SP] ++ queueName ++ [SP] ++ message

/-- The working map of a replay pass: `map[string]map[string]int`. -/
abbrev QueuesMap := GoMap (GoMap Int)

/-- Lines 65-76 of LMQ.go (57-68 of cleanup.go): a scanned line is unescaped and
split on its first two spaces; `none` for a line the loop skips at this point. -/
def decodeLine (lineEscape : GoString) : Option (GoString × GoString × GoString) :=
  match QueryUnescape lineEscape with
  | none => none
  | some line =>
    match SplitN SP 3 line with
    | [method, queueName, message] => some (method, queueName, message)
    | _ => none

/-- Lines 77-95 of LMQ.go (69-87 of cleanup.go): the decoded fields folded into
`queuesMap`. -/
def applyRecord (queuesMap : QueuesMap) (method queueName message : GoString) : QueuesMap :=
  let queuesMap :=
    match queuesMap.get queueName with
    | some _ => queuesMap
    | none => queuesMap.set queueName []
  let inner := (queuesMap.get queueName).getD []
  let count := (inner.get message).getD 0
  if method = SET then queuesMap.set queueName (inner.set message (count + 1))
  else if method = GET then queuesMap.set queueName (inner.set message (count - 1))
  else if method = DEL then queuesMap.delete queueName
  else queuesMap

/-- Body of the `for scanner.Scan()` loop, the same text in `initialRecovery`
(LMQ.go) and in `main` (cleanup.go): one scanned line folded into `queuesMap`. -/
def replayLine (queuesMap : QueuesMap) (lineEscape : GoString) : QueuesMap :=
  match decodeLine lineEscape with
  | none => queuesMap
  | some (method, queueName, message) => applyRecord queuesMap method queueName message

/-- The scan loop over the lines of one file, or of several files read one after
the other. -/
def replayLines (queuesMap : QueuesMap) (lines : List GoString) : QueuesMap :=
  lines.foldl replayLine queuesMap

/-- The loop over the files of the recovery directory (`for _, filename := range
filenames` of LMQ.go, `for i := 0; ...` of cleanup.go): every file folded, in order,
into a working map that starts empty. -/
def replayFiles (files : List (List GoString)) : QueuesMap :=
  files.foldl replayLines []

/-! ## Configuration and environment -/

/-- The fields of `Config` the queue engine reads. `QueueInitSize` is the capacity
handed to `make(chan string, n)`, which panics on a negative value. -/
structure Config where
  QueueInitSize : Nat
  RecoveryFileSize : Int
  FileBasePath : GoString

/-- Outcome of the `mysql` existence check of `setHandler`. -/
inductive DbResult where
  | openError
  | queryError
  | noRow
  | row
deriving DecidableEq, Repr

/-- Outcome of `ioutil.ReadFile` in `responseMessage`. -/
inductive FileResult where
  /-- An error for which `os.IsNotExist` holds. -/
  | notExist
  /-- Any other error. -/
  | error
  /-- The bytes of the file. -/
  | data (bytes : GoString)
deriving DecidableEq, Repr

/-- The external collaborators `setHandler` consults before accepting a payload and
`responseMessage` consults to resolve one. -/
structure Env where
  /-- Whether `os.Stat(path)` fails with a not-exist error. -/
  statNotExist : GoString → Bool
  /-- Result of `SELECT data FROM table WHERE id = id` on the configured database. -/
  dbQuery : GoString → GoString → DbResult
  /-- Result of `ioutil.ReadFile(path)`. -/
  readFile : GoString → FileResult
  /-- Result of `rows.Scan(&data)` on the row of a table and id: the data, `none` when
  the scan fails. -/
  scanRow : GoString → GoString → Option GoString

/-! ## Channels and the queue store -/

/-- A `chan string`: pending messages (front first) and capacity. -/
structure Chan where
  buf : List GoString
  cap : Nat
deriving DecidableEq, Repr

/-- The store `map[string]chan string`. -/
abbrev Queues := GoMap Chan

/-- The channel `queues[queueName]`; the nil channel of an absent name has length and
capacity 0 and is never ready, like an empty channel of capacity 0. -/
def chanOf (queues : Queues) (queueName : GoString) : Chan :=
  (queues.get queueName).getD ⟨[], 0⟩

/-- The loop `for v := range old { out <- v; if len(old) == 0 { break } }` of
`increaseQueueSize`; `none` when the receive finds `old` empty or the send finds `out`
full, where the goroutine waits for ever. -/
def drain : List GoString → Chan → Option Chan
  | [], _ => none
  | v :: rest, out =>
    if out.buf.length < out.cap then
      if rest.length = 0 then some { out with buf := out.buf ++ [v] }
      else drain rest { out with buf := out.buf ++ [v] }
    else none

/-- Source: `increaseQueueSize` (LMQ.go). -/
def increaseQueueSize (queues : Queues) (queueName : GoString) (size : Nat) : Option Queues :=
  let threshold : Int := size / 2
  let q := chanOf queues queueName
  if (q.cap : Int) - (q.buf.length : Int) < threshold then
    (drain q.buf ⟨[], q.cap + size⟩).map (fun out => queues.set queueName out)
  else some queues

/-- The non-blocking send `select { case queues[queueName] <- message: ... default: ... }`:
the store after the send, or `none` when the default branch is taken. -/
def trySend (queues : Queues) (queueName message : GoString) : Option Queues :=
  let q := chanOf queues queueName
  if q.buf.length < q.cap then some (queues.set queueName { q with buf := q.buf ++ [message] })
  else none

/-- The non-blocking receive `select { case message := <-queues[queueName]: ... default: ... }`:
the message and the store after the receive, or `none` when the default branch is taken. -/
def tryRecv (queues : Queues) (queueName : GoString) : Option (GoString × Queues) :=
  let q := chanOf queues queueName
  match q.buf with
  | [] => none
  | message :: rest => some (message, queues.set queueName { q with buf := rest })

/-! ## Request handlers -/

/-- Server state: the queue store and the records `recoveryCh` has accepted so far,
oldest first. -/
structure State where
  queues : Queues
  journal : List GoString
deriving DecidableEq, Repr

/-- The `return` point a handler leaves through. -/
inductive Reply where
  /-- 200 `OK.` -/
  | ok
  /-- 200 with the dequeued message as body (`getHandler`). -/
  | message (m : GoString)
  /-- 200 with header `Message: m` and the payload `responseMessage` resolved for the
  message as body. -/
  | fetched (m : GoString) (body : GoString)
  /-- 200 with an empty body: `responseMessage` writes nothing for a message without a
  colon. -/
  | emptyBody
  /-- 200 with the decimal length of the queue. -/
  | count (n : Nat)
  /-- 200 with each name followed by a newline. -/
  | names (l : List GoString)
  /-- 400 `Message is empty!` or `Number must be a integer!` -/
  | badRequest
  /-- 404 `Queue not exists!` -/
  | notFound
  /-- 404 `File not found!` from `responseMessage`. -/
  | fileNotFound
  /-- 500 from a file that exists and cannot be read, in `responseMessage`. -/
  | readError
  /-- 406 from a failed existence check of the payload. -/
  | notAcceptable
  /-- 410 `Queue is empty!` -/
  | gone
  /-- 500 from the database of the existence check. -/
  | dbError
  /-- 500 from the default branch of the send on the queue. -/
  | queueFull
  /-- 500 from the default branch of the send on `recoveryCh`. -/
  | journalRejected
deriving DecidableEq, Repr

/-- HTTP status of a reply. -/
def Reply.status : Reply → Nat
  | .ok | .message _ | .fetched _ _ | .emptyBody | .count _ | .names _ => 200
  | .badRequest => 400
  | .notFound | .fileNotFound => 404
  | .notAcceptable => 406
  | .gone => 410
  | .dbError | .readError | .queueFull | .journalRejected => 500

/-- The existence check of `setHandler` (lines 219-258): `none` when the payload is
accepted, the error reply otherwise. -/
def checkPayload (cfg : Config) (env : Env) (message : GoString) : Option Reply :=
  match SplitN 58 2 message with
  | [scheme, locator] =>
    if scheme = str "file" then
      if env.statNotExist (cfg.FileBasePath ++ locator) then some .notAcceptable else none
    else if scheme = str "mysql" then
      match SplitN 47 2 locator with
      | [table, id] =>
        match env.dbQuery table id with
        | .openError => some .dbError
        | .queryError => some .dbError
        | .noRow => some .notAcceptable
        | .row => none
      | _ => some .notAcceptable
    else none
  | _ => none

/-- Source: `listHandler`. -/
def listHandler (st : State) : State × Reply :=
  (st, .names (st.queues.map Prod.fst))

/-- Source: `countHandler`. -/
def countHandler (st : State) (queueName : GoString) : State × Reply :=
  match st.queues.get queueName with
  | none => (st, .notFound)
  | some q => (st, .count q.buf.length)

/-- One iteration of the loop of `skipHandler`: a non-blocking receive followed, when
it delivers a message, by the blocking send of that message to the same channel. -/
def skipOnce (q : Chan) : Option Chan :=
  match q.buf with
  | [] => some q
  | message :: rest =>
    if rest.length < q.cap then some { q with buf := rest ++ [message] } else none

/-- The loop `for i := 0; i < n; i++` of `skipHandler`. -/
def skipLoop : Nat → Chan → Option Chan
  | 0, q => some q
  | i + 1, q => (skipOnce q).bind (skipLoop i)

/-- Source: `skipHandler`; `number` is the result of `strconv.Atoi` on the path
parameter, `none` when it is not an integer. -/
def skipHandler (st : State) (queueName : GoString) (number : Option Int) :
    Option (State × Reply) :=
  match st.queues.get queueName with
  | none => some (st, .notFound)
  | some q =>
    match number with
    | none => some (st, .badRequest)
    | some n =>
      (skipLoop n.toNat q).map
        (fun q1 => ({ st with queues := st.queues.set queueName q1 }, .ok))

/-- Source: `setHandler`; `message` is the path parameter after `message[1:]`. -/
def setHandler (cfg : Config) (env : Env) (room : Bool) (st : State)
    (queueName message : GoString) : Option (State × Reply) :=
  let queues0 :=
    match st.queues.get queueName with
    | some _ => st.queues
    | none => st.queues.set queueName ⟨[], cfg.QueueInitSize⟩
  (increaseQueueSize queues0 queueName cfg.QueueInitSize).map fun queues =>
    if message = [] then ({ st with queues := queues }, .badRequest)
    else
      match checkPayload cfg env message with
      | some err => ({ st with queues := queues }, err)
      | none =>
        match trySend queues queueName message with
        | some queues1 =>
          if room then
            ({ queues := queues1,
               journal := st.journal ++ [getRecovery SET queueName message] }, .ok)
          else ({ st with queues := queues1 }, .journalRejected)
        | none => ({ st with queues := queues }, .queueFull)

/-- Source: `getHandler`. -/
def getHandler (room : Bool) (st : State) (queueName : GoString) : State × Reply :=
  match st.queues.get queueName with
  | none => (st, .notFound)
  | some _ =>
    match tryRecv st.queues queueName with
    | some (message, queues1) =>
      if room then
        ({ queues := queues1,
           journal := st.journal ++ [getRecovery GET queueName message] }, .message message)
      else ({ st with queues := queues1 }, .journalRejected)
    | none => (st, .gone)

/-- Source: `responseMessage` (lines 306-373): the reply written for a message. A
message without a colon falls through the `if` and nothing is written. -/
def responseMessage (cfg : Config) (env : Env) (message : GoString) : Reply :=
  match SplitN 58 2 message with
  | [scheme, locator] =>
    if scheme = str "file" then
      match env.readFile (cfg.FileBasePath ++ locator) with
      | .notExist => .fileNotFound
      | .error => .readError
      | .data bytes => .fetched message bytes
    else if scheme = str "mysql" then
      match SplitN 47 2 locator with
      | [table, id] =>
        match env.dbQuery table id with
        | .openError => .dbError
        | .queryError => .dbError
        | .noRow => .notAcceptable
        | .row =>
          match env.scanRow table id with
          | none => .dbError
          | some data => .fetched message data
      | _ => .notAcceptable
    else .message message
  | _ => .emptyBody

/-- Source: `fetchHandler`. -/
def fetchHandler (cfg : Config) (env : Env) (room : Bool) (st : State)
    (queueName : GoString) : State × Reply :=
  match st.queues.get queueName with
  | none => (st, .notFound)
  | some _ =>
    match tryRecv st.queues queueName with
    | some (message, queues1) =>
      if room then
        ({ queues := queues1,
           journal := st.journal ++ [getRecovery GET queueName message] },
          responseMessage cfg env message)
      else ({ st with queues := queues1 }, .journalRejected)
    | none => (st, .gone)

/-- Source: `deleteHandler`. -/
def deleteHandler (room : Bool) (st : State) (queueName : GoString) : State × Reply :=
  match st.queues.get queueName with
  | none => (st, .notFound)
  | some _ =>
    let queues1 := st.queues.delete queueName
    if room then
      ({ queues := queues1, journal := st.journal ++ [getRecovery DEL queueName []] }, .ok)
    else ({ st with queues := queues1 }, .journalRejected)

/-- A request of the routes `/list`, `/count`, `/skip`, `/set`, `/get`, `/fetch`,
`/delete`. -/
inductive Request where
  | list
  | count (queueName : GoString)
  | skip (queueName : GoString) (number : Option Int)
  | set (queueName message : GoString)
  | get (queueName : GoString)
  | fetch (queueName : GoString)
  | delete (queueName : GoString)
deriving DecidableEq, Repr

/-- The queue name a request carries. -/
def Request.queueName : Request → Option GoString
  | .list => none
  | .count q | .skip q _ | .set q _ | .get q | .fetch q | .delete q => some q

/-- Dispatch of one request; `room` tells whether `recoveryCh` has a free slot when
the handler reaches its send. -/
def handle (cfg : Config) (env : Env) (st : State) (room : Bool) :
    Request → Option (State × Reply)
  | .list => some (listHandler st)
  | .count q => some (countHandler st q)
  | .skip q n => skipHandler st q n
  | .set q m => setHandler cfg env room st q m
  | .get q => some (getHandler room st q)
  | .fetch q => some (fetchHandler cfg env room st q)
  | .delete q => some (deleteHandler room st q)

/-- Requests served one after the other; the state after the last one and the replies
in order, `none` when a handler never returns. -/
def serve (cfg : Config) (env : Env) : State → List (Request × Bool) → Option (State × List Reply)
  | st, [] => some (st, [])
  | st, (r, room) :: rest =>
    match handle cfg env st room r with
    | none => none
    | some (st1, reply) =>
      (serve cfg env st1 rest).map (fun p => (p.1, reply :: p.2))

/-- The state `main` starts the router with when the recovery directory is empty. -/
def State.empty : State := ⟨[], []⟩

/-! ## The journal writer -/

/-- State of `writingRecovery`: the segments already closed, the lines of the open
segment and its record counter. -/
structure Writer where
  closed : List (List GoString)
  file : List GoString
  recoveryFileSize : Int
deriving DecidableEq, Repr

/-- Body of the loop `for recovery := range recoveryCh` of `writingRecovery`. -/
def Writer.write (cfg : Config) (w : Writer) (recovery : GoString) : Writer :=
  let file := w.file ++ [QueryEscape recovery]
  let recoveryFileSize := w.recoveryFileSize + 1
  if recoveryFileSize ≥ cfg.RecoveryFileSize then
    { closed := w.closed ++ [file], file := [], recoveryFileSize := 0 }
  else { closed := w.closed, file := file, recoveryFileSize := recoveryFileSize }

/-- Source: `writingRecovery`, as a function of the records received from `recoveryCh`:
the segment files in creation order, the open one last. Segment names are creation
timestamps, so this is also the order in which a later replay reads them. -/
def writingRecovery (cfg : Config) (records : List GoString) : List (List GoString) :=
  let w := records.foldl (Writer.write cfg) ⟨[], [], 0⟩
  w.closed ++ [w.file]

/-! ## Startup recovery -/

/-- Progress of the materialisation loops of `initialRecovery`: the store, the records
`recoveryCh` accepted, and the number of sends attempted on `recoveryCh`. -/
structure Recovery where
  queues : Queues
  journal : List GoString
  offers : Nat
deriving DecidableEq, Repr

/-- Body of the loop `for i := 0; i < count; i++` of `initialRecovery` (lines 107-118);
`room k` tells whether the `k`-th send on `recoveryCh` finds a free slot. -/
def recoverCopy (cfg : Config) (room : Nat → Bool) (queueName message : GoString)
    (r : Recovery) : Option Recovery :=
  (increaseQueueSize r.queues queueName cfg.QueueInitSize).map fun queues =>
    match trySend queues queueName message with
    | some queues1 =>
      if room r.offers then
        { queues := queues1,
          journal := r.journal ++ [getRecovery SET queueName message],
          offers := r.offers + 1 }
      else { queues := queues1, journal := r.journal, offers := r.offers + 1 }
    | none => { r with queues := queues }

/-- The loop `for i := 0; i < count; i++` run `n` times. -/
def recoverCopies (cfg : Config) (room : Nat → Bool) (queueName message : GoString) :
    Nat → Recovery → Option Recovery
  | 0, r => some r
  | n + 1, r => (recoverCopy cfg room queueName message r).bind
      (recoverCopies cfg room queueName message n)

/-- The loop `for message, count := range queueMap`. -/
def recoverMessages (cfg : Config) (room : Nat → Bool) (queueName : GoString) :
    GoMap Int → Recovery → Option Recovery
  | [], r => some r
  | (message, count) :: queueMap, r =>
    (recoverCopies cfg room queueName message count.toNat r).bind
      (recoverMessages cfg room queueName queueMap)

/-- The loop `for queueName, queueMap := range queuesMap` (lines 103-121). -/
def recoverQueues (cfg : Config) (room : Nat → Bool) : QueuesMap → Recovery → Option Recovery
  | [], r => some r
  | (queueName, queueMap) :: queuesMap, r =>
    (recoverMessages cfg room queueName queueMap
        { r with queues := r.queues.set queueName ⟨[], cfg.QueueInitSize⟩ }).bind
      (recoverQueues cfg room queuesMap)

/-- Source: `initialRecovery`. `files` are the scanned lines of the files of the
recovery directory in `ioutil.ReadDir` order (sorted by name); every one of them is
removed once read. -/
def initialRecovery (cfg : Config) (room : Nat → Bool) (queues : Queues)
    (files : List (List GoString)) : Option Recovery :=
  let queuesMap := replayFiles files
  recoverQueues cfg room queuesMap ⟨queues, [], 0⟩

/-! ## The compactor -/

/-- Output side of `cleanup.go`: the segments written and closed, the open segment
(`file`, nil before the first record) and its record counter. -/
structure Emitter where
  closed : List (List GoString)
  file : Option (List GoString)
  recoveryFileSize : Int
deriving DecidableEq, Repr

/-- Body of the loop `for i := 0; i < count; i++` of `cleanup.go` (lines 102-116). -/
def Emitter.emit (cfg : Config) (e : Emitter) (recovery : GoString) : Emitter :=
  let e1 : Emitter :=
    if e.recoveryFileSize ≥ cfg.RecoveryFileSize then
      { closed := e.closed ++ e.file.toList, file := some [], recoveryFileSize := 0 }
    else e
  { closed := e1.closed,
    file := e1.file.map (fun f => f ++ [QueryEscape recovery]),
    recoveryFileSize := e1.recoveryFileSize + 1 }

/-- The loop `for i := 0; i < count; i++` run `n` times. -/
def emitCopies (cfg : Config) (recovery : GoString) : Nat → Emitter → Emitter
  | 0, e => e
  | n + 1, e => emitCopies cfg recovery n (e.emit cfg recovery)

/-- The loop `for message, count := range queueMap` of `cleanup.go`. -/
def emitMessages (cfg : Config) (queueName : GoString) : GoMap Int → Emitter → Emitter
  | [], e => e
  | (message, count) :: queueMap, e =>
    emitMessages cfg queueName queueMap
      (emitCopies cfg (getRecovery SET queueName message) count.toNat e)

/-- The loop `for queueName, queueMap := range queuesMap` of `cleanup.go`. -/
def emitQueues (cfg : Config) : QueuesMap → Emitter → Emitter
  | [], e => e
  | (queueName, queueMap) :: queuesMap, e =>
    emitQueues cfg queuesMap (emitMessages cfg queueName queueMap e)

/-- The working map `cleanup.go` folds: every file but the last of the sorted
directory listing (`for i := 0; i < len(filenames) - 1; i++`). -/
def cleanupFold (files : List (List GoString)) : QueuesMap :=
  replayFiles files.dropLast

/-- The segments `cleanup.go` writes for a working map, in creation order. -/
def emitSegments (cfg : Config) (queuesMap : QueuesMap) : List (List GoString) :=
  let e := emitQueues cfg queuesMap ⟨[], none, cfg.RecoveryFileSize⟩
  e.closed ++ e.file.toList

/-- Source: `main` of `cleanup.go`. `files` are the scanned lines of the files of the
recovery directory in sorted name order. The result is the directory afterwards: the
emitted segments, whose names start with `0` and sort first, then the newest of the
old files, which is left in place. -/
def cleanup (cfg : Config) (files : List (List GoString)) : List (List GoString) :=
  emitSegments cfg (cleanupFold files) ++ files.getLast?.toList

/-! ## Observables and specification-level notions -/

/-- Net count a working map holds for a message under a queue name, 0 when absent. -/
def netCount (queuesMap : QueuesMap) (queueName message : GoString) : Int :=
  ((queuesMap.get queueName).bind (fun inner => inner.get message)).getD 0

/-- Number of copies of a message in the live queue of a name, 0 when absent. -/
def copies (queues : Queues) (queueName message : GoString) : Nat :=
  (chanOf queues queueName).buf.count message

/-- A journal record: method, queue name, message. -/
abbrev Record := GoString × GoString × GoString

/-- The line the writer and the compactor write for a record. -/
def Record.encode (r : Record) : GoString :=
  QueryEscape (getRecovery r.1 r.2.1 r.2.2)

/-- A record is well formed when its method is one of SET, GET, DEL and its queue
name has no space. -/
def Record.wellFormed (r : Record) : Prop :=
  (r.1 = SET ∨ r.1 = GET ∨ r.1 = DEL) ∧ SP ∉ r.2.1

instance (r : Record) : Decidable r.wellFormed :=
  inferInstanceAs (Decidable ((r.1 = SET ∨ r.1 = GET ∨ r.1 = DEL) ∧ SP ∉ r.2.1))

/-- Whether a record is a DEL of the queue name. -/
def Record.isDel (queueName : GoString) (r : Record) : Bool :=
  r.1 = DEL && r.2.1 = queueName

/-- The records that come after the last DEL of the queue name (all of them when
there is none). -/
def afterLastDel (queueName : GoString) (records : List Record) : List Record :=
  (records.reverse.takeWhile (fun r => !r.isDel queueName)).reverse

/-- The net count of the replay-determinism invariant: (number of SET q m) minus
(number of GET q m) among the records after the last DEL q. -/
def netAfterLastDel (records : List Record) (queueName message : GoString) : Int :=
  ((afterLastDel queueName records).count (SET, queueName, message) : Int)
    - ((afterLastDel queueName records).count (GET, queueName, message) : Int)

/-- The fold of `applyRecord` over decoded records. -/
def replayRecords (queuesMap : QueuesMap) (records : List Record) : QueuesMap :=
  records.foldl (fun qm r => applyRecord qm r.1 r.2.1 r.2.2) queuesMap

/-- The record string a handler offers to `recoveryCh`. -/
def Record.raw (r : Record) : GoString :=
  getRecovery r.1 r.2.1 r.2.2

/-- Every channel of the store holds at most `cap` messages and has a capacity of at
least the configured initial size. -/
def Queues.wellFormed (size : Nat) (queues : Queues) : Prop :=
  ∀ q ch, queues.get q = some ch → ch.buf.length ≤ ch.cap ∧ size ≤ ch.cap

/-- Go `bufio.MaxScanTokenSize`, the buffer limit of a default `bufio.Scanner`. -/
def MaxScanTokenSize : Nat := 65536

/-- The lines `scanner.Scan()` / `scanner.Text()` yield for a file that was written one
line at a time, each followed by a newline and none holding a newline or a carriage
return (as the lines of the writer and of the compactor are): the scanner needs the
line and its newline in a buffer of at most `MaxScanTokenSize` bytes, so it stops, with
an error nobody reads, at the first line of `MaxScanTokenSize` bytes or more and yields
neither that line nor any later one. -/
def scanLines (written : List GoString) : List GoString :=
  written.takeWhile (fun line => decide (line.length < MaxScanTokenSize))

/-- The lines a replay reads from the journal on disk once the writer has written
every record `recoveryCh` accepted: the segments in creation order, each one as the
scanner yields it. -/
def journalLines (cfg : Config) (st : State) : List GoString :=
  ((writingRecovery cfg st.journal).map scanLines).flatten

/-- The durability invariant: the live queue of every name holds each message as many
times as the net count the replay fold of the journal gives it. -/
def Durable (cfg : Config) (st : State) : Prop :=
  ∀ q m, (copies st.queues q m : Int) = netCount (replayLines [] (journalLines cfg st)) q m

/-- The state is tracked by `records`: the journal holds exactly their record strings,
they are well formed, the store is well formed and every live queue holds each message
as many times as the fold of `records` counts it. -/
def Tracked (cfg : Config) (st : State) (records : List Record) : Prop :=
  st.journal = records.map Record.raw
    ∧ (∀ r ∈ records, r.wellFormed)
    ∧ Queues.wellFormed cfg.QueueInitSize st.queues
    ∧ ∀ q m, (copies st.queues q m : Int) = netCount (replayRecords [] records) q m

/-- The messages a map of counts stands for, in iteration order: each message repeated
as many times as its count, not at all for a count that is zero or negative. -/
def expandCounts (queueMap : GoMap Int) : List GoString :=
  (queueMap.map (fun p => List.replicate p.2.toNat p.1)).flatten

/-- The keys of a map, in iteration order. -/
def GoMap.keys {V : Type} (m : GoMap V) : List GoString :=
  m.map Prod.fst

/-- A working map as the replay fold builds it: distinct queue names without a space,
distinct messages under each name. -/
def QueuesMap.wellFormed (queuesMap : QueuesMap) : Prop :=
  (GoMap.keys queuesMap).Nodup
    ∧ (∀ q ∈ GoMap.keys queuesMap, SP ∉ q)
    ∧ ∀ p ∈ queuesMap, (GoMap.keys p.2).Nodup

/-- The SET records a working map stands for, in iteration order: for every queue and
message, as many records as the count, none for a count that is zero or negative. -/
def setRecords (queuesMap : QueuesMap) : List Record :=
  (queuesMap.map (fun p =>
    (p.2.map (fun e => List.replicate e.2.toNat (SET, p.1, e.1))).flatten)).flatten

/-- All lines of the emitted segments, read in order. -/
def Emitter.lines (e : Emitter) : List GoString :=
  (e.closed ++ e.file.toList).flatten

/-- The emitter has a file to write to, or opens one before the next write. -/
def Emitter.ready (cfg : Config) (e : Emitter) : Prop :=
  e.file ≠ none ∨ e.recoveryFileSize ≥ cfg.RecoveryFileSize

/-- The list rotated left by `k` positions: its first `k` elements moved, in order, to
the back. -/
def rotateLeft (L : List GoString) (k : Nat) : List GoString :=
  L.drop k ++ L.take k

/-! ## The compactor on a directory -/

/-- A recovery directory: every segment file name with the scanned lines of the file.
File names are distinct. -/
abbrev Dir := GoMap (List GoString)

/-- Go `sort.Strings`: ascending byte-wise lexicographic order. -/
def sortStrings (names : List GoString) : List GoString :=
  names.insertionSort (fun a b => a ≤ b)

/-- The scanned lines of the file of a name, none for a name that is not in the
directory. -/
def Dir.lines (dir : Dir) (name : GoString) : List GoString :=
  (GoMap.get dir name).getD []

/-- Source: `main` of `cleanup.go` on a directory (lines 33-119): the file names are
sorted, every file but the last of the sorted names is folded and then removed, and the
folded map is written out. The result is the old files left in the directory and the
segments emitted. -/
def cleanupDir (cfg : Config) (dir : Dir) : Dir × List (List GoString) :=
  let filenames := sortStrings (GoMap.keys dir)
  let consumed := filenames.dropLast
  let queuesMap := replayFiles (consumed.map (Dir.lines dir))
  (consumed.foldl GoMap.delete dir, emitSegments cfg queuesMap)

/-- A line is malformed when it fails percent-unescaping, has fewer than three
space-separated fields, or has a method other than SET, GET, DEL. -/
def malformed (line : GoString) : Bool :=
  match QueryUnescape line with
  | none => true
  | some l =>
    match SplitN SP 3 l with
    | [method, _, _] => !(decide (method = SET) || decide (method = GET) || decide (method = DEL))
    | _ => true

/-- The count a working map holds for a message under a queue name, `none` when the
map has no entry for the name or none for the message under it. -/
def QueuesMap.entry (queuesMap : QueuesMap) (queueName message : GoString) : Option Int :=
  (GoMap.get queuesMap queueName).bind (fun inner => inner.get message)

/-- A message of 65527 bytes `x`: its journal line `SET+jobs+xx...x` has 65536 bytes. -/
def longMessage : GoString := List.replicate 65527 120

/-- A message of 22000 bytes `!`: the raw line `SET jobs !!...!` has 22009 bytes, the
line written for it, with every `!` escaped as `%21`, has 66009. -/
def bangMessage : GoString := List.replicate 22000 33

/-! ## The line codec -/

theorem unhex_upperhex : ∀ n : Fin 16, unhex (upperhex n.val) = some n.val := by decide

theorem byte_of_nibbles (c : Byte) : (Fin.ofNat (c.val / 16 * 16 + c.val % 16) : Byte) = c := by
  apply Fin.ext
  have h := c.isLt
  simp only [Fin.ofNat, Fin.val_mk]
  omega

theorem plain_byte (c : Byte) (h : shouldEscape c = false) : c ≠ 37 ∧ c ≠ 43 := by
  constructor <;> (rintro rfl; revert h; decide)

theorem QueryUnescape_QueryEscape (s : GoString) : QueryUnescape (QueryEscape s) = some s := by
  induction s with
  | nil => rfl
  | cons c s ih =>
    unfold QueryEscape
    by_cases h1 : c = SP
    · subst h1
      simp only [if_true]
      unfold QueryUnescape
      rw [ih]
      rfl
    · simp only [h1, if_false]
      by_cases h2 : shouldEscape c = true
      · simp only [h2, if_true]
        unfold QueryUnescape
        have hhi : c.val / 16 < 16 := by have := c.isLt; omega
        have hlo : c.val % 16 < 16 := by omega
        have e1 := unhex_upperhex ⟨c.val / 16, hhi⟩
        have e2 := unhex_upperhex ⟨c.val % 16, hlo⟩
        simp only [] at e1 e2
        simp only [if_true, e1, e2, ih, Option.map_some', byte_of_nibbles]
      · have h3 : shouldEscape c = false := by simpa using h2
        obtain ⟨n37, n43⟩ := plain_byte c h3
        simp only [h3]
        unfold QueryUnescape
        simp [n37, n43, ih]

theorem span_sep (sep : Byte) (a rest : GoString) (h : sep ∉ a) :
    (a ++ sep :: rest).span (fun c => c != sep) = (a, sep :: rest) := by
  induction a with
  | nil => simp [List.span_eq_take_drop]
  | cons x a ih =>
    have hx : x ≠ sep := fun e => h (by simp [e])
    have ha : sep ∉ a := fun e => h (by simp [e])
    have := ih ha
    simp only [List.span_eq_take_drop] at this ⊢
    simp only [List.cons_append, List.takeWhile_cons, List.dropWhile_cons, bne_iff_ne, ne_eq, hx,
      not_false_eq_true, decide_True, if_true]
    simp only [Prod.mk.injEq] at this ⊢
    exact ⟨by rw [this.1], this.2⟩

theorem SplitN_getRecovery (method queueName message : GoString)
    (hm : SP ∉ method) (hq : SP ∉ queueName) :
    SplitN SP 3 (getRecovery method queueName message) = [method, queueName, message] := by
  unfold getRecovery
  have e1 : method ++ [SP] ++ queueName ++ [SP] ++ message
      = method ++ SP :: (queueName ++ SP :: message) := by simp
  rw [e1]
  unfold SplitN
  rw [span_sep SP method _ hm]
  simp only []
  unfold SplitN
  rw [span_sep SP queueName _ hq]
  simp only [SplitN]

theorem decodeLine_encode (method queueName message : GoString)
    (hm : SP ∉ method) (hq : SP ∉ queueName) :
    decodeLine (QueryEscape (getRecovery method queueName message))
      = some (method, queueName, message) := by
  unfold decodeLine
  rw [QueryUnescape_QueryEscape]
  simp only [SplitN_getRecovery method queueName message hm hq]

/-! ## Lines longer than the scanner's buffer -/

theorem QueryEscape_append (a b : GoString) :
    QueryEscape (a ++ b) = QueryEscape a ++ QueryEscape b := by
  induction a with
  | nil => simp [QueryEscape]
  | cons c a ih =>
    simp only [List.cons_append, QueryEscape]
    split_ifs <;> simp [ih]

theorem QueryEscape_plain (s : GoString) (h : ∀ c ∈ s, shouldEscape c = false) :
    QueryEscape s = s := by
  induction s with
  | nil => rfl
  | cons c s ih =>
    have hc : shouldEscape c = false := h c (by simp)
    have hsp : c ≠ SP := by
      rintro rfl
      revert hc
      decide
    simp only [QueryEscape, hsp, if_false, hc, Bool.false_eq_true]
    rw [ih (fun x hx => h x (by simp [hx]))]

theorem QueryEscape_bangs_length (n : Nat) :
    (QueryEscape (List.replicate n (33 : Byte))).length = 3 * n := by
  induction n with
  | zero => rfl
  | succ n ih =>
    have h1 : (33 : Byte) ≠ SP := by decide
    have h2 : shouldEscape (33 : Byte) = true := by decide
    simp only [List.replicate_succ, QueryEscape, h1, if_false, h2, if_true, List.length_cons, ih]
    omega

theorem QueryUnescape_raw (s : GoString) (h37 : (37 : Byte) ∉ s) (h43 : (43 : Byte) ∉ s) :
    QueryUnescape s = some s := by
  induction s with
  | nil => rfl
  | cons c s ih =>
    simp only [List.mem_cons, not_or] at h37 h43
    have e1 : ¬ c = 37 := fun e => h37.1 e.symm
    have e2 : ¬ c = 43 := fun e => h43.1 e.symm
    unfold QueryUnescape
    rw [if_neg e1, if_neg e2, ih h37.2 h43.2]
    rfl

theorem SplitN_two_no_sep (sep : Byte) (s : GoString) (h : sep ∉ s) :
    SplitN sep 2 s = [s] := by
  have hspan : s.span (fun c => c != sep) = (s, []) := by
    rw [List.span_eq_take_drop]
    have h1 : s.takeWhile (fun c => c != sep) = s := by
      rw [List.takeWhile_eq_self_iff]
      intro c hc
      have : c ≠ sep := fun e => h (e ▸ hc)
      simpa using this
    have h2 : s.dropWhile (fun c => c != sep) = [] := by
      rw [List.dropWhile_eq_nil_iff]
      intro c hc
      have : c ≠ sep := fun e => h (e ▸ hc)
      simpa using this
    rw [h1, h2]
  unfold SplitN
  rw [hspan]

theorem mem_getRecovery_jobs (c : Byte) (m : GoString) (hm : c ∉ m)
    (hc : c ∉ str "SET jobs ") : c ∉ getRecovery SET (str "jobs") m := by
  have e : getRecovery SET (str "jobs") m = str "SET jobs " ++ m := by
    have e1 : str "SET jobs " = SET ++ [SP] ++ str "jobs" ++ [SP] := by decide
    rw [e1]
    rfl
  rw [e]
  intro h
  rcases List.mem_append.1 h with h1 | h1
  · exact hc h1
  · exact hm h1

theorem length_getRecovery_jobs (m : GoString) :
    (getRecovery SET (str "jobs") m).length = 9 + m.length
    ∧ (QueryEscape (getRecovery SET (str "jobs") m)).length = 9 + (QueryEscape m).length := by
  have e1 : str "SET jobs " = SET ++ [SP] ++ str "jobs" ++ [SP] := by decide
  have e : getRecovery SET (str "jobs") m = str "SET jobs " ++ m := by
    rw [e1]
    rfl
  have e2 : (str "SET jobs ").length = 9 := by decide
  have e3 : (QueryEscape (str "SET jobs ")).length = 9 := by decide
  rw [e, QueryEscape_append, List.length_append, List.length_append, e2, e3]
  exact ⟨rfl, rfl⟩

theorem longMessage_facts :
    longMessage ≠ [] ∧ (58 : Byte) ∉ longMessage
    ∧ (QueryEscape (getRecovery SET (str "jobs") longMessage)).length = MaxScanTokenSize := by
  have hlen : longMessage.length = 65527 := List.length_replicate _ _
  have hmem : ∀ c ∈ longMessage, c = 120 := fun c hc => List.eq_of_mem_replicate hc
  refine ⟨?_, ?_, ?_⟩
  · intro h
    rw [h] at hlen
    cases hlen
  · intro h
    exact absurd (hmem _ h) (by decide)
  · have hplain : QueryEscape longMessage = longMessage :=
      QueryEscape_plain _ (fun c hc => by rw [hmem c hc]; decide)
    rw [(length_getRecovery_jobs longMessage).2, hplain, hlen]
    rfl

theorem bangMessage_facts :
    (getRecovery SET (str "jobs") bangMessage).length = 22009
    ∧ (37 : Byte) ∉ getRecovery SET (str "jobs") bangMessage
    ∧ (43 : Byte) ∉ getRecovery SET (str "jobs") bangMessage
    ∧ (QueryEscape (getRecovery SET (str "jobs") bangMessage)).length = 66009 := by
  have hlen : bangMessage.length = 22000 := List.length_replicate _ _
  have hmem : ∀ c ∈ bangMessage, c = 33 := fun c hc => List.eq_of_mem_replicate hc
  have hq : (QueryEscape bangMessage).length = 3 * 22000 := QueryEscape_bangs_length 22000
  refine ⟨?_, ?_, ?_, ?_⟩
  · rw [(length_getRecovery_jobs bangMessage).1, hlen]
  · exact mem_getRecovery_jobs 37 bangMessage
      (fun h => absurd (hmem _ h) (by decide)) (by decide)
  · exact mem_getRecovery_jobs 43 bangMessage
      (fun h => absurd (hmem _ h) (by decide)) (by decide)
  · rw [(length_getRecovery_jobs bangMessage).2, hq]

/-! ## Go map lemmas -/

theorem GoMap.get_set {V : Type} (m : GoMap V) (k k1 : GoString) (v : V) :
    (m.set k v).get k1 = if k = k1 then some v else m.get k1 := by
  induction m with
  | nil => simp [GoMap.set, GoMap.get]
  | cons p m ih =>
    obtain ⟨k0, v0⟩ := p
    by_cases h : k0 = k <;> by_cases h1 : k0 = k1 <;> by_cases h2 : k = k1 <;>
      simp_all [GoMap.set, GoMap.get]

theorem GoMap.get_delete {V : Type} (m : GoMap V) (k k1 : GoString) :
    (m.delete k).get k1 = if k = k1 then none else m.get k1 := by
  induction m with
  | nil => simp [GoMap.delete, GoMap.get]
  | cons p m ih =>
    obtain ⟨k0, v0⟩ := p
    by_cases h : k0 = k <;> by_cases h1 : k0 = k1 <;> by_cases h2 : k = k1 <;>
      simp_all [GoMap.delete, GoMap.get]

theorem methods_distinct : SET ≠ GET ∧ SET ≠ DEL ∧ GET ≠ DEL := by decide

theorem netCount_applyRecord (queuesMap : QueuesMap) (method q1 m1 q m : GoString) :
    netCount (applyRecord queuesMap method q1 m1) q m =
      if method = SET then
        (if q1 = q ∧ m1 = m then netCount queuesMap q m + 1 else netCount queuesMap q m)
      else if method = GET then
        (if q1 = q ∧ m1 = m then netCount queuesMap q m - 1 else netCount queuesMap q m)
      else if method = DEL then (if q1 = q then 0 else netCount queuesMap q m)
      else netCount queuesMap q m := by
  unfold applyRecord netCount
  cases hq : GoMap.get queuesMap q1 <;>
    by_cases e : q1 = q <;> by_cases e2 : m1 = m <;>
    by_cases a1 : method = SET <;> by_cases a2 : method = GET <;>
    by_cases a3 : method = DEL <;>
    simp_all [GoMap.get_set, GoMap.get_delete, GoMap.get]

/-! ## The replay fold on decoded records -/

theorem replayLines_eq_replayRecords (lines : List GoString) (queuesMap : QueuesMap) :
    replayLines queuesMap lines = replayRecords queuesMap (lines.filterMap decodeLine) := by
  induction lines generalizing queuesMap with
  | nil => rfl
  | cons l lines ih =>
    simp only [replayLines, List.foldl_cons] at ih ⊢
    rw [ih]
    unfold replayLine
    cases h : decodeLine l with
    | none => simp [List.filterMap_cons, h]
    | some r =>
      obtain ⟨a, b, c⟩ := r
      simp [List.filterMap_cons, h, replayRecords]

theorem SP_not_mem_methods : SP ∉ SET ∧ SP ∉ GET ∧ SP ∉ DEL := by decide

theorem decodeLine_encode_wellFormed (r : Record) (h : r.wellFormed) :
    decodeLine r.encode = some r := by
  obtain ⟨method, queueName, message⟩ := r
  obtain ⟨hm, hq⟩ := h
  have hm1 : SP ∉ method := by
    rcases hm with e | e | e <;> simp only [] at e <;> subst e
    · exact SP_not_mem_methods.1
    · exact SP_not_mem_methods.2.1
    · exact SP_not_mem_methods.2.2
  exact decodeLine_encode method queueName message hm1 hq

theorem filterMap_decode_encode (records : List Record) (h : ∀ r ∈ records, r.wellFormed) :
    (records.map Record.encode).filterMap decodeLine = records := by
  induction records with
  | nil => rfl
  | cons r records ih =>
    have h1 := decodeLine_encode_wellFormed r (h r (by simp))
    have h2 := ih (fun x hx => h x (by simp [hx]))
    simp [List.filterMap_cons, h1, h2]

theorem afterLastDel_append (q : GoString) (records : List Record) (r : Record) :
    afterLastDel q (records ++ [r]) =
      if r.isDel q then [] else afterLastDel q records ++ [r] := by
  unfold afterLastDel
  by_cases h : r.isDel q = true <;> simp [List.takeWhile_cons, h]

theorem netCount_replayRecords (records : List Record) (q m : GoString) :
    netCount (replayRecords [] records) q m = netAfterLastDel records q m := by
  induction records using List.reverseRecOn with
  | nil => simp [replayRecords, netCount, GoMap.get, netAfterLastDel, afterLastDel]
  | append_singleton records r ih =>
    obtain ⟨method, q1, m1⟩ := r
    have hstep : replayRecords [] (records ++ [(method, q1, m1)])
        = applyRecord (replayRecords [] records) method q1 m1 := by
      simp [replayRecords, List.foldl_append]
    rw [hstep, netCount_applyRecord, ih]
    unfold netAfterLastDel
    rw [afterLastDel_append]
    obtain ⟨d1, d2, d3⟩ := methods_distinct
    by_cases a1 : method = SET <;> by_cases a2 : method = GET <;>
      by_cases a3 : method = DEL <;> by_cases e : q1 = q <;> by_cases e2 : m1 = m <;>
      simp_all [Record.isDel, List.count_append, List.count_cons, List.count_nil] <;> omega

/-! ## Replay determinism -/

/-- C2. Replay determinism: the count the replay fold holds for a queue name `q` and
message `m` is (number of SET q m) minus (number of GET q m) among the records after
the last DEL q, for every sequence of scanned lines (taking the records the lines
decode to) and for every sequence of well-formed journal records (taking their written
lines); a DEL q clears the counts of `q` and leaves the counts of every other queue
unchanged; the records SET jobs a, SET jobs a, GET jobs a give jobs = {a: 1}, and
SET jobs a, DEL jobs, SET jobs b give jobs = {b: 1}. -/
theorem replay_determinism (lines : List GoString) (records : List Record)
    (hwf : ∀ r ∈ records, r.wellFormed) (q m : GoString) :
    netCount (replayLines [] lines) q m = netAfterLastDel (lines.filterMap decodeLine) q m
    ∧ netCount (replayLines [] (records.map Record.encode)) q m = netAfterLastDel records q m
    ∧ (∀ (before after : List Record) (message : GoString),
        records = before ++ (DEL, q, message) :: after →
        netCount (replayLines [] ((before ++ [(DEL, q, message)]).map Record.encode)) q m = 0
        ∧ ∀ q1 m1 : GoString, q1 ≠ q →
          netCount (replayLines [] ((before ++ [(DEL, q, message)]).map Record.encode)) q1 m1
            = netCount (replayLines [] (before.map Record.encode)) q1 m1)
    ∧ replayLines [] ([(SET, str "jobs", str "a"), (SET, str "jobs", str "a"),
          (GET, str "jobs", str "a")].map Record.encode) = [(str "jobs", [(str "a", 1)])]
    ∧ replayLines [] ([(SET, str "jobs", str "a"), (DEL, str "jobs", []),
          (SET, str "jobs", str "b")].map Record.encode) = [(str "jobs", [(str "b", 1)])] := by
  refine ⟨?_, ?_, ?_, by decide, by decide⟩
  · rw [replayLines_eq_replayRecords, netCount_replayRecords]
  · rw [replayLines_eq_replayRecords, filterMap_decode_encode records hwf,
      netCount_replayRecords]
  · intro before after message hrec
    have hwf1 : ∀ r ∈ before ++ [(DEL, q, message)], r.wellFormed := by
      intro r hr
      apply hwf r
      rw [hrec]
      simp only [List.mem_append, List.mem_singleton, List.mem_cons] at hr ⊢
      tauto
    have hwf0 : ∀ r ∈ before, r.wellFormed := fun r hr => hwf1 r (by simp [hr])
    have hstep : replayRecords [] (before ++ [(DEL, q, message)])
        = applyRecord (replayRecords [] before) DEL q message := by
      simp [replayRecords, List.foldl_append]
    obtain ⟨d1, d2, d3⟩ := methods_distinct
    rw [replayLines_eq_replayRecords, filterMap_decode_encode _ hwf1,
      replayLines_eq_replayRecords, filterMap_decode_encode _ hwf0, hstep]
    constructor
    · rw [netCount_applyRecord]
      simp [Ne.symm d2, Ne.symm d3]
    · intro q1 m1 hne
      rw [netCount_applyRecord]
      simp [Ne.symm d2, Ne.symm d3, Ne.symm hne]

theorem replay_determinism_witness :
    netCount (replayLines [] ([(SET, str "jobs", str "a"), (DEL, str "jobs", []),
        (SET, str "jobs", str "b"), (GET, str "jobs", str "c")].map Record.encode))
      (str "jobs") (str "c") = -1 :=
  (replay_determinism [str "SET+jobs+a", str "%zz", str "GET+jobs+a"]
    [(SET, str "jobs", str "a"), (DEL, str "jobs", []),
      (SET, str "jobs", str "b"), (GET, str "jobs", str "c")]
    (by decide) (str "jobs") (str "c")).2.1.trans (by decide)

/-! ## Growth of a queue buffer -/

theorem drain_eq (L : List GoString) (out : Chan) (hne : L ≠ [])
    (hroom : out.buf.length + L.length ≤ out.cap) :
    drain L out = some ⟨out.buf ++ L, out.cap⟩ := by
  induction L generalizing out with
  | nil => exact absurd rfl hne
  | cons v rest ih =>
    simp only [List.length_cons] at hroom
    have h1 : out.buf.length < out.cap := by omega
    unfold drain
    simp only [h1, if_true]
    cases rest with
    | nil => simp
    | cons w rest1 =>
      have hroom1 : (out.buf ++ [v]).length + (w :: rest1).length ≤ out.cap := by
        simp only [List.length_append, List.length_cons, List.length_nil] at hroom ⊢
        omega
      have := ih { out with buf := out.buf ++ [v] } (by simp) hroom1
      simp only [List.length_cons, Nat.add_one_ne_zero, if_false]
      rw [this]
      simp

theorem chanOf_set (queues : Queues) (name name1 : GoString) (q : Chan) :
    chanOf (queues.set name q) name1 = if name = name1 then q else chanOf queues name1 := by
  unfold chanOf
  rw [GoMap.get_set]
  split_ifs <;> rfl

theorem chanOf_of_get {queues : Queues} {name : GoString} {q : Chan}
    (h : queues.get name = some q) : chanOf queues name = q := by
  simp [chanOf, h]

/-- What `increaseQueueSize` does to a channel with `len ≤ cap` and `size ≤ cap`. -/
theorem increaseQueueSize_eq (queues : Queues) (name : GoString) (size : Nat)
    (hlen : (chanOf queues name).buf.length ≤ (chanOf queues name).cap)
    (hsize : size ≤ (chanOf queues name).cap) :
    increaseQueueSize queues name size =
      some (if (chanOf queues name).cap - (chanOf queues name).buf.length < size / 2
        then queues.set name ⟨(chanOf queues name).buf, (chanOf queues name).cap + size⟩
        else queues) := by
  unfold increaseQueueSize
  simp only []
  have hdiv : ((size : Int) / 2) = ((size / 2 : Nat) : Int) := by simp
  by_cases hc : (chanOf queues name).cap - (chanOf queues name).buf.length < size / 2
  · have hc1 : ((chanOf queues name).cap : Int) - ((chanOf queues name).buf.length : Int)
        < (size : Int) / 2 := by rw [hdiv]; omega
    have hne : (chanOf queues name).buf ≠ [] := by
      intro e
      rw [e] at hc
      simp only [List.length_nil, Nat.sub_zero] at hc
      omega
    have hd := drain_eq (chanOf queues name).buf ⟨[], (chanOf queues name).cap + size⟩ hne
      (by simp only [List.length_nil]; omega)
    simp only [hc1, hc, if_true, hd, Option.map_some', List.nil_append]
  · have hc1 : ¬ ((chanOf queues name).cap : Int) - ((chanOf queues name).buf.length : Int)
        < (size : Int) / 2 := by rw [hdiv]; omega
    simp only [hc1, hc, if_false]

/-- C9. Growth policy: a queue with contents `L` and capacity `c ≥ s` keeps its contents
in the same order under `increaseQueueSize` with increment `s`; its new capacity is
`c + s` when the free capacity `c - |L|` is below `s / 2` and `c` otherwise, so the
capacity never decreases; no other queue changes. -/
theorem growth_policy (queues : Queues) (name : GoString) (L : List GoString) (c s : Nat)
    (hq : queues.get name = some ⟨L, c⟩) (hL : L.length ≤ c) (hs : s ≤ c) :
    ∃ queues1, increaseQueueSize queues name s = some queues1
      ∧ (chanOf queues1 name).buf = L
      ∧ (chanOf queues1 name).cap = (if c - L.length < s / 2 then c + s else c)
      ∧ c ≤ (chanOf queues1 name).cap
      ∧ ∀ other, other ≠ name → queues1.get other = queues.get other := by
  have hch : chanOf queues name = ⟨L, c⟩ := chanOf_of_get hq
  have h := increaseQueueSize_eq queues name s (by rw [hch]; exact hL) (by rw [hch]; exact hs)
  rw [hch] at h
  simp only [] at h
  refine ⟨_, h, ?_⟩
  by_cases hc : c - L.length < s / 2
  · simp only [hc, if_true, chanOf_set]
    refine ⟨trivial, trivial, by omega, ?_⟩
    intro other hne
    rw [GoMap.get_set]
    simp [Ne.symm hne]
  · simp [hc, hch]

theorem growth_policy_witness :
    ∃ queues1, increaseQueueSize [(str "jobs", ⟨[str "a", str "b", str "c"], 4⟩)] (str "jobs") 4
        = some queues1
      ∧ (chanOf queues1 (str "jobs")).buf = [str "a", str "b", str "c"]
      ∧ (chanOf queues1 (str "jobs")).cap = (if 4 - 3 < 4 / 2 then 4 + 4 else 4)
      ∧ 4 ≤ (chanOf queues1 (str "jobs")).cap
      ∧ ∀ other, other ≠ str "jobs" →
          queues1.get other = GoMap.get [(str "jobs", ⟨[str "a", str "b", str "c"], 4⟩)] other :=
  growth_policy [(str "jobs", ⟨[str "a", str "b", str "c"], 4⟩)] (str "jobs")
    [str "a", str "b", str "c"] 4 4 (by decide) (by decide) (by decide)

/-! ## Receiving from a queue -/

theorem tryRecv_nil {queues : Queues} {name : GoString} {q : Chan}
    (h : queues.get name = some q) (hb : q.buf = []) : tryRecv queues name = none := by
  simp [tryRecv, chanOf_of_get h, hb]

theorem tryRecv_cons {queues : Queues} {name : GoString} {q : Chan} {m : GoString}
    {rest : List GoString} (h : queues.get name = some q) (hb : q.buf = m :: rest) :
    tryRecv queues name = some (m, queues.set name { q with buf := rest }) := by
  simp [tryRecv, chanOf_of_get h, hb]

theorem Reply.status_eq_404 (r : Reply) :
    r.status = 404 ↔ r = .notFound ∨ r = .fileNotFound := by
  cases r <;> simp [Reply.status]

/-- The reply `responseMessage` writes for a message is `File not found!` exactly for a
message `file:locator` whose file does not exist; it is never `Queue not exists!`. -/
theorem responseMessage_fileNotFound (cfg : Config) (env : Env) (m : GoString) :
    (responseMessage cfg env m = .fileNotFound ↔
      ∃ locator, SplitN 58 2 m = [str "file", locator]
        ∧ env.readFile (cfg.FileBasePath ++ locator) = .notExist)
    ∧ responseMessage cfg env m ≠ .notFound := by
  have hne : str "file" ≠ str "mysql" := by decide
  unfold responseMessage
  generalize SplitN 58 2 m = parts
  match parts with
  | [] => simp
  | [a] => simp
  | a :: b :: c :: rest => simp
  | [scheme, locator] =>
    by_cases h1 : scheme = str "file"
    · subst h1
      cases hr : env.readFile (cfg.FileBasePath ++ locator) <;> simp [hr]
    · have h1s : ¬ str "file" = scheme := fun e => h1 e.symm
      by_cases h2 : scheme = str "mysql"
      · subst h2
        simp only [h1, if_false, if_true]
        generalize SplitN 47 2 locator = parts2
        match parts2 with
        | [] => simp [h1, h1s]
        | [a] => simp [h1, h1s]
        | a :: b :: c :: rest => simp [h1, h1s]
        | [table, id] =>
          cases hd : env.dbQuery table id with
          | openError => simp [hd, h1]
          | queryError => simp [hd, h1]
          | noRow => simp [hd, h1]
          | row => cases hsr : env.scanRow table id <;> simp [hd, hsr, h1]
      · simp [h1, h1s, h2]

/-! ## Not-found, file not found and empty -/

/-- C10, counterexample. On the queue jobs holding the message `file:x`, with the file
missing, fetch takes the message out of the queue, journals the GET and replies 404
(`File not found!`): a 404 on a queue that exists, with store and journal changed. -/
theorem fetch_404_counterexample :
    fetchHandler ⟨2, 100, []⟩ ⟨fun _ => false, fun _ _ => .row, fun _ => .notExist, fun _ _ => none⟩
        true ⟨[(str "jobs", ⟨[str "file:x"], 2⟩)], []⟩ (str "jobs")
      = (⟨[(str "jobs", ⟨[], 2⟩)], [str "GET jobs file:x"]⟩, .fileNotFound)
    ∧ Reply.fileNotFound.status = 404
    ∧ Reply.notFound.status = 404
    ∧ GoMap.get [(str "jobs", (⟨[str "file:x"], 2⟩ : Chan))] (str "jobs")
      = some ⟨[str "file:x"], 2⟩ := by
  refine ⟨by decide, by decide, by decide, by decide⟩

/-- C10, amended. Count, skip, get and delete reply 404 exactly when the name is absent
from the store; fetch replies the 404 of an absent queue (`Queue not exists!`) exactly
when the name is absent, and replies 404 at all exactly when the name is absent or the
journal has room and the message at the front is a `file:` message whose file does not
exist (`File not found!`, after the message was dequeued and the GET journaled); on an
absent name all five leave store and journal unchanged; get and fetch on a queue that
exists and holds no message reply Empty with the state unchanged; from the empty state,
with a capacity of at least one, set jobs hello is acknowledged, the first get returns
hello and the second get replies Empty. -/
theorem notFound_distinct_from_empty (cfg : Config) (env : Env) (st : State)
    (name : GoString) (room : Bool) (number : Option Int) :
    ((countHandler st name).2.status = 404 ↔ st.queues.get name = none)
    ∧ ((∃ st1 reply, skipHandler st name number = some (st1, reply) ∧ reply.status = 404)
        ↔ st.queues.get name = none)
    ∧ ((getHandler room st name).2.status = 404 ↔ st.queues.get name = none)
    ∧ ((deleteHandler room st name).2.status = 404 ↔ st.queues.get name = none)
    ∧ ((fetchHandler cfg env room st name).2 = .notFound ↔ st.queues.get name = none)
    ∧ ((fetchHandler cfg env room st name).2.status = 404 ↔
        (st.queues.get name = none
          ∨ (room = true ∧ ∃ m rest cap, st.queues.get name = some ⟨m :: rest, cap⟩
              ∧ ∃ locator, SplitN 58 2 m = [str "file", locator]
                ∧ env.readFile (cfg.FileBasePath ++ locator) = .notExist)))
    ∧ (st.queues.get name = none →
        countHandler st name = (st, .notFound)
        ∧ skipHandler st name number = some (st, .notFound)
        ∧ getHandler room st name = (st, .notFound)
        ∧ fetchHandler cfg env room st name = (st, .notFound)
        ∧ deleteHandler room st name = (st, .notFound))
    ∧ (∀ q, st.queues.get name = some q → q.buf = [] →
        getHandler room st name = (st, .gone)
        ∧ fetchHandler cfg env room st name = (st, .gone))
    ∧ (1 ≤ cfg.QueueInitSize → ∃ st1 st2,
        setHandler cfg env true State.empty (str "jobs") (str "hello") = some (st1, .ok)
        ∧ getHandler true st1 (str "jobs") = (st2, .message (str "hello"))
        ∧ getHandler room st2 (str "jobs") = (st2, .gone)) := by
  refine ⟨?_, ?_, ?_, ?_, ?_, ?_, ?_, ?_, ?_⟩
  · unfold countHandler
    cases h : st.queues.get name <;> simp [Reply.status]
  · cases h : st.queues.get name with
    | none =>
      refine ⟨fun _ => rfl, fun _ => ⟨st, .notFound, ?_, rfl⟩⟩
      simp [skipHandler, h]
    | some q =>
      refine ⟨?_, fun h0 => by cases h0⟩
      rintro ⟨st1, reply, hrun, hst⟩
      unfold skipHandler at hrun
      simp only [h] at hrun
      cases number with
      | none =>
        simp only [Option.some.injEq, Prod.mk.injEq] at hrun
        rw [← hrun.2] at hst
        simp [Reply.status] at hst
      | some n =>
        cases h2 : skipLoop n.toNat q with
        | none => simp [h2] at hrun
        | some q1 =>
          simp only [h2, Option.map_some', Option.some.injEq, Prod.mk.injEq] at hrun
          rw [← hrun.2] at hst
          simp [Reply.status] at hst
  · unfold getHandler
    cases h : st.queues.get name with
    | none => simp [Reply.status]
    | some q =>
      cases h2 : tryRecv st.queues name with
      | none => simp [Reply.status]
      | some p => cases room <;> simp [Reply.status]
  · unfold deleteHandler
    cases h : st.queues.get name with
    | none => simp [Reply.status]
    | some q => cases room <;> simp [Reply.status]
  · unfold fetchHandler
    cases h : st.queues.get name with
    | none => simp
    | some q =>
      cases h2 : tryRecv st.queues name with
      | none => simp
      | some p =>
        cases room
        · simp
        · simpa using (responseMessage_fileNotFound cfg env p.1).2
  · cases h : st.queues.get name with
    | none => simp [fetchHandler, h, Reply.status]
    | some q =>
      obtain ⟨buf, cap⟩ := q
      cases buf with
      | nil => simp [fetchHandler, h, tryRecv_nil h rfl, Reply.status]
      | cons m rest =>
        have hrecv := tryRecv_cons h (rfl : (⟨m :: rest, cap⟩ : Chan).buf = m :: rest)
        cases room
        · simp [fetchHandler, h, hrecv, Reply.status]
        · have hr := responseMessage_fileNotFound cfg env m
          simp only [fetchHandler, h, hrecv, if_true, Reply.status_eq_404, hr.2, false_or,
            hr.1, Option.some.injEq, Chan.mk.injEq, List.cons.injEq, true_and]
          constructor
          · rintro ⟨locator, h1, h2⟩
            exact Or.inr ⟨m, rest, cap, ⟨⟨rfl, rfl⟩, rfl⟩, locator, h1, h2⟩
          · rintro (h0 | ⟨m1, rest1, cap1, ⟨⟨rfl, rfl⟩, rfl⟩, locator, h1, h2⟩)
            · cases h0
            · exact ⟨locator, h1, h2⟩
  · intro h
    simp [countHandler, skipHandler, getHandler, fetchHandler, deleteHandler, h]
  · intro q h hb
    exact ⟨by simp [getHandler, h, tryRecv_nil h hb],
      by simp [fetchHandler, h, tryRecv_nil h hb]⟩
  · intro hs
    have hcheck : checkPayload cfg env (str "hello") = none := by
      unfold checkPayload
      have : SplitN 58 2 (str "hello") = [str "hello"] := by decide
      rw [this]
    have hne : str "hello" ≠ [] := by decide
    have hgrow : increaseQueueSize [(str "jobs", ⟨[], cfg.QueueInitSize⟩)] (str "jobs")
        cfg.QueueInitSize = some [(str "jobs", ⟨[], cfg.QueueInitSize⟩)] := by
      rw [increaseQueueSize_eq] <;> simp [chanOf, GoMap.get]
      intro hlt
      omega
    refine ⟨⟨[(str "jobs", ⟨[str "hello"], cfg.QueueInitSize⟩)],
        [getRecovery SET (str "jobs") (str "hello")]⟩,
      ⟨[(str "jobs", ⟨[], cfg.QueueInitSize⟩)],
        [getRecovery SET (str "jobs") (str "hello"),
          getRecovery GET (str "jobs") (str "hello")]⟩, ?_, ?_, ?_⟩
    · have hpos : 0 < cfg.QueueInitSize := hs
      simp [setHandler, State.empty, GoMap.get, GoMap.set, hgrow, hne, hcheck, trySend,
        chanOf, hpos]
    · simp [getHandler, GoMap.get, tryRecv, chanOf, GoMap.set]
    · simp [getHandler, GoMap.get, tryRecv, chanOf]

theorem notFound_distinct_from_empty_witness :
    (∃ st1 st2,
      setHandler ⟨2, 100, []⟩ ⟨fun _ => false, fun _ _ => .row, fun _ => .notExist, fun _ _ => none⟩
          true State.empty (str "jobs") (str "hello") = some (st1, .ok)
      ∧ getHandler true st1 (str "jobs") = (st2, .message (str "hello"))
      ∧ getHandler true st2 (str "jobs") = (st2, .gone))
    ∧ getHandler true ⟨[(str "jobs", ⟨[], 2⟩)], []⟩ (str "jobs")
        = (⟨[(str "jobs", ⟨[], 2⟩)], []⟩, .gone)
    ∧ getHandler true ⟨[(str "jobs", ⟨[], 2⟩)], []⟩ (str "work")
        = (⟨[(str "jobs", ⟨[], 2⟩)], []⟩, .notFound) :=
  ⟨(notFound_distinct_from_empty ⟨2, 100, []⟩
      ⟨fun _ => false, fun _ _ => .row, fun _ => .notExist, fun _ _ => none⟩ State.empty
      (str "jobs") true none).2.2.2.2.2.2.2.2 (by decide),
   ((notFound_distinct_from_empty ⟨2, 100, []⟩
      ⟨fun _ => false, fun _ _ => .row, fun _ => .notExist, fun _ _ => none⟩
      ⟨[(str "jobs", ⟨[], 2⟩)], []⟩ (str "jobs") true none).2.2.2.2.2.2.2.1 ⟨[], 2⟩
      (by decide) rfl).1,
   ((notFound_distinct_from_empty ⟨2, 100, []⟩
      ⟨fun _ => false, fun _ _ => .row, fun _ => .notExist, fun _ _ => none⟩
      ⟨[(str "jobs", ⟨[], 2⟩)], []⟩ (str "work") true none).2.2.2.2.2.2.1 (by decide)).2.2.1⟩

/-! ## Growth before an enqueue -/

/-- The store after `increaseQueueSize` on a present queue with `len ≤ cap` and
`size ≤ cap`: same contents, a capacity that is still at least `size`, a free slot
when `size ≥ 2`, every other queue untouched. -/
theorem grow_spec (queues : Queues) (name : GoString) (size : Nat) (ch : Chan)
    (hget : queues.get name = some ch) (hlen : ch.buf.length ≤ ch.cap) (hsize : size ≤ ch.cap) :
    ∃ queuesG c1, increaseQueueSize queues name size = some queuesG
      ∧ queuesG.get name = some ⟨ch.buf, c1⟩
      ∧ ch.buf.length ≤ c1 ∧ ch.cap ≤ c1 ∧ c1 ≤ ch.cap + size
      ∧ (2 ≤ size → ch.buf.length < c1)
      ∧ ∀ other, other ≠ name → queuesG.get other = queues.get other := by
  have hch : chanOf queues name = ch := chanOf_of_get hget
  have h := increaseQueueSize_eq queues name size (by rw [hch]; exact hlen)
    (by rw [hch]; exact hsize)
  rw [hch] at h
  by_cases hc : ch.cap - ch.buf.length < size / 2
  · simp only [hc, if_true] at h
    refine ⟨_, ch.cap + size, h, ?_, by omega, by omega, le_refl _, fun _ => by omega, ?_⟩
    · rw [GoMap.get_set]; simp
    · intro other hne
      rw [GoMap.get_set]
      simp [Ne.symm hne]
  · simp only [hc, if_false] at h
    refine ⟨_, ch.cap, h, ?_, hlen, le_refl _, by omega, fun h2 => by omega, fun _ _ => rfl⟩
    rw [hget]

/-- The queue `setHandler` works on after creating it when absent. -/
theorem ensure_spec (queues : Queues) (name : GoString) (size : Nat)
    (hinv : ∀ ch, queues.get name = some ch → ch.buf.length ≤ ch.cap ∧ size ≤ ch.cap) :
    ∃ ch, (match queues.get name with
        | some _ => queues
        | none => queues.set name ⟨[], size⟩).get name = some ch
      ∧ ch.buf = (chanOf queues name).buf ∧ ch.buf.length ≤ ch.cap ∧ size ≤ ch.cap
      ∧ ∀ other, other ≠ name →
        (match queues.get name with
          | some _ => queues
          | none => queues.set name ⟨[], size⟩).get other = queues.get other := by
  cases h : queues.get name with
  | none =>
    refine ⟨⟨[], size⟩, ?_, ?_, ?_, ?_, ?_⟩
    · simp [GoMap.get_set]
    · simp [chanOf, h]
    · simp
    · simp
    · intro other hne
      simp [GoMap.get_set, Ne.symm hne]
  | some ch =>
    obtain ⟨h1, h2⟩ := hinv ch h
    exact ⟨ch, h, by simp [chanOf, h], h1, h2, fun _ _ => rfl⟩

theorem trySend_of_get {queues : Queues} {name : GoString} {ch : Chan} (message : GoString)
    (h : queues.get name = some ch) :
    trySend queues name message =
      if ch.buf.length < ch.cap then some (queues.set name { ch with buf := ch.buf ++ [message] })
      else none := by
  simp [trySend, chanOf_of_get h]

/-- What `setHandler` computes on a store whose queue `name`, when present, has
`len ≤ cap` and `QueueInitSize ≤ cap`: `queuesG` is the store after the queue has been
created if absent and grown, `c1` the capacity of the queue at that point. -/
theorem setHandler_spec (cfg : Config) (env : Env) (room : Bool) (st : State)
    (name message : GoString)
    (hinv : ∀ ch, st.queues.get name = some ch →
      ch.buf.length ≤ ch.cap ∧ cfg.QueueInitSize ≤ ch.cap) :
    ∃ queuesG c1,
      queuesG.get name = some ⟨(chanOf st.queues name).buf, c1⟩
      ∧ (chanOf st.queues name).buf.length ≤ c1 ∧ cfg.QueueInitSize ≤ c1
      ∧ (2 ≤ cfg.QueueInitSize → (chanOf st.queues name).buf.length < c1)
      ∧ (∀ other, other ≠ name → queuesG.get other = st.queues.get other)
      ∧ setHandler cfg env room st name message = some (
          if message = [] then (⟨queuesG, st.journal⟩, .badRequest)
          else match checkPayload cfg env message with
            | some err => (⟨queuesG, st.journal⟩, err)
            | none =>
              if (chanOf st.queues name).buf.length < c1 then
                if room then
                  (⟨queuesG.set name ⟨(chanOf st.queues name).buf ++ [message], c1⟩,
                    st.journal ++ [getRecovery SET name message]⟩, .ok)
                else
                  (⟨queuesG.set name ⟨(chanOf st.queues name).buf ++ [message], c1⟩,
                    st.journal⟩, .journalRejected)
              else (⟨queuesG, st.journal⟩, .queueFull)) := by
  obtain ⟨ch, hget0, hbuf, hlen, hsize, hother0⟩ :=
    ensure_spec st.queues name cfg.QueueInitSize hinv
  obtain ⟨queuesG, c1, hgrow, hgetG, hlen1, hcap1, _, hfree, hotherG⟩ :=
    grow_spec _ name cfg.QueueInitSize ch hget0 hlen hsize
  rw [hbuf] at hgetG hlen1 hfree
  refine ⟨queuesG, c1, hgetG, hlen1, by omega, hfree, ?_, ?_⟩
  · intro other hne
    rw [hotherG other hne, hother0 other hne]
  · unfold setHandler
    simp only [hgrow, Option.map_some']
    by_cases hm : message = []
    · simp [hm]
    · simp only [hm, if_false]
      cases hcp : checkPayload cfg env message with
      | some err => simp
      | none =>
        simp only [trySend_of_get message hgetG]
        by_cases hfull : (chanOf st.queues name).buf.length < c1
        · cases room <;> simp [hfull]
        · simp [hfull]

theorem checkPayload_err (cfg : Config) (env : Env) (message : GoString) (err : Reply)
    (h : checkPayload cfg env message = some err) : err = .notAcceptable ∨ err = .dbError := by
  unfold checkPayload at h
  split at h
  · split_ifs at h
    · simp at h; exact Or.inl h.symm
    · split at h
      · split at h <;> simp at h
        · exact Or.inr h.symm
        · exact Or.inr h.symm
        · exact Or.inl h.symm
      · simp at h; exact Or.inl h.symm
  · simp at h

/-! ## Set under journal backpressure -/

/-- C4, counterexample. With capacity 2 and `recoveryCh` full, set jobs hello on the
empty store replies 500 and leaves hello in the live queue. -/
theorem set_backpressure_counterexample :
    setHandler ⟨2, 100, []⟩ ⟨fun _ => false, fun _ _ => .row, fun _ => .notExist, fun _ _ => none⟩ false State.empty
        (str "jobs") (str "hello")
      = some (⟨[(str "jobs", ⟨[str "hello"], 2⟩)], []⟩, .journalRejected)
    ∧ (chanOf State.empty.queues (str "jobs")).buf = []
    ∧ (chanOf [(str "jobs", ⟨[str "hello"], 2⟩)] (str "jobs")).buf = [str "hello"]
    ∧ ¬ (∀ (cfg : Config) (env : Env) (st st1 : State) (name message : GoString) (reply : Reply),
        message ≠ [] → setHandler cfg env false st name message = some (st1, reply) →
        reply.status ≠ 200 ∧ (chanOf st1.queues name).buf = (chanOf st.queues name).buf) := by
  refine ⟨by decide, by decide, by decide, ?_⟩
  intro h
  have h1 := h ⟨2, 100, []⟩ ⟨fun _ => false, fun _ _ => .row, fun _ => .notExist, fun _ _ => none⟩ State.empty
    ⟨[(str "jobs", ⟨[str "hello"], 2⟩)], []⟩ (str "jobs") (str "hello") .journalRejected
    (by decide) (by decide)
  exact absurd h1.2 (by decide)

/-- C4, amended. When `recoveryCh` is full, set replies with a failure, appends no
journal record and changes no other queue; the store is not rolled back: if the payload
passes its check and the queue has a free slot after growth (always so for
`QueueInitSize ≥ 2`) the reply is the 500 of the journal branch and the message stays
at the back of the live queue; in every other case the contents of the queue are
unchanged. -/
theorem set_under_backpressure (cfg : Config) (env : Env) (st : State)
    (name message : GoString) (hne : message ≠ [])
    (hinv : ∀ ch, st.queues.get name = some ch →
      ch.buf.length ≤ ch.cap ∧ cfg.QueueInitSize ≤ ch.cap) :
    ∃ st1 reply, setHandler cfg env false st name message = some (st1, reply)
      ∧ reply.status ≠ 200 ∧ st1.journal = st.journal
      ∧ (∀ other, other ≠ name → st1.queues.get other = st.queues.get other)
      ∧ ((reply = .journalRejected
            ∧ (chanOf st1.queues name).buf = (chanOf st.queues name).buf ++ [message])
          ∨ (reply ≠ .journalRejected
            ∧ (chanOf st1.queues name).buf = (chanOf st.queues name).buf))
      ∧ (checkPayload cfg env message = none → 2 ≤ cfg.QueueInitSize →
          reply = .journalRejected) := by
  obtain ⟨queuesG, c1, hgetG, _, _, hfree, hother, hset⟩ :=
    setHandler_spec cfg env false st name message hinv
  simp only [hne, if_false] at hset
  have hbufG : (chanOf queuesG name).buf = (chanOf st.queues name).buf := by
    rw [chanOf_of_get hgetG]
  cases hcp : checkPayload cfg env message with
  | some err =>
    rw [hcp] at hset
    refine ⟨_, _, hset, ?_, rfl, hother, Or.inr ⟨?_, hbufG⟩, by simp⟩
    · rcases checkPayload_err cfg env message err hcp with e | e <;> subst e <;> decide
    · rcases checkPayload_err cfg env message err hcp with e | e <;> subst e <;> simp
  | none =>
    rw [hcp] at hset
    by_cases hfull : (chanOf st.queues name).buf.length < c1
    · simp only [hfull, if_true] at hset
      refine ⟨_, _, hset, by decide, rfl, ?_, Or.inl ⟨rfl, ?_⟩, fun _ _ => rfl⟩
      · intro other hne1
        simp only [GoMap.get_set, Ne.symm hne1, if_false]
        exact hother other hne1
      · simp [chanOf_set]
    · simp only [hfull, if_false] at hset
      refine ⟨_, _, hset, by decide, rfl, hother, Or.inr ⟨by simp, hbufG⟩, ?_⟩
      intro _ h2
      exact absurd (hfree h2) hfull

theorem set_under_backpressure_witness :
    ∃ st1 reply, setHandler ⟨2, 100, []⟩ ⟨fun _ => false, fun _ _ => .row, fun _ => .notExist, fun _ _ => none⟩ false
          ⟨[(str "jobs", ⟨[str "a"], 2⟩)], []⟩ (str "jobs") (str "hello") = some (st1, reply)
      ∧ reply.status ≠ 200 ∧ st1.journal = []
      ∧ (∀ other, other ≠ str "jobs" →
          st1.queues.get other = GoMap.get [(str "jobs", ⟨[str "a"], 2⟩)] other)
      ∧ ((reply = .journalRejected
            ∧ (chanOf st1.queues (str "jobs")).buf
              = (chanOf [(str "jobs", ⟨[str "a"], 2⟩)] (str "jobs")).buf ++ [str "hello"])
          ∨ (reply ≠ .journalRejected
            ∧ (chanOf st1.queues (str "jobs")).buf
              = (chanOf [(str "jobs", ⟨[str "a"], 2⟩)] (str "jobs")).buf))
      ∧ (checkPayload ⟨2, 100, []⟩ ⟨fun _ => false, fun _ _ => .row, fun _ => .notExist, fun _ _ => none⟩ (str "hello") = none →
          2 ≤ 2 → reply = .journalRejected) :=
  set_under_backpressure ⟨2, 100, []⟩ ⟨fun _ => false, fun _ _ => .row, fun _ => .notExist, fun _ _ => none⟩
    ⟨[(str "jobs", ⟨[str "a"], 2⟩)], []⟩ (str "jobs") (str "hello") (by decide)
    (by
      intro ch h
      have e : ch = ⟨[str "a"], 2⟩ := by
        have h0 : GoMap.get [(str "jobs", (⟨[str "a"], 2⟩ : Chan))] (str "jobs")
            = some ⟨[str "a"], 2⟩ := by decide
        rw [h0] at h
        exact (Option.some.inj h).symm
      subst e
      decide)

/-! ## FIFO order -/

/-- An acknowledged set appends the message to the queue and the SET record to the
journal, and keeps the channel well formed. -/
theorem set_ok_step (cfg : Config) (env : Env) (room : Bool) (st st1 : State)
    (name message : GoString)
    (hinv : ∀ ch, st.queues.get name = some ch →
      ch.buf.length ≤ ch.cap ∧ cfg.QueueInitSize ≤ ch.cap)
    (h : setHandler cfg env room st name message = some (st1, .ok)) :
    (∃ c, st1.queues.get name = some ⟨(chanOf st.queues name).buf ++ [message], c⟩
        ∧ (chanOf st.queues name).buf.length + 1 ≤ c ∧ cfg.QueueInitSize ≤ c)
      ∧ st1.journal = st.journal ++ [getRecovery SET name message]
      ∧ ∀ other, other ≠ name → st1.queues.get other = st.queues.get other := by
  obtain ⟨queuesG, c1, hgetG, _, hcap, _, hother, hset⟩ :=
    setHandler_spec cfg env room st name message hinv
  rw [hset] at h
  by_cases hm : message = []
  · simp [hm] at h
  · simp only [hm, if_false] at h
    cases hcp : checkPayload cfg env message with
    | some err =>
      rw [hcp] at h
      rcases checkPayload_err cfg env message err hcp with e | e <;> subst e <;> simp at h
    | none =>
      rw [hcp] at h
      by_cases hfull : (chanOf st.queues name).buf.length < c1
      · cases room
        · simp [hfull] at h
        · simp only [hfull, if_true, Option.some.injEq, Prod.mk.injEq, and_true] at h
          subst h
          refine ⟨⟨c1, by simp [GoMap.get_set], by omega, hcap⟩, rfl, ?_⟩
          intro other hne
          simp only [GoMap.get_set, Ne.symm hne, if_false]
          exact hother other hne
      · simp [hfull] at h

/-- With a capacity of at least 2 and room in `recoveryCh`, a set of a non-empty
message that passes the payload check is acknowledged. -/
theorem set_acked (cfg : Config) (env : Env) (st : State) (name message : GoString)
    (hs : 2 ≤ cfg.QueueInitSize) (hm : message ≠ []) (hcp : checkPayload cfg env message = none)
    (hinv : ∀ ch, st.queues.get name = some ch →
      ch.buf.length ≤ ch.cap ∧ cfg.QueueInitSize ≤ ch.cap) :
    ∃ st1, setHandler cfg env true st name message = some (st1, .ok) := by
  obtain ⟨queuesG, c1, _, _, _, hfree, _, hset⟩ :=
    setHandler_spec cfg env true st name message hinv
  simp only [hm, if_false, hcp, hfree hs, if_true] at hset
  exact ⟨_, hset⟩

theorem serve_cons (cfg : Config) (env : Env) (st : State) (r : Request) (room : Bool)
    (rest : List (Request × Bool)) :
    serve cfg env st ((r, room) :: rest) =
      (handle cfg env st room r).bind
        (fun p => (serve cfg env p.1 rest).map (fun p1 => (p1.1, p.2 :: p1.2))) := by
  simp only [serve]
  cases handle cfg env st room r with
  | none => rfl
  | some p => rfl

/-- Acknowledged sets of `msgs` on one queue append `msgs` to its contents. -/
theorem serve_sets_ok (cfg : Config) (env : Env) (name : GoString) (msgs : List GoString) :
    ∀ (st st1 : State) (replies : List Reply),
      (∀ ch, st.queues.get name = some ch →
        ch.buf.length ≤ ch.cap ∧ cfg.QueueInitSize ≤ ch.cap) →
      serve cfg env st (msgs.map (fun m => (Request.set name m, true))) = some (st1, replies) →
      (∀ r ∈ replies, r = Reply.ok) →
      (chanOf st1.queues name).buf = (chanOf st.queues name).buf ++ msgs
        ∧ (∀ ch, st1.queues.get name = some ch →
            ch.buf.length ≤ ch.cap ∧ cfg.QueueInitSize ≤ ch.cap)
        ∧ (msgs ≠ [] → ∃ ch, st1.queues.get name = some ch) := by
  induction msgs with
  | nil =>
    intro st st1 replies hinv h _
    simp only [List.map_nil, serve, Option.some.injEq, Prod.mk.injEq] at h
    obtain ⟨rfl, _⟩ := h
    exact ⟨by simp, hinv, fun h => absurd rfl h⟩
  | cons m msgs ih =>
    intro st st1 replies hinv h hok
    simp only [List.map_cons, serve_cons, handle] at h
    cases hset : setHandler cfg env true st name m with
    | none => simp [hset] at h
    | some p =>
      obtain ⟨stA, reply⟩ := p
      simp only [hset, Option.some_bind] at h
      cases hrest : serve cfg env stA (msgs.map (fun m => (Request.set name m, true))) with
      | none => simp [hrest] at h
      | some p1 =>
        obtain ⟨stB, repliesB⟩ := p1
        simp only [hrest, Option.map_some', Option.some.injEq, Prod.mk.injEq] at h
        obtain ⟨rfl, rfl⟩ := h
        have hreply : reply = .ok := hok reply (by simp)
        subst hreply
        obtain ⟨⟨c, hgetA, hlenA, hcapA⟩, _, _⟩ := set_ok_step cfg env true st stA name m hinv hset
        have hinvA : ∀ ch, stA.queues.get name = some ch →
            ch.buf.length ≤ ch.cap ∧ cfg.QueueInitSize ≤ ch.cap := by
          intro ch hch
          rw [hgetA] at hch
          cases hch
          simp only [List.length_append, List.length_cons, List.length_nil]
          exact ⟨hlenA, hcapA⟩
        obtain ⟨hbuf, hinvB, hex⟩ := ih stA stB repliesB hinvA hrest
          (fun r hr => hok r (by simp [hr]))
        refine ⟨?_, hinvB, ?_⟩
        · rw [hbuf, chanOf_of_get hgetA]
          simp
        · intro _
          cases msgs with
          | nil =>
            simp only [List.map_nil, serve, Option.some.injEq, Prod.mk.injEq] at hrest
            obtain ⟨rfl, _⟩ := hrest
            exact ⟨_, hgetA⟩
          | cons m1 msgs1 => exact hex (by simp)

/-- Successive gets on a queue holding `L` return the messages of `L` front first
and leave the queue present and empty. -/
theorem serve_gets (cfg : Config) (env : Env) (name : GoString) (L : List GoString) :
    ∀ (st : State) (c : Nat), st.queues.get name = some ⟨L, c⟩ →
      ∃ st2, serve cfg env st (List.replicate L.length (Request.get name, true))
          = some (st2, L.map Reply.message)
        ∧ st2.queues.get name = some ⟨[], c⟩ := by
  induction L with
  | nil =>
    intro st c h
    exact ⟨st, rfl, h⟩
  | cons m L ih =>
    intro st c h
    have hrecv := tryRecv_cons h (rfl : (⟨m :: L, c⟩ : Chan).buf = m :: L)
    have hget : getHandler true st name
        = (⟨st.queues.set name ⟨L, c⟩, st.journal ++ [getRecovery GET name m]⟩,
            .message m) := by
      simp [getHandler, h, hrecv]
    obtain ⟨st2, hserve, hfinal⟩ := ih
      ⟨st.queues.set name ⟨L, c⟩, st.journal ++ [getRecovery GET name m]⟩ c
      (by simp [GoMap.get_set])
    refine ⟨st2, ?_, hfinal⟩
    simp only [List.length_cons, List.replicate_succ, serve_cons, handle, hget,
      Option.some_bind, hserve, Option.map_some', List.map_cons]

/-- With a capacity of at least 2, sets of non-empty messages that pass the payload
check are all acknowledged, however many there are. -/
theorem serve_sets_acked (cfg : Config) (env : Env) (name : GoString)
    (hs : 2 ≤ cfg.QueueInitSize) (msgs : List GoString) :
    ∀ (st : State),
      (∀ ch, st.queues.get name = some ch →
        ch.buf.length ≤ ch.cap ∧ cfg.QueueInitSize ≤ ch.cap) →
      (∀ x ∈ msgs, x ≠ [] ∧ checkPayload cfg env x = none) →
      ∃ st1, serve cfg env st (msgs.map (fun m => (Request.set name m, true)))
        = some (st1, List.replicate msgs.length Reply.ok) := by
  induction msgs with
  | nil => intro st _ _; exact ⟨st, rfl⟩
  | cons m msgs ih =>
    intro st hinv hplain
    obtain ⟨hm, hcp⟩ := hplain m (by simp)
    obtain ⟨stA, hset⟩ := set_acked cfg env st name m hs hm hcp hinv
    obtain ⟨⟨c, hgetA, hlenA, hcapA⟩, _, _⟩ := set_ok_step cfg env true st stA name m hinv hset
    have hinvA : ∀ ch, stA.queues.get name = some ch →
        ch.buf.length ≤ ch.cap ∧ cfg.QueueInitSize ≤ ch.cap := by
      intro ch hch
      rw [hgetA] at hch
      cases hch
      simp only [List.length_append, List.length_cons, List.length_nil]
      exact ⟨hlenA, hcapA⟩
    obtain ⟨stB, hrest⟩ := ih stA hinvA (fun x hx => hplain x (by simp [hx]))
    refine ⟨stB, ?_⟩
    simp only [List.map_cons, serve_cons, handle, hset, Option.some_bind, hrest,
      Option.map_some', List.length_cons, List.replicate_succ]

/-- C3. FIFO across growth: on a store without the queue, if the sets of the messages
`m, msgs` (any number of them, any configured capacity, `recoveryCh` accepting) are all
acknowledged, then as many gets return exactly these messages in the order they were
set and the next get replies Empty; and with a capacity of at least 2 the sets of
non-empty messages that pass the payload check are all acknowledged. -/
theorem fifo_across_growth (cfg : Config) (env : Env) (st : State) (name m : GoString)
    (msgs : List GoString) (habsent : st.queues.get name = none) :
    (∀ (st1 : State) (replies : List Reply),
      serve cfg env st ((m :: msgs).map (fun x => (Request.set name x, true)))
        = some (st1, replies) →
      (∀ r ∈ replies, r = Reply.ok) →
      ∃ st2, serve cfg env st1 (List.replicate (m :: msgs).length (Request.get name, true))
          = some (st2, (m :: msgs).map Reply.message)
        ∧ ∀ room, getHandler room st2 name = (st2, .gone))
    ∧ (2 ≤ cfg.QueueInitSize → (∀ x ∈ m :: msgs, x ≠ [] ∧ checkPayload cfg env x = none) →
        ∃ st1, serve cfg env st ((m :: msgs).map (fun x => (Request.set name x, true)))
          = some (st1, List.replicate (m :: msgs).length Reply.ok)) := by
  have hinv : ∀ ch, st.queues.get name = some ch →
      ch.buf.length ≤ ch.cap ∧ cfg.QueueInitSize ≤ ch.cap := by
    intro ch hch
    rw [habsent] at hch
    cases hch
  constructor
  · intro st1 replies hserve hok
    obtain ⟨hbuf, _, hex⟩ := serve_sets_ok cfg env name (m :: msgs) st st1 replies hinv hserve hok
    obtain ⟨ch, hch⟩ := hex (by simp)
    have hb : ch.buf = m :: msgs := by
      rw [chanOf_of_get hch] at hbuf
      rw [hbuf]
      simp [chanOf, habsent]
    have hch1 : st1.queues.get name = some ⟨m :: msgs, ch.cap⟩ := by
      rw [hch, ← hb]
    obtain ⟨st2, hgets, hfinal⟩ := serve_gets cfg env name (m :: msgs) st1 ch.cap hch1
    refine ⟨st2, hgets, ?_⟩
    intro room
    simp [getHandler, hfinal, tryRecv_nil hfinal rfl]
  · intro hs hplain
    exact serve_sets_acked cfg env name hs (m :: msgs) st hinv hplain

theorem fifo_across_growth_witness :
    ∃ st1, serve ⟨2, 100, []⟩ ⟨fun _ => false, fun _ _ => .row, fun _ => .notExist, fun _ _ => none⟩ State.empty
        ([str "a", str "b", str "c", str "d", str "e"].map
          (fun x => (Request.set (str "jobs") x, true)))
      = some (st1, List.replicate [str "a", str "b", str "c", str "d", str "e"].length Reply.ok)
      ∧ ∃ st2, serve ⟨2, 100, []⟩ ⟨fun _ => false, fun _ _ => .row, fun _ => .notExist, fun _ _ => none⟩ st1
          (List.replicate [str "a", str "b", str "c", str "d", str "e"].length
            (Request.get (str "jobs"), true))
          = some (st2, [str "a", str "b", str "c", str "d", str "e"].map Reply.message)
        ∧ ∀ room, getHandler room st2 (str "jobs") = (st2, .gone) := by
  have h := fifo_across_growth ⟨2, 100, []⟩ ⟨fun _ => false, fun _ _ => .row, fun _ => .notExist, fun _ _ => none⟩ State.empty
    (str "jobs") (str "a") [str "b", str "c", str "d", str "e"] (by decide)
  obtain ⟨st1, h1⟩ := h.2 (by decide) (by decide)
  exact ⟨st1, h1, h.1 st1 _ h1 (by simp)⟩

/-! ## The journal on disk -/

theorem Writer.write_lines (cfg : Config) (w : Writer) (recovery : GoString) :
    (w.write cfg recovery).closed.flatten ++ (w.write cfg recovery).file
      = w.closed.flatten ++ w.file ++ [QueryEscape recovery] := by
  unfold Writer.write
  simp only []
  split_ifs <;> simp

theorem Writer.foldl_lines (cfg : Config) (records : List GoString) :
    ∀ w : Writer, (records.foldl (Writer.write cfg) w).closed.flatten
        ++ (records.foldl (Writer.write cfg) w).file
      = w.closed.flatten ++ w.file ++ records.map QueryEscape := by
  induction records with
  | nil => intro w; simp
  | cons r records ih =>
    intro w
    simp only [List.foldl_cons, List.map_cons]
    rw [ih, Writer.write_lines]
    simp

/-- The segments the writer produces hold, read in order, the escaped records. -/
theorem writingRecovery_flatten (cfg : Config) (records : List GoString) :
    (writingRecovery cfg records).flatten = records.map QueryEscape := by
  unfold writingRecovery
  simp only [List.flatten_append, List.flatten_cons, List.flatten_nil, List.append_nil]
  rw [Writer.foldl_lines]
  simp

/-- The scanner yields a file whose lines are all shorter than its buffer limit as it
was written. -/
theorem scanLines_of_short (written : List GoString)
    (h : ∀ line ∈ written, line.length < MaxScanTokenSize) : scanLines written = written := by
  unfold scanLines
  rw [List.takeWhile_eq_self_iff]
  intro line hline
  simpa using h line hline

/-- The segments the writer produces for records whose escaped lines are all shorter
than the scanner's limit are scanned back as they were written. -/
theorem scan_writingRecovery (cfg : Config) (records : List GoString)
    (h : ∀ rec ∈ records, (QueryEscape rec).length < MaxScanTokenSize) :
    (writingRecovery cfg records).map scanLines = writingRecovery cfg records := by
  have hflat := writingRecovery_flatten cfg records
  have hall : ∀ seg ∈ writingRecovery cfg records, scanLines seg = seg := by
    intro seg hseg
    apply scanLines_of_short
    intro line hline
    have hmem : line ∈ (writingRecovery cfg records).flatten :=
      List.mem_flatten.2 ⟨seg, hseg, hline⟩
    rw [hflat] at hmem
    obtain ⟨rec, hrec, rfl⟩ := List.mem_map.1 hmem
    exact h rec hrec
  conv_rhs => rw [← List.map_id (writingRecovery cfg records)]
  exact List.map_congr_left (fun seg hseg => by simpa using hall seg hseg)

theorem journalLines_of_records (cfg : Config) (st : State) (records : List Record)
    (h : st.journal = records.map Record.raw)
    (hshort : ∀ rec ∈ st.journal, (QueryEscape rec).length < MaxScanTokenSize) :
    journalLines cfg st = records.map Record.encode := by
  unfold journalLines
  rw [scan_writingRecovery cfg st.journal hshort, writingRecovery_flatten, h, List.map_map]
  rfl

theorem replayRecords_append (queuesMap : QueuesMap) (records : List Record) (r : Record) :
    replayRecords queuesMap (records ++ [r])
      = applyRecord (replayRecords queuesMap records) r.1 r.2.1 r.2.2 := by
  simp [replayRecords, List.foldl_append]

theorem chanOf_delete (queues : Queues) (name name1 : GoString) :
    chanOf (queues.delete name) name1
      = if name = name1 then ⟨[], 0⟩ else chanOf queues name1 := by
  unfold chanOf
  rw [GoMap.get_delete]
  split_ifs <;> rfl

/-! ## Skip -/

theorem skipLoop_spec (n : Nat) : ∀ q : Chan, q.buf.length ≤ q.cap →
    skipLoop n q = some ⟨q.buf.rotate n, q.cap⟩ := by
  induction n with
  | zero => intro q _; simp [skipLoop]
  | succ n ih =>
    intro q h
    obtain ⟨buf, cap⟩ := q
    cases buf with
    | nil =>
      have := ih ⟨[], cap⟩ (by simp)
      simp only [List.rotate_nil] at this ⊢
      simp [skipLoop, skipOnce, this]
    | cons a l =>
      simp only [List.length_cons] at h
      have hlt : l.length < cap := by omega
      have := ih ⟨l ++ [a], cap⟩ (by simp; omega)
      simp only [skipLoop, skipOnce, hlt, if_true, Option.some_bind, this,
        List.rotate_cons_succ]

/-! ## The durability invariant -/

theorem chanOf_congr {queues queues1 : Queues} {name : GoString}
    (h : queues1.get name = queues.get name) : chanOf queues1 name = chanOf queues name := by
  simp [chanOf, h]

theorem Tracked.durable {cfg : Config} {st : State} {records : List Record}
    (h : Tracked cfg st records)
    (hshort : ∀ rec ∈ st.journal, (QueryEscape rec).length < MaxScanTokenSize) :
    Durable cfg st := by
  obtain ⟨hj, hwf, _, hc⟩ := h
  intro q m
  rw [journalLines_of_records cfg st records hj hshort, replayLines_eq_replayRecords,
    filterMap_decode_encode records hwf]
  exact hc q m

/-- Replacing the channel of one name by one with the same contents keeps the state
tracked. -/
theorem Tracked.regrow {cfg : Config} {st : State} {records : List Record}
    (h : Tracked cfg st records) (name : GoString) (queuesG : Queues) (c1 : Nat)
    (hgetG : queuesG.get name = some ⟨(chanOf st.queues name).buf, c1⟩)
    (hlen : (chanOf st.queues name).buf.length ≤ c1) (hcap : cfg.QueueInitSize ≤ c1)
    (hother : ∀ other, other ≠ name → queuesG.get other = st.queues.get other) :
    Tracked cfg ⟨queuesG, st.journal⟩ records := by
  obtain ⟨hj, hwf, hq, hc⟩ := h
  refine ⟨hj, hwf, ?_, ?_⟩
  · intro q ch hch
    by_cases e : q = name
    · subst e
      rw [hgetG] at hch
      cases hch
      exact ⟨hlen, hcap⟩
    · rw [hother q e] at hch
      exact hq q ch hch
  · intro q m
    rw [← hc q m]
    unfold copies
    by_cases e : q = name
    · subst e
      rw [chanOf_of_get hgetG]
    · rw [chanOf_congr (hother q e)]

/-- An enqueue journaled as a SET keeps the state tracked. -/
theorem Tracked.enqueue {cfg : Config} {queues : Queues} {journal : List GoString}
    {records : List Record} (h : Tracked cfg ⟨queues, journal⟩ records)
    (name message : GoString) (hname : SP ∉ name) (ch : Chan)
    (hget : queues.get name = some ch) (hfree : ch.buf.length < ch.cap) :
    Tracked cfg ⟨queues.set name ⟨ch.buf ++ [message], ch.cap⟩,
      journal ++ [getRecovery SET name message]⟩ (records ++ [(SET, name, message)]) := by
  obtain ⟨hj, hwf, hq, hc⟩ := h
  simp only [] at hj hq hc
  refine ⟨?_, ?_, ?_, ?_⟩
  · simp [hj, Record.raw]
  · intro r hr
    rcases List.mem_append.1 hr with h1 | h1
    · exact hwf r h1
    · simp only [List.mem_singleton] at h1
      subst h1
      exact ⟨Or.inl rfl, hname⟩
  · intro q ch1 hch1
    simp only [GoMap.get_set] at hch1
    by_cases e : name = q
    · simp only [e, if_true, Option.some.injEq] at hch1
      subst hch1
      simp only [List.length_append, List.length_cons, List.length_nil]
      exact ⟨by omega, (hq name ch hget).2⟩
    · simp only [e, if_false] at hch1
      exact hq q ch1 hch1
  · intro q m
    rw [replayRecords_append, netCount_applyRecord, ← hc q m]
    simp only [copies, chanOf_set, if_true]
    by_cases e : name = q
    · subst e
      simp only [if_true, true_and, chanOf_of_get hget, List.count_append, List.count_cons,
        List.count_nil, beq_iff_eq]
      by_cases e2 : message = m <;> simp [e2]
    · simp [e]

/-- A dequeue journaled as a GET keeps the state tracked. -/
theorem Tracked.dequeue {cfg : Config} {queues : Queues} {journal : List GoString}
    {records : List Record} (h : Tracked cfg ⟨queues, journal⟩ records)
    (name message : GoString) (hname : SP ∉ name) (rest : List GoString) (cap : Nat)
    (hget : queues.get name = some ⟨message :: rest, cap⟩) :
    Tracked cfg ⟨queues.set name ⟨rest, cap⟩,
      journal ++ [getRecovery GET name message]⟩ (records ++ [(GET, name, message)]) := by
  obtain ⟨hj, hwf, hq, hc⟩ := h
  simp only [] at hj hq hc
  obtain ⟨d1, _, _⟩ := methods_distinct
  refine ⟨?_, ?_, ?_, ?_⟩
  · simp [hj, Record.raw]
  · intro r hr
    rcases List.mem_append.1 hr with h1 | h1
    · exact hwf r h1
    · simp only [List.mem_singleton] at h1
      subst h1
      exact ⟨Or.inr (Or.inl rfl), hname⟩
  · intro q ch1 hch1
    simp only [GoMap.get_set] at hch1
    by_cases e : name = q
    · simp only [e, if_true, Option.some.injEq] at hch1
      subst hch1
      have := hq name _ hget
      simp only [List.length_cons] at this
      exact ⟨by show rest.length ≤ cap; omega, this.2⟩
    · simp only [e, if_false] at hch1
      exact hq q ch1 hch1
  · intro q m
    rw [replayRecords_append, netCount_applyRecord, ← hc q m]
    simp only [copies, chanOf_set, if_true, Ne.symm d1, if_false]
    by_cases e : name = q
    · subst e
      simp only [if_true, true_and, chanOf_of_get hget, List.count_cons, beq_iff_eq]
      by_cases e2 : message = m <;> simp [e2]
    · simp [e]

/-- A delete journaled as a DEL keeps the state tracked. -/
theorem Tracked.drop {cfg : Config} {queues : Queues} {journal : List GoString}
    {records : List Record} (h : Tracked cfg ⟨queues, journal⟩ records)
    (name : GoString) (hname : SP ∉ name) :
    Tracked cfg ⟨queues.delete name, journal ++ [getRecovery DEL name []]⟩
      (records ++ [(DEL, name, [])]) := by
  obtain ⟨hj, hwf, hq, hc⟩ := h
  simp only [] at hj hq hc
  obtain ⟨_, d2, d3⟩ := methods_distinct
  refine ⟨?_, ?_, ?_, ?_⟩
  · simp [hj, Record.raw]
  · intro r hr
    rcases List.mem_append.1 hr with h1 | h1
    · exact hwf r h1
    · simp only [List.mem_singleton] at h1
      subst h1
      exact ⟨Or.inr (Or.inr rfl), hname⟩
  · intro q ch1 hch1
    simp only [GoMap.get_delete] at hch1
    by_cases e : name = q
    · simp [e] at hch1
    · simp only [e, if_false] at hch1
      exact hq q ch1 hch1
  · intro q m
    rw [replayRecords_append, netCount_applyRecord, ← hc q m]
    simp only [copies, chanOf_delete, if_true, Ne.symm d2, Ne.symm d3, if_false]
    by_cases e : name = q <;> simp [e]

theorem Queues.wellFormed_set {size : Nat} {queues : Queues} (h : Queues.wellFormed size queues)
    (name : GoString) (ch : Chan) (hlen : ch.buf.length ≤ ch.cap) (hcap : size ≤ ch.cap) :
    Queues.wellFormed size (queues.set name ch) := by
  intro q ch1 hch1
  rw [GoMap.get_set] at hch1
  by_cases e : name = q
  · simp only [e, if_true, Option.some.injEq] at hch1
    subst hch1
    exact ⟨hlen, hcap⟩
  · simp only [e, if_false] at hch1
    exact h q ch1 hch1

theorem Queues.wellFormed_delete {size : Nat} {queues : Queues}
    (h : Queues.wellFormed size queues) (name : GoString) :
    Queues.wellFormed size (queues.delete name) := by
  intro q ch1 hch1
  rw [GoMap.get_delete] at hch1
  by_cases e : name = q
  · simp [e] at hch1
  · simp only [e, if_false] at hch1
    exact h q ch1 hch1

theorem Queues.wellFormed_grown {size : Nat} {queues queuesG : Queues}
    (h : Queues.wellFormed size queues) (name : GoString) (ch : Chan)
    (hgetG : queuesG.get name = some ch) (hlen : ch.buf.length ≤ ch.cap) (hcap : size ≤ ch.cap)
    (hother : ∀ other, other ≠ name → queuesG.get other = queues.get other) :
    Queues.wellFormed size queuesG := by
  intro q ch1 hch1
  by_cases e : q = name
  · subst e
    rw [hgetG] at hch1
    cases hch1
    exact ⟨hlen, hcap⟩
  · rw [hother q e] at hch1
    exact h q ch1 hch1

/-- On a well-formed store every handler returns, and the store stays well formed. -/
theorem handle_total (cfg : Config) (env : Env) (st : State) (room : Bool) (r : Request)
    (h : Queues.wellFormed cfg.QueueInitSize st.queues) :
    ∃ st1 reply, handle cfg env st room r = some (st1, reply)
      ∧ Queues.wellFormed cfg.QueueInitSize st1.queues := by
  cases r with
  | list => exact ⟨st, _, rfl, h⟩
  | count q =>
    refine ⟨st, (countHandler st q).2, ?_, h⟩
    simp only [handle, countHandler]
    cases st.queues.get q <;> rfl
  | skip q number =>
    simp only [handle, skipHandler]
    cases hq : st.queues.get q with
    | none => exact ⟨st, _, rfl, h⟩
    | some ch =>
      cases number with
      | none => exact ⟨st, _, rfl, h⟩
      | some n =>
        obtain ⟨hlen, hcap⟩ := h q ch hq
        simp only [skipLoop_spec n.toNat ch hlen, Option.map_some']
        exact ⟨_, _, rfl, Queues.wellFormed_set h q _ (by simpa using hlen) hcap⟩
  | set q m =>
    obtain ⟨queuesG, c1, hgetG, hlen1, hcap1, _, hother, hset⟩ :=
      setHandler_spec cfg env room st q m (fun ch hch => h q ch hch)
    have hG : Queues.wellFormed cfg.QueueInitSize queuesG :=
      Queues.wellFormed_grown h q _ hgetG hlen1 hcap1 hother
    simp only [handle, hset]
    by_cases hm : m = []
    · simp only [hm, if_true]
      exact ⟨_, _, rfl, hG⟩
    · simp only [hm, if_false]
      cases checkPayload cfg env m with
      | some err => exact ⟨_, _, rfl, hG⟩
      | none =>
        by_cases hfull : (chanOf st.queues q).buf.length < c1
        · have hS : Queues.wellFormed cfg.QueueInitSize
              (queuesG.set q ⟨(chanOf st.queues q).buf ++ [m], c1⟩) :=
            Queues.wellFormed_set hG q _ (by simp; omega) hcap1
          cases room
          · simp only [hfull, if_true]
            exact ⟨_, _, rfl, hS⟩
          · simp only [hfull, if_true]
            exact ⟨_, _, rfl, hS⟩
        · simp only [hfull, if_false]
          exact ⟨_, _, rfl, hG⟩
  | get q =>
    simp only [handle, getHandler]
    cases hq : st.queues.get q with
    | none => exact ⟨st, _, rfl, h⟩
    | some ch =>
      obtain ⟨buf, cap⟩ := ch
      obtain ⟨hlen, hcap⟩ := h q _ hq
      cases buf with
      | nil =>
        simp only [tryRecv_nil hq rfl]
        exact ⟨st, _, rfl, h⟩
      | cons a rest =>
        simp only [tryRecv_cons hq rfl]
        have hS : Queues.wellFormed cfg.QueueInitSize (st.queues.set q ⟨rest, cap⟩) :=
          Queues.wellFormed_set h q _ (by simp only [List.length_cons] at hlen ⊢; omega) hcap
        cases room
        · exact ⟨_, _, rfl, hS⟩
        · exact ⟨_, _, rfl, hS⟩
  | fetch q =>
    simp only [handle, fetchHandler]
    cases hq : st.queues.get q with
    | none => exact ⟨st, _, rfl, h⟩
    | some ch =>
      obtain ⟨buf, cap⟩ := ch
      obtain ⟨hlen, hcap⟩ := h q _ hq
      cases buf with
      | nil =>
        simp only [tryRecv_nil hq rfl]
        exact ⟨st, _, rfl, h⟩
      | cons a rest =>
        simp only [tryRecv_cons hq rfl]
        have hS : Queues.wellFormed cfg.QueueInitSize (st.queues.set q ⟨rest, cap⟩) :=
          Queues.wellFormed_set h q _ (by simp only [List.length_cons] at hlen ⊢; omega) hcap
        cases room
        · exact ⟨_, _, rfl, hS⟩
        · exact ⟨_, _, rfl, hS⟩
  | delete q =>
    simp only [handle, deleteHandler]
    cases hq : st.queues.get q with
    | none => exact ⟨st, _, rfl, h⟩
    | some ch =>
      cases room
      · exact ⟨_, _, rfl, Queues.wellFormed_delete h q⟩
      · exact ⟨_, _, rfl, Queues.wellFormed_delete h q⟩

/-- From a well-formed store every sequence of requests is served to the end. -/
theorem serve_total (cfg : Config) (env : Env) (reqs : List (Request × Bool)) :
    ∀ st : State, Queues.wellFormed cfg.QueueInitSize st.queues →
      ∃ st1 replies, serve cfg env st reqs = some (st1, replies)
        ∧ Queues.wellFormed cfg.QueueInitSize st1.queues := by
  induction reqs with
  | nil => intro st h; exact ⟨st, [], rfl, h⟩
  | cons p reqs ih =>
    intro st h
    obtain ⟨r, room⟩ := p
    obtain ⟨stA, reply, hA, hwfA⟩ := handle_total cfg env st room r h
    obtain ⟨stB, replies, hB, hwfB⟩ := ih stA hwfA
    exact ⟨stB, reply :: replies, by simp [serve_cons, hA, hB], hwfB⟩

/-- Replacing the channel of one name by a well-formed one with the same number of
copies of every message keeps the state tracked. -/
theorem Tracked.replace {cfg : Config} {st : State} {records : List Record}
    (h : Tracked cfg st records) (name : GoString) (ch : Chan)
    (hcount : ∀ m, ch.buf.count m = (chanOf st.queues name).buf.count m)
    (hlen : ch.buf.length ≤ ch.cap) (hcap : cfg.QueueInitSize ≤ ch.cap) :
    Tracked cfg ⟨st.queues.set name ch, st.journal⟩ records := by
  obtain ⟨hj, hwf, hq, hc⟩ := h
  refine ⟨hj, hwf, Queues.wellFormed_set hq name ch hlen hcap, ?_⟩
  intro q m
  rw [← hc q m]
  simp only [copies, chanOf_set]
  by_cases e : name = q
  · subst e
    simp [hcount m]
  · simp [e]

/-- A handler that does not leave through the rejected journal send keeps a tracked
state tracked, when the queue name of the request has no space. -/
theorem handle_tracked (cfg : Config) (env : Env) (st st1 : State) (room : Bool) (r : Request)
    (reply : Reply) (records : List Record) (h : Tracked cfg st records)
    (hname : ∀ q, r.queueName = some q → SP ∉ q)
    (hrun : handle cfg env st room r = some (st1, reply)) (hacc : reply ≠ .journalRejected) :
    ∃ records1, Tracked cfg st1 records1 := by
  have hwfq := h.2.2.1
  cases r with
  | list =>
    simp only [handle, listHandler, Option.some.injEq, Prod.mk.injEq] at hrun
    obtain ⟨rfl, _⟩ := hrun
    exact ⟨records, h⟩
  | count q =>
    simp only [handle, countHandler] at hrun
    cases hq : st.queues.get q <;> simp only [hq, Option.some.injEq, Prod.mk.injEq] at hrun <;>
      (obtain ⟨rfl, _⟩ := hrun; exact ⟨records, h⟩)
  | skip q number =>
    simp only [handle, skipHandler] at hrun
    cases hq : st.queues.get q with
    | none =>
      simp only [hq, Option.some.injEq, Prod.mk.injEq] at hrun
      obtain ⟨rfl, _⟩ := hrun
      exact ⟨records, h⟩
    | some ch =>
      cases number with
      | none =>
        simp only [hq, Option.some.injEq, Prod.mk.injEq] at hrun
        obtain ⟨rfl, _⟩ := hrun
        exact ⟨records, h⟩
      | some n =>
        obtain ⟨hlen, hcap⟩ := hwfq q ch hq
        simp only [hq, skipLoop_spec n.toNat ch hlen, Option.map_some', Option.some.injEq,
          Prod.mk.injEq] at hrun
        obtain ⟨rfl, _⟩ := hrun
        refine ⟨records, Tracked.replace h q _ ?_ (by simpa using hlen) hcap⟩
        intro m
        rw [chanOf_of_get hq]
        exact (List.rotate_perm ch.buf n.toNat).countP_eq _
  | set q m =>
    have hq : SP ∉ q := hname q rfl
    obtain ⟨queuesG, c1, hgetG, hlen1, hcap1, _, hother, hset⟩ :=
      setHandler_spec cfg env room st q m (fun ch hch => hwfq q ch hch)
    have hG : Tracked cfg ⟨queuesG, st.journal⟩ records :=
      Tracked.regrow h q queuesG c1 hgetG hlen1 hcap1 hother
    simp only [handle, hset, Option.some.injEq] at hrun
    by_cases hm : m = []
    · simp only [hm, if_true, Prod.mk.injEq] at hrun
      obtain ⟨rfl, _⟩ := hrun
      exact ⟨records, hG⟩
    · simp only [hm, if_false] at hrun
      cases hcp : checkPayload cfg env m with
      | some err =>
        simp only [hcp, Prod.mk.injEq] at hrun
        obtain ⟨rfl, _⟩ := hrun
        exact ⟨records, hG⟩
      | none =>
        simp only [hcp] at hrun
        by_cases hfull : (chanOf st.queues q).buf.length < c1
        · simp only [hfull, if_true] at hrun
          cases room
          · simp only [Bool.false_eq_true, if_false, Prod.mk.injEq] at hrun
            exact absurd hrun.2.symm hacc
          · simp only [if_true, Prod.mk.injEq] at hrun
            obtain ⟨rfl, _⟩ := hrun
            exact ⟨_, Tracked.enqueue hG q m hq ⟨(chanOf st.queues q).buf, c1⟩ hgetG hfull⟩
        · simp only [hfull, if_false, Prod.mk.injEq] at hrun
          obtain ⟨rfl, _⟩ := hrun
          exact ⟨records, hG⟩
  | get q =>
    have hqn : SP ∉ q := hname q rfl
    simp only [handle, getHandler] at hrun
    cases hq : st.queues.get q with
    | none =>
      simp only [hq, Option.some.injEq, Prod.mk.injEq] at hrun
      obtain ⟨rfl, _⟩ := hrun
      exact ⟨records, h⟩
    | some ch =>
      obtain ⟨buf, cap⟩ := ch
      cases buf with
      | nil =>
        simp only [hq, tryRecv_nil hq rfl, Option.some.injEq, Prod.mk.injEq] at hrun
        obtain ⟨rfl, _⟩ := hrun
        exact ⟨records, h⟩
      | cons a rest =>
        simp only [hq, tryRecv_cons hq rfl, Option.some.injEq] at hrun
        cases room
        · simp only [Bool.false_eq_true, if_false, Prod.mk.injEq] at hrun
          exact absurd hrun.2.symm hacc
        · simp only [if_true, Prod.mk.injEq] at hrun
          obtain ⟨rfl, _⟩ := hrun
          exact ⟨_, @Tracked.dequeue cfg st.queues st.journal records h q a hqn
            rest cap hq⟩
  | fetch q =>
    have hqn : SP ∉ q := hname q rfl
    simp only [handle, fetchHandler] at hrun
    cases hq : st.queues.get q with
    | none =>
      simp only [hq, Option.some.injEq, Prod.mk.injEq] at hrun
      obtain ⟨rfl, _⟩ := hrun
      exact ⟨records, h⟩
    | some ch =>
      obtain ⟨buf, cap⟩ := ch
      cases buf with
      | nil =>
        simp only [hq, tryRecv_nil hq rfl, Option.some.injEq, Prod.mk.injEq] at hrun
        obtain ⟨rfl, _⟩ := hrun
        exact ⟨records, h⟩
      | cons a rest =>
        simp only [hq, tryRecv_cons hq rfl, Option.some.injEq] at hrun
        cases room
        · simp only [Bool.false_eq_true, if_false, Prod.mk.injEq] at hrun
          exact absurd hrun.2.symm hacc
        · simp only [if_true, Prod.mk.injEq] at hrun
          obtain ⟨rfl, _⟩ := hrun
          exact ⟨_, @Tracked.dequeue cfg st.queues st.journal records h q a hqn
            rest cap hq⟩
  | delete q =>
    have hqn : SP ∉ q := hname q rfl
    simp only [handle, deleteHandler] at hrun
    cases hq : st.queues.get q with
    | none =>
      simp only [hq, Option.some.injEq, Prod.mk.injEq] at hrun
      obtain ⟨rfl, _⟩ := hrun
      exact ⟨records, h⟩
    | some ch =>
      simp only [hq, Option.some.injEq] at hrun
      cases room
      · simp only [Bool.false_eq_true, if_false, Prod.mk.injEq] at hrun
        exact absurd hrun.2.symm hacc
      · simp only [if_true, Prod.mk.injEq] at hrun
        obtain ⟨rfl, _⟩ := hrun
        exact ⟨_, @Tracked.drop cfg st.queues st.journal records h q hqn⟩

theorem serve_tracked (cfg : Config) (env : Env) (reqs : List (Request × Bool)) :
    ∀ (st st1 : State) (replies : List Reply) (records : List Record),
      Tracked cfg st records →
      (∀ p ∈ reqs, ∀ q, p.1.queueName = some q → SP ∉ q) →
      serve cfg env st reqs = some (st1, replies) →
      Reply.journalRejected ∉ replies →
      ∃ records1, Tracked cfg st1 records1 := by
  induction reqs with
  | nil =>
    intro st st1 replies records h _ hrun _
    simp only [serve, Option.some.injEq, Prod.mk.injEq] at hrun
    obtain ⟨rfl, _⟩ := hrun
    exact ⟨records, h⟩
  | cons p reqs ih =>
    intro st st1 replies records h hnames hrun hacc
    obtain ⟨r, room⟩ := p
    rw [serve_cons] at hrun
    cases hA : handle cfg env st room r with
    | none => simp [hA] at hrun
    | some pA =>
      obtain ⟨stA, reply⟩ := pA
      simp only [hA, Option.some_bind] at hrun
      cases hB : serve cfg env stA reqs with
      | none => simp [hB] at hrun
      | some pB =>
        obtain ⟨stB, repliesB⟩ := pB
        simp only [hB, Option.map_some', Option.some.injEq, Prod.mk.injEq] at hrun
        obtain ⟨rfl, rfl⟩ := hrun
        simp only [List.mem_cons, not_or] at hacc
        obtain ⟨recordsA, hTA⟩ := handle_tracked cfg env st stA room r reply records h
          (hnames (r, room) (by simp)) hA (Ne.symm hacc.1)
        exact ih stA stB repliesB recordsA hTA (fun p hp => hnames p (by simp [hp])) hB hacc.2

theorem tracked_empty (cfg : Config) : Tracked cfg State.empty [] := by
  refine ⟨rfl, by simp, ?_, ?_⟩
  · intro q ch hch
    simp [State.empty, GoMap.get] at hch
  · intro q m
    simp [State.empty, copies, chanOf, GoMap.get, replayRecords, netCount]

/-! ## A journal of one record -/

theorem decode_raw_jobs (m : GoString) (h37 : (37 : Byte) ∉ getRecovery SET (str "jobs") m)
    (h43 : (43 : Byte) ∉ getRecovery SET (str "jobs") m) :
    decodeLine (getRecovery SET (str "jobs") m) = some (SET, str "jobs", m) := by
  unfold decodeLine
  rw [QueryUnescape_raw _ h37 h43]
  simp only [SplitN_getRecovery SET (str "jobs") m SP_not_mem_methods.1 (by decide)]

theorem replayFiles_single (line m : GoString)
    (hdec : decodeLine line = some (SET, str "jobs", m)) :
    replayFiles [[line]] = [(str "jobs", [(m, 1)])] := by
  simp [replayFiles, replayLines, replayLine, hdec, applyRecord, GoMap.get, GoMap.set]

theorem recover_single (line m : GoString)
    (hdec : decodeLine line = some (SET, str "jobs", m)) :
    initialRecovery ⟨2, 100, []⟩ (fun _ => true) [] [[line]]
      = some ⟨[(str "jobs", ⟨[m], 2⟩)], [getRecovery SET (str "jobs") m], 1⟩ := by
  unfold initialRecovery
  rw [replayFiles_single line m hdec]
  rfl

theorem written_single (rec : GoString) :
    writingRecovery ⟨2, 100, []⟩ [rec] = [[QueryEscape rec]] := rfl

theorem scan_single_long (line : GoString) (h : MaxScanTokenSize ≤ line.length) :
    scanLines [line] = [] := by
  have : ¬ line.length < MaxScanTokenSize := not_lt.2 h
  simp [scanLines, List.takeWhile, this]

theorem set_on_empty (env : Env) (m : GoString) (hm : m ≠ []) (hc : (58 : Byte) ∉ m) :
    setHandler ⟨2, 100, []⟩ env true State.empty (str "jobs") m
      = some (⟨[(str "jobs", ⟨[m], 2⟩)], [getRecovery SET (str "jobs") m]⟩, .ok) := by
  have hcheck : checkPayload ⟨2, 100, []⟩ env m = none := by
    unfold checkPayload
    rw [SplitN_two_no_sep 58 m hc]
  have hgrow : increaseQueueSize [(str "jobs", ⟨[], 2⟩)] (str "jobs") 2
      = some [(str "jobs", ⟨[], 2⟩)] := by decide
  have hget : GoMap.get [(str "jobs", (⟨[], 2⟩ : Chan))] (str "jobs") = some ⟨[], 2⟩ := by
    decide
  simp [setHandler, State.empty, GoMap.get, GoMap.set, hgrow, hm, hcheck,
    trySend_of_get m hget]

theorem netCount_single (m : GoString) :
    netCount [(str "jobs", [(m, 1)])] (str "jobs") m = 1 := by
  simp [netCount, GoMap.get]

theorem emit_single (m : GoString) :
    emitSegments ⟨2, 100, []⟩ [(str "jobs", [(m, 1)])]
      = [[QueryEscape (getRecovery SET (str "jobs") m)]] := rfl

/-- A state whose journal is the one record SET jobs m, with a written line that the
scanner does not yield: the replay reads nothing while the live queue holds `m`. -/
theorem single_long_not_durable (m : GoString)
    (hlong : MaxScanTokenSize ≤ (QueryEscape (getRecovery SET (str "jobs") m)).length) :
    journalLines ⟨2, 100, []⟩
        ⟨[(str "jobs", ⟨[m], 2⟩)], [getRecovery SET (str "jobs") m]⟩ = []
    ∧ copies [(str "jobs", ⟨[m], 2⟩)] (str "jobs") m = 1
    ∧ ¬ Durable ⟨2, 100, []⟩ ⟨[(str "jobs", ⟨[m], 2⟩)], [getRecovery SET (str "jobs") m]⟩ := by
  have hj : journalLines ⟨2, 100, []⟩
      ⟨[(str "jobs", ⟨[m], 2⟩)], [getRecovery SET (str "jobs") m]⟩ = [] := by
    show ((writingRecovery ⟨2, 100, []⟩ [getRecovery SET (str "jobs") m]).map scanLines).flatten
      = []
    rw [written_single, List.map_cons, List.map_nil, scan_single_long _ hlong]
    rfl
  have hc : copies [(str "jobs", ⟨[m], 2⟩)] (str "jobs") m = 1 := by
    simp [copies, chanOf, GoMap.get]
  refine ⟨hj, hc, ?_⟩
  intro h
  have h1 := h (str "jobs") m
  rw [hj] at h1
  simp only [] at h1
  rw [hc] at h1
  simp [replayLines, netCount, GoMap.get] at h1

/-! ## Durability -/

/-- C1, counterexample. A set on the queue name `a b` is acknowledged and journaled
as `SET a b x`; the replay fold reads that line as message `b x` of queue `a`, so the
live queue `a b` holds `x` once while the journal counts it zero times. And a set of a
message of 65527 bytes `x` on the queue jobs is acknowledged and journaled as a line of
65536 bytes, which the scanner does not yield: the live queue holds the message once
while the replay reads no line at all. -/
theorem durability_counterexample :
    serve ⟨2, 100, []⟩ ⟨fun _ => false, fun _ _ => .row, fun _ => .notExist, fun _ _ => none⟩ State.empty
        [(Request.set (str "a b") (str "x"), true)]
      = some (⟨[(str "a b", ⟨[str "x"], 2⟩)], [str "SET a b x"]⟩, [.ok])
    ∧ copies [(str "a b", ⟨[str "x"], 2⟩)] (str "a b") (str "x") = 1
    ∧ netCount (replayLines [] (journalLines ⟨2, 100, []⟩
        ⟨[(str "a b", ⟨[str "x"], 2⟩)], [str "SET a b x"]⟩)) (str "a b") (str "x") = 0
    ∧ replayLines [] (journalLines ⟨2, 100, []⟩
        ⟨[(str "a b", ⟨[str "x"], 2⟩)], [str "SET a b x"]⟩) = [(str "a", [(str "b x", 1)])]
    ∧ ¬ Durable ⟨2, 100, []⟩ ⟨[(str "a b", ⟨[str "x"], 2⟩)], [str "SET a b x"]⟩
    ∧ serve ⟨2, 100, []⟩
        ⟨fun _ => false, fun _ _ => .row, fun _ => .notExist, fun _ _ => none⟩ State.empty
        [(Request.set (str "jobs") longMessage, true)]
      = some (⟨[(str "jobs", ⟨[longMessage], 2⟩)], [getRecovery SET (str "jobs") longMessage]⟩,
          [.ok])
    ∧ (QueryEscape (getRecovery SET (str "jobs") longMessage)).length = MaxScanTokenSize
    ∧ journalLines ⟨2, 100, []⟩
        ⟨[(str "jobs", ⟨[longMessage], 2⟩)], [getRecovery SET (str "jobs") longMessage]⟩ = []
    ∧ copies [(str "jobs", ⟨[longMessage], 2⟩)] (str "jobs") longMessage = 1
    ∧ ¬ Durable ⟨2, 100, []⟩
        ⟨[(str "jobs", ⟨[longMessage], 2⟩)], [getRecovery SET (str "jobs") longMessage]⟩ := by
  obtain ⟨hne, hcolon, hlen⟩ := longMessage_facts
  obtain ⟨hj, hc, hnd⟩ := single_long_not_durable longMessage (le_of_eq hlen.symm)
  refine ⟨by decide, by decide, by decide, by decide, ?_, ?_, hlen, hj, hc, hnd⟩
  · intro h
    exact absurd (h (str "a b") (str "x")) (by decide)
  · rw [serve_cons]
    simp only [handle, set_on_empty _ longMessage hne hcolon, Option.some_bind, serve,
      Option.map_some']

/-- C1, amended. Durability invariant for queue names without a space and journal lines
the scanner yields: every sequence of set / get / fetch / skip / count / list / delete
requests whose queue names contain no space is served to the end from the empty store
and the empty journal, and in every state reached without a rejected journal append
and in which every line written to the journal so far is shorter than the 65536 bytes
of the scanner's buffer, for every queue name and message, the number of copies of the
message in the live queue equals the net count the replay fold gives it on the journal
segments as the scanner reads them back. -/
theorem durability_invariant (cfg : Config) (env : Env) (reqs : List (Request × Bool))
    (hnames : ∀ p ∈ reqs, ∀ q, p.1.queueName = some q → SP ∉ q) (k : Nat) :
    ∃ st replies, serve cfg env State.empty (reqs.take k) = some (st, replies)
      ∧ (Reply.journalRejected ∉ replies →
          (∀ rec ∈ st.journal, (QueryEscape rec).length < MaxScanTokenSize) →
          Durable cfg st) := by
  obtain ⟨st, replies, hrun, _⟩ := serve_total cfg env (reqs.take k) State.empty
    (tracked_empty cfg).2.2.1
  refine ⟨st, replies, hrun, ?_⟩
  intro hacc hshort
  obtain ⟨records, hT⟩ := serve_tracked cfg env (reqs.take k) State.empty st replies []
    (tracked_empty cfg) (fun p hp => hnames p (List.mem_of_mem_take hp)) hrun hacc
  exact hT.durable hshort

theorem durability_invariant_witness :
    ∃ st replies, serve ⟨2, 100, []⟩
          ⟨fun _ => false, fun _ _ => .row, fun _ => .notExist, fun _ _ => none⟩ State.empty
          ([(Request.set (str "jobs") (str "a"), true), (Request.set (str "jobs") (str "b"), true),
            (Request.get (str "jobs"), true), (Request.delete (str "jobs"), true),
            (Request.set (str "jobs") (str "c"), true)].take 5) = some (st, replies)
      ∧ Reply.journalRejected ∉ replies
      ∧ (∀ rec ∈ st.journal, (QueryEscape rec).length < MaxScanTokenSize)
      ∧ Durable ⟨2, 100, []⟩ st := by
  obtain ⟨st, replies, hrun, h⟩ := durability_invariant ⟨2, 100, []⟩
    ⟨fun _ => false, fun _ _ => .row, fun _ => .notExist, fun _ _ => none⟩
    [(Request.set (str "jobs") (str "a"), true), (Request.set (str "jobs") (str "b"), true),
      (Request.get (str "jobs"), true), (Request.delete (str "jobs"), true),
      (Request.set (str "jobs") (str "c"), true)]
    (by decide) 5
  have hc : serve ⟨2, 100, []⟩
      ⟨fun _ => false, fun _ _ => .row, fun _ => .notExist, fun _ _ => none⟩ State.empty
      ([(Request.set (str "jobs") (str "a"), true), (Request.set (str "jobs") (str "b"), true),
        (Request.get (str "jobs"), true), (Request.delete (str "jobs"), true),
        (Request.set (str "jobs") (str "c"), true)].take 5)
      = some (⟨[(str "jobs", ⟨[str "c"], 2⟩)],
          [str "SET jobs a", str "SET jobs b", str "GET jobs a", str "DEL jobs ",
            str "SET jobs c"]⟩, [.ok, .ok, .message (str "a"), .ok, .ok]) := by decide
  rw [hc] at hrun
  obtain ⟨rfl, rfl⟩ := Prod.mk.inj (Option.some.inj hrun)
  exact ⟨_, _, hc, by decide, by decide, h (by decide) (by decide)⟩

/-! ## Materialisation at startup -/

/-- One pass of the copy loop of `initialRecovery`: the pass returns and the queue stays
in place; with a capacity of at least 2 the queue is grown if needed and the copy is
enqueued. -/
theorem recoverCopy_spec (cfg : Config) (room : Nat → Bool) (q m : GoString) (r : Recovery)
    (ch : Chan) (hwf : Queues.wellFormed cfg.QueueInitSize r.queues)
    (hget : r.queues.get q = some ch) :
    ∃ r1 ch1, recoverCopy cfg room q m r = some r1
      ∧ r1.queues.get q = some ch1
      ∧ Queues.wellFormed cfg.QueueInitSize r1.queues
      ∧ (∀ other, other ≠ q → r1.queues.get other = r.queues.get other)
      ∧ (2 ≤ cfg.QueueInitSize → ch1.buf = ch.buf ++ [m]
          ∧ ((∀ k, room k = true) → SP ∉ q → ∀ records,
              Tracked cfg ⟨r.queues, r.journal⟩ records →
              ∃ records1, Tracked cfg ⟨r1.queues, r1.journal⟩ records1)) := by
  obtain ⟨hlen, hcap⟩ := hwf q ch hget
  obtain ⟨queuesG, c1, hgrow, hgetG, hlen1, hcap1, _, hfree, hother⟩ :=
    grow_spec r.queues q cfg.QueueInitSize ch hget hlen hcap
  have hsc : cfg.QueueInitSize ≤ c1 := by omega
  have hG : Queues.wellFormed cfg.QueueInitSize queuesG :=
    Queues.wellFormed_grown hwf q _ hgetG hlen1 hsc hother
  by_cases hfull : ch.buf.length < c1
  · have hS : Queues.wellFormed cfg.QueueInitSize (queuesG.set q ⟨ch.buf ++ [m], c1⟩) :=
      Queues.wellFormed_set hG q _ (by simp; omega) hsc
    have hotherS : ∀ other, other ≠ q →
        (queuesG.set q ⟨ch.buf ++ [m], c1⟩).get other = r.queues.get other := by
      intro other hne
      simp only [GoMap.get_set, Ne.symm hne, if_false]
      exact hother other hne
    have hrun : recoverCopy cfg room q m r = some
        (if room r.offers then
          ⟨queuesG.set q ⟨ch.buf ++ [m], c1⟩, r.journal ++ [getRecovery SET q m], r.offers + 1⟩
         else ⟨queuesG.set q ⟨ch.buf ++ [m], c1⟩, r.journal, r.offers + 1⟩) := by
      unfold recoverCopy
      simp only [hgrow, Option.map_some', trySend_of_get m hgetG, hfull, if_true]
    cases hroom : room r.offers with
    | false =>
      simp only [hroom, Bool.false_eq_true, if_false] at hrun
      refine ⟨_, ⟨ch.buf ++ [m], c1⟩, hrun, by simp [GoMap.get_set], hS, hotherS,
        fun _ => ⟨rfl, ?_⟩⟩
      intro hall
      rw [hall] at hroom
      cases hroom
    | true =>
      simp only [hroom, if_true] at hrun
      refine ⟨_, ⟨ch.buf ++ [m], c1⟩, hrun, by simp [GoMap.get_set], hS, hotherS,
        fun _ => ⟨rfl, ?_⟩⟩
      intro _ hq records hT
      have hT1 : Tracked cfg ⟨queuesG, r.journal⟩ records :=
        @Tracked.regrow cfg ⟨r.queues, r.journal⟩ records hT q queuesG c1
          (by simpa [chanOf_of_get hget] using hgetG)
          (by simpa [chanOf_of_get hget] using hlen1) hsc hother
      exact ⟨_, Tracked.enqueue hT1 q m hq ⟨ch.buf, c1⟩ hgetG hfull⟩
  · have hrun : recoverCopy cfg room q m r = some { r with queues := queuesG } := by
      unfold recoverCopy
      simp only [hgrow, Option.map_some', trySend_of_get m hgetG, hfull, if_false]
    exact ⟨_, _, hrun, hgetG, hG, hother, fun h2 => absurd (hfree h2) hfull⟩

theorem recoverCopies_spec (cfg : Config) (room : Nat → Bool) (q m : GoString) (n : Nat) :
    ∀ (r : Recovery) (ch : Chan),
      Queues.wellFormed cfg.QueueInitSize r.queues → r.queues.get q = some ch →
      ∃ r1 ch1, recoverCopies cfg room q m n r = some r1
        ∧ r1.queues.get q = some ch1
        ∧ Queues.wellFormed cfg.QueueInitSize r1.queues
        ∧ (∀ other, other ≠ q → r1.queues.get other = r.queues.get other)
        ∧ (2 ≤ cfg.QueueInitSize → ch1.buf = ch.buf ++ List.replicate n m
            ∧ ((∀ k, room k = true) → SP ∉ q → ∀ records,
                Tracked cfg ⟨r.queues, r.journal⟩ records →
                ∃ records1, Tracked cfg ⟨r1.queues, r1.journal⟩ records1)) := by
  induction n with
  | zero =>
    intro r ch hwf hget
    exact ⟨r, ch, rfl, hget, hwf, fun _ _ => rfl,
      fun _ => ⟨by simp, fun _ _ records hT => ⟨records, hT⟩⟩⟩
  | succ n ih =>
    intro r ch hwf hget
    obtain ⟨rA, chA, hrunA, hgetA, hwfA, hotherA, hTA⟩ :=
      recoverCopy_spec cfg room q m r ch hwf hget
    obtain ⟨rB, chB, hrunB, hgetB, hwfB, hotherB, hTB⟩ := ih rA chA hwfA hgetA
    refine ⟨rB, chB, ?_, hgetB, hwfB, ?_, ?_⟩
    · simp only [recoverCopies, hrunA, Option.some_bind, hrunB]
    · intro other hne
      rw [hotherB other hne, hotherA other hne]
    · intro hs
      obtain ⟨hbA, hA⟩ := hTA hs
      obtain ⟨hbB, hB⟩ := hTB hs
      refine ⟨by rw [hbB, hbA]; simp [List.replicate_succ], ?_⟩
      intro hall hq records hT
      obtain ⟨recordsA, hA1⟩ := hA hall hq records hT
      exact hB hall hq recordsA hA1

theorem recoverMessages_spec (cfg : Config) (room : Nat → Bool) (q : GoString)
    (queueMap : GoMap Int) :
    ∀ (r : Recovery) (ch : Chan),
      Queues.wellFormed cfg.QueueInitSize r.queues → r.queues.get q = some ch →
      ∃ r1 ch1, recoverMessages cfg room q queueMap r = some r1
        ∧ r1.queues.get q = some ch1
        ∧ Queues.wellFormed cfg.QueueInitSize r1.queues
        ∧ (∀ other, other ≠ q → r1.queues.get other = r.queues.get other)
        ∧ (2 ≤ cfg.QueueInitSize → ch1.buf = ch.buf ++ expandCounts queueMap
            ∧ ((∀ k, room k = true) → SP ∉ q → ∀ records,
                Tracked cfg ⟨r.queues, r.journal⟩ records →
                ∃ records1, Tracked cfg ⟨r1.queues, r1.journal⟩ records1)) := by
  induction queueMap with
  | nil =>
    intro r ch hwf hget
    exact ⟨r, ch, rfl, hget, hwf, fun _ _ => rfl,
      fun _ => ⟨by simp [expandCounts], fun _ _ records hT => ⟨records, hT⟩⟩⟩
  | cons p queueMap ih =>
    intro r ch hwf hget
    obtain ⟨m, count⟩ := p
    obtain ⟨rA, chA, hrunA, hgetA, hwfA, hotherA, hTA⟩ :=
      recoverCopies_spec cfg room q m count.toNat r ch hwf hget
    obtain ⟨rB, chB, hrunB, hgetB, hwfB, hotherB, hTB⟩ := ih rA chA hwfA hgetA
    refine ⟨rB, chB, ?_, hgetB, hwfB, ?_, ?_⟩
    · simp only [recoverMessages, hrunA, Option.some_bind, hrunB]
    · intro other hne
      rw [hotherB other hne, hotherA other hne]
    · intro hs
      obtain ⟨hbA, hA⟩ := hTA hs
      obtain ⟨hbB, hB⟩ := hTB hs
      refine ⟨by rw [hbB, hbA]; simp [expandCounts], ?_⟩
      intro hall hq records hT
      obtain ⟨recordsA, hA1⟩ := hA hall hq records hT
      exact hB hall hq recordsA hA1

theorem recoverQueues_spec (cfg : Config) (room : Nat → Bool) (queuesMap : QueuesMap) :
    ∀ (r : Recovery), (GoMap.keys queuesMap).Nodup →
      Queues.wellFormed cfg.QueueInitSize r.queues →
      ∃ r1, recoverQueues cfg room queuesMap r = some r1
        ∧ Queues.wellFormed cfg.QueueInitSize r1.queues
        ∧ (∀ q, q ∉ GoMap.keys queuesMap → r1.queues.get q = r.queues.get q)
        ∧ (∀ p ∈ queuesMap, ∃ ch, r1.queues.get p.1 = some ch
            ∧ (2 ≤ cfg.QueueInitSize → ch.buf = expandCounts p.2))
        ∧ (2 ≤ cfg.QueueInitSize → (∀ k, room k = true) →
            (∀ q ∈ GoMap.keys queuesMap, SP ∉ q ∧ r.queues.get q = none) →
            ∀ records, Tracked cfg ⟨r.queues, r.journal⟩ records →
            ∃ records1, Tracked cfg ⟨r1.queues, r1.journal⟩ records1) := by
  induction queuesMap with
  | nil =>
    intro r _ hwf
    exact ⟨r, rfl, hwf, fun _ _ => rfl, by simp, fun _ _ _ records hT => ⟨records, hT⟩⟩
  | cons p queuesMap ih =>
    intro r hnd hwf
    obtain ⟨q, inner⟩ := p
    simp only [GoMap.keys, List.map_cons, List.nodup_cons] at hnd
    obtain ⟨hq, hnd1⟩ := hnd
    have hwf0 : Queues.wellFormed cfg.QueueInitSize (r.queues.set q ⟨[], cfg.QueueInitSize⟩) :=
      Queues.wellFormed_set hwf q _ (by simp) (le_refl _)
    obtain ⟨rA, chA, hrunA, hgetA, hwfA, hotherA, hTA⟩ :=
      recoverMessages_spec cfg room q inner
        { r with queues := r.queues.set q ⟨[], cfg.QueueInitSize⟩ } ⟨[], cfg.QueueInitSize⟩
        hwf0 (by simp [GoMap.get_set])
    obtain ⟨rB, hrunB, hwfB, hotherB, hgetB, hTB⟩ := ih rA hnd1 hwfA
    have hAr : ∀ other, other ≠ q → rA.queues.get other = r.queues.get other := by
      intro other hne
      rw [hotherA other hne]
      simp [GoMap.get_set, Ne.symm hne]
    refine ⟨rB, ?_, hwfB, ?_, ?_, ?_⟩
    · simp only [recoverQueues, hrunA, Option.some_bind, hrunB]
    · intro q1 hq1
      simp only [GoMap.keys, List.map_cons, List.mem_cons, not_or] at hq1
      rw [hotherB q1 hq1.2, hAr q1 hq1.1]
    · intro p hp
      rcases List.mem_cons.1 hp with e | e
      · subst e
        refine ⟨chA, ?_, ?_⟩
        · rw [hotherB q hq, hgetA]
        · intro hs
          simpa using (hTA hs).1
      · exact hgetB p e
    · intro hs hall hkeys records hT
      have hq0 := hkeys q (by simp [GoMap.keys])
      have hT0 : Tracked cfg ⟨r.queues.set q ⟨[], cfg.QueueInitSize⟩, r.journal⟩ records :=
        @Tracked.replace cfg ⟨r.queues, r.journal⟩ records hT q ⟨[], cfg.QueueInitSize⟩
          (by intro m; simp [chanOf, hq0.2]) (by simp) (le_refl _)
      obtain ⟨recordsA, hA⟩ := (hTA hs).2 hall hq0.1 records hT0
      refine hTB hs hall ?_ recordsA hA
      intro q1 hq1
      have hne : q1 ≠ q := fun e => hq (e ▸ hq1)
      have hk := hkeys q1 (by simp only [GoMap.keys, List.map_cons, List.mem_cons]; exact Or.inr hq1)
      refine ⟨hk.1, ?_⟩
      rw [hAr q1 hne]
      exact hk.2

/-! ## Shape of the working map -/

theorem GoMap.mem_set {V : Type} (m : GoMap V) (k : GoString) (v : V) (p : GoString × V)
    (h : p ∈ m.set k v) : p = (k, v) ∨ p ∈ m := by
  induction m with
  | nil => simp [GoMap.set] at h; exact Or.inl h
  | cons p0 m ih =>
    obtain ⟨k0, v0⟩ := p0
    by_cases e : k0 = k
    · simp only [GoMap.set, e, if_true, List.mem_cons] at h ⊢
      rcases h with h | h
      · exact Or.inl h
      · exact Or.inr (Or.inr h)
    · simp only [GoMap.set, e, if_false, List.mem_cons] at h ⊢
      rcases h with h | h
      · exact Or.inr (Or.inl h)
      · rcases ih h with h1 | h1
        · exact Or.inl h1
        · exact Or.inr (Or.inr h1)

theorem GoMap.keys_set {V : Type} (m : GoMap V) (k : GoString) (v : V) :
    GoMap.keys (m.set k v) = if k ∈ GoMap.keys m then GoMap.keys m else GoMap.keys m ++ [k] := by
  induction m with
  | nil => simp [GoMap.set, GoMap.keys]
  | cons p0 m ih =>
    obtain ⟨k0, v0⟩ := p0
    simp only [GoMap.keys] at ih
    by_cases e : k0 = k
    · simp [GoMap.set, GoMap.keys, e]
    · have e1 : ¬ k = k0 := fun h => e h.symm
      simp only [GoMap.set, GoMap.keys, e, e1, if_false, List.map_cons, List.mem_cons,
        false_or, ih]
      split_ifs <;> simp

theorem GoMap.nodup_set {V : Type} (m : GoMap V) (k : GoString) (v : V)
    (h : (GoMap.keys m).Nodup) : (GoMap.keys (m.set k v)).Nodup := by
  rw [GoMap.keys_set]
  split_ifs with hk
  · exact h
  · exact List.Nodup.append h (by simp) (by simpa using hk)

theorem GoMap.delete_eq_filter {V : Type} (m : GoMap V) (k : GoString) :
    m.delete k = m.filter (fun p => decide (p.1 ≠ k)) := by
  induction m with
  | nil => rfl
  | cons p0 m ih =>
    obtain ⟨k0, v0⟩ := p0
    by_cases e : k0 = k <;> simp [GoMap.delete, e, ih, List.filter_cons]

theorem GoMap.get_eq_none {V : Type} (m : GoMap V) (k : GoString) :
    m.get k = none ↔ k ∉ GoMap.keys m := by
  induction m with
  | nil => simp [GoMap.get, GoMap.keys]
  | cons p0 m ih =>
    obtain ⟨k0, v0⟩ := p0
    simp only [GoMap.keys] at ih
    by_cases e : k0 = k
    · simp [GoMap.get, GoMap.keys, e]
    · have e1 : ¬ k = k0 := fun h => e h.symm
      simp [GoMap.get, GoMap.keys, e, e1, ih]

theorem GoMap.mem_of_get {V : Type} (m : GoMap V) (k : GoString) (v : V)
    (h : m.get k = some v) : (k, v) ∈ m := by
  induction m with
  | nil => simp [GoMap.get] at h
  | cons p0 m ih =>
    obtain ⟨k0, v0⟩ := p0
    by_cases e : k0 = k
    · simp only [GoMap.get, e, if_true, Option.some.injEq] at h
      simp [e, h]
    · simp only [GoMap.get, e, if_false] at h
      exact List.mem_cons_of_mem _ (ih h)

theorem GoMap.get_of_mem {V : Type} (m : GoMap V) (k : GoString) (v : V)
    (hnd : (GoMap.keys m).Nodup) (h : (k, v) ∈ m) : m.get k = some v := by
  induction m with
  | nil => simp at h
  | cons p0 m ih =>
    obtain ⟨k0, v0⟩ := p0
    simp only [GoMap.keys, List.map_cons, List.nodup_cons] at hnd
    rcases List.mem_cons.1 h with e | e
    · cases e
      simp [GoMap.get]
    · have hk : k ∈ m.map Prod.fst := List.mem_map.2 ⟨(k, v), e, rfl⟩
      have hne : k0 ≠ k := fun e1 => hnd.1 (e1 ▸ hk)
      simp only [GoMap.get, hne, if_false]
      exact ih hnd.2 e

theorem SplitN_three_no_sep (line a b c : GoString) (h : SplitN SP 3 line = [a, b, c]) :
    SP ∉ a ∧ SP ∉ b := by
  have hspan : ∀ s : GoString, SP ∉ (s.span (fun x => x != SP)).1 := by
    intro s hmem
    rw [List.span_eq_take_drop] at hmem
    have := List.mem_takeWhile_imp hmem
    simp at this
  unfold SplitN at h
  cases h1 : line.span (fun x => x != SP) with
  | mk a1 rest1 =>
    have ha := hspan line
    rw [h1] at ha h
    cases rest1 with
    | nil => simp at h
    | cons x rest1 =>
      simp only [List.cons.injEq] at h
      obtain ⟨rfl, h2⟩ := h
      unfold SplitN at h2
      cases h3 : rest1.span (fun x => x != SP) with
      | mk b1 rest2 =>
        have hb := hspan rest1
        rw [h3] at hb h2
        cases rest2 with
        | nil => simp at h2
        | cons y rest2 =>
          simp only [List.cons.injEq] at h2
          obtain ⟨rfl, _⟩ := h2
          exact ⟨ha, hb⟩

theorem decodeLine_no_space (line a b c : GoString) (h : decodeLine line = some (a, b, c)) :
    SP ∉ b := by
  unfold decodeLine at h
  cases hu : QueryUnescape line with
  | none => simp [hu] at h
  | some l =>
    simp only [hu] at h
    split at h
    · rename_i method queueName message heq
      simp only [Option.some.injEq, Prod.mk.injEq] at h
      obtain ⟨rfl, rfl, rfl⟩ := h
      exact (SplitN_three_no_sep l _ _ _ heq).2
    · simp at h

theorem QueuesMap.set_keeps_shape (queuesMap : QueuesMap) (q : GoString) (inner : GoMap Int)
    (h : QueuesMap.wellFormed queuesMap) (hq : SP ∉ q) (hinner : (GoMap.keys inner).Nodup) :
    QueuesMap.wellFormed (GoMap.set queuesMap q inner) := by
  obtain ⟨h1, h2, h3⟩ := h
  refine ⟨GoMap.nodup_set queuesMap q inner h1, ?_, ?_⟩
  · intro q1 hq1
    rw [GoMap.keys_set] at hq1
    split_ifs at hq1
    · exact h2 q1 hq1
    · rcases List.mem_append.1 hq1 with e | e
      · exact h2 q1 e
      · simp only [List.mem_singleton] at e
        subst e
        exact hq
  · intro p hp
    rcases GoMap.mem_set queuesMap q inner p hp with e | e
    · subst e
      exact hinner
    · exact h3 p e

theorem QueuesMap.delete_keeps_shape (queuesMap : QueuesMap) (q : GoString)
    (h : QueuesMap.wellFormed queuesMap) : QueuesMap.wellFormed (GoMap.delete queuesMap q) := by
  obtain ⟨h1, h2, h3⟩ := h
  rw [GoMap.delete_eq_filter]
  refine ⟨?_, ?_, ?_⟩
  · exact (List.Nodup.sublist (List.Sublist.map _ (List.filter_sublist _)) h1)
  · intro q1 hq1
    simp only [GoMap.keys, List.mem_map] at hq1
    obtain ⟨p, hp, rfl⟩ := hq1
    exact h2 p.1 (List.mem_map.2 ⟨p, List.mem_of_mem_filter hp, rfl⟩)
  · intro p hp
    exact h3 p (List.mem_of_mem_filter hp)

theorem QueuesMap.inner_nodup (queuesMap : QueuesMap) (q : GoString)
    (h : QueuesMap.wellFormed queuesMap) :
    (GoMap.keys ((GoMap.get queuesMap q).getD [])).Nodup := by
  cases hq : GoMap.get queuesMap q with
  | none => simp [GoMap.keys]
  | some inner => exact h.2.2 _ (GoMap.mem_of_get queuesMap q inner hq)

theorem applyRecord_wellFormed (queuesMap : QueuesMap) (method q m : GoString)
    (h : QueuesMap.wellFormed queuesMap) (hq : SP ∉ q) :
    QueuesMap.wellFormed (applyRecord queuesMap method q m) := by
  have h0 : QueuesMap.wellFormed
      (match GoMap.get queuesMap q with
        | some _ => queuesMap
        | none => GoMap.set queuesMap q []) := by
    cases GoMap.get queuesMap q with
    | none => exact QueuesMap.set_keeps_shape queuesMap q [] h hq (by simp [GoMap.keys])
    | some _ => exact h
  unfold applyRecord
  simp only []
  split_ifs
  · exact QueuesMap.set_keeps_shape _ q _ h0 hq
      (GoMap.nodup_set _ _ _ (QueuesMap.inner_nodup _ q h0))
  · exact QueuesMap.set_keeps_shape _ q _ h0 hq
      (GoMap.nodup_set _ _ _ (QueuesMap.inner_nodup _ q h0))
  · exact QueuesMap.delete_keeps_shape _ q h0
  · exact h0

theorem replayLines_wellFormed (lines : List GoString) :
    ∀ queuesMap : QueuesMap, QueuesMap.wellFormed queuesMap →
      QueuesMap.wellFormed (replayLines queuesMap lines) := by
  induction lines with
  | nil => intro queuesMap h; exact h
  | cons l lines ih =>
    intro queuesMap h
    simp only [replayLines, List.foldl_cons]
    apply ih
    unfold replayLine
    cases hd : decodeLine l with
    | none => exact h
    | some r =>
      obtain ⟨a, b, c⟩ := r
      exact applyRecord_wellFormed queuesMap a b c h (decodeLine_no_space l a b c hd)

theorem foldl_replayLines (files : List (List GoString)) :
    ∀ queuesMap : QueuesMap,
      files.foldl replayLines queuesMap = replayLines queuesMap files.flatten := by
  induction files with
  | nil => intro queuesMap; rfl
  | cons f files ih =>
    intro queuesMap
    simp only [List.foldl_cons, List.flatten_cons, ih]
    simp [replayLines, List.foldl_append]

theorem wellFormed_nil : QueuesMap.wellFormed [] := by
  refine ⟨by simp [GoMap.keys], by simp [GoMap.keys], by simp⟩

theorem count_expandCounts_of_not_mem (queueMap : GoMap Int) (m : GoString)
    (h : m ∉ GoMap.keys queueMap) : (expandCounts queueMap).count m = 0 := by
  induction queueMap with
  | nil => simp [expandCounts]
  | cons p queueMap ih =>
    obtain ⟨x, c⟩ := p
    simp only [GoMap.keys, List.map_cons, List.mem_cons, not_or] at h
    have := ih h.2
    simp only [expandCounts] at this
    simp only [expandCounts, List.map_cons, List.flatten_cons, List.count_append, this,
      Nat.add_zero]
    rw [List.count_replicate]
    simp [Ne.symm h.1]

theorem count_expandCounts (queueMap : GoMap Int) (m : GoString)
    (hnd : (GoMap.keys queueMap).Nodup) :
    (expandCounts queueMap).count m = ((queueMap.get m).getD 0).toNat := by
  induction queueMap with
  | nil => simp [expandCounts, GoMap.get]
  | cons p queueMap ih =>
    obtain ⟨x, c⟩ := p
    simp only [GoMap.keys, List.map_cons, List.nodup_cons] at hnd
    have h1 := ih hnd.2
    simp only [expandCounts] at h1
    simp only [expandCounts, List.map_cons, List.flatten_cons, List.count_append]
    rw [List.count_replicate]
    by_cases e : x = m
    · subst e
      have h0 := count_expandCounts_of_not_mem queueMap x hnd.1
      simp only [expandCounts] at h0
      simp [GoMap.get, h0]
    · simp [GoMap.get, e, h1]

theorem replayFiles_wellFormed (files : List (List GoString)) :
    QueuesMap.wellFormed (replayFiles files) := by
  unfold replayFiles
  rw [foldl_replayLines]
  exact replayLines_wellFormed _ [] wellFormed_nil

/-- Startup recovery on the empty store `main` hands it: it returns; a name is in the
store exactly when the working map has an entry for it; with a capacity of at least 2
every queue holds each message as many times as the positive part of its net count,
and when `recoveryCh` accepts every record the rebuilt state is tracked by the records
re-journaled. -/
theorem initialRecovery_spec (cfg : Config) (room : Nat → Bool) (files : List (List GoString)) :
    ∃ r, initialRecovery cfg room [] files = some r
      ∧ (∀ q, r.queues.get q = none ↔ GoMap.get (replayFiles files) q = none)
      ∧ (2 ≤ cfg.QueueInitSize →
          ∀ q m, copies r.queues q m = (netCount (replayFiles files) q m).toNat)
      ∧ (2 ≤ cfg.QueueInitSize → (∀ k, room k = true) →
          ∃ records, Tracked cfg ⟨r.queues, r.journal⟩ records) := by
  have hqm := replayFiles_wellFormed files
  obtain ⟨hnd, hsp, hinner⟩ := hqm
  have hwf0 : Queues.wellFormed cfg.QueueInitSize (⟨[], [], 0⟩ : Recovery).queues := by
    intro q ch hch
    simp [GoMap.get] at hch
  obtain ⟨r, hrun, _, hother, hget, hT⟩ :=
    recoverQueues_spec cfg room (replayFiles files) ⟨[], [], 0⟩ hnd hwf0
  refine ⟨r, hrun, ?_, ?_, ?_⟩
  · intro q
    by_cases hk : q ∈ GoMap.keys (replayFiles files)
    · have hk1 := hk
      simp only [GoMap.keys, List.mem_map] at hk1
      obtain ⟨p, hp, rfl⟩ := hk1
      obtain ⟨ch, hch, _⟩ := hget p hp
      have h2 : ¬ GoMap.get (replayFiles files) p.1 = none := by
        rw [GoMap.get_eq_none]
        exact fun h => h hk
      simp [hch, h2]
    · have h1 := hother q hk
      have h2 := (GoMap.get_eq_none (replayFiles files) q).2 hk
      simp only [h2, iff_true]
      rw [h1]
      rfl
  · intro hs q m
    by_cases hk : q ∈ GoMap.keys (replayFiles files)
    · have hk1 := hk
      simp only [GoMap.keys, List.mem_map] at hk1
      obtain ⟨p, hp, rfl⟩ := hk1
      obtain ⟨ch, hch, hbuf⟩ := hget p hp
      have hgetp : GoMap.get (replayFiles files) p.1 = some p.2 :=
        GoMap.get_of_mem _ p.1 p.2 hnd hp
      simp only [copies, chanOf_of_get hch, hbuf hs, netCount, hgetp, Option.some_bind]
      exact count_expandCounts p.2 m (hinner p hp)
    · have h1 := hother q hk
      have h2 := (GoMap.get_eq_none (replayFiles files) q).2 hk
      have h3 : r.queues.get q = none := by rw [h1]; rfl
      simp [copies, chanOf, h3, netCount, h2]
  · intro hs hall
    refine hT hs hall ?_ [] ?_
    · intro q hq
      exact ⟨hsp q hq, rfl⟩
    · exact tracked_empty cfg

/-! ## Recovery materialises the net counts -/

/-- C5, counterexample. With `QueueInitSize = 1` the journal SET jobs a, SET jobs a
has net count 2 for `a`, but the rebuilt queue holds a single copy: the buffer of
capacity 1 is never grown and the second copy is dropped. -/
theorem recovery_counts_counterexample :
    initialRecovery ⟨1, 100, []⟩ (fun _ => true) [] [[str "SET+jobs+a", str "SET+jobs+a"]]
      = some ⟨[(str "jobs", ⟨[str "a"], 1⟩)], [str "SET jobs a"], 1⟩
    ∧ netCount (replayFiles [[str "SET+jobs+a", str "SET+jobs+a"]]) (str "jobs") (str "a") = 2
    ∧ copies [(str "jobs", ⟨[str "a"], 1⟩)] (str "jobs") (str "a") = 1 := by
  refine ⟨by decide, by decide, by decide⟩

/-- C5, amended. For every journal and every configured initial capacity of at least
2, startup recovery returns and each queue of the store holds exactly `netCount`
copies of every message whose folded net count is positive and no copy of a message
whose net count is zero or negative. -/
theorem recovery_materialises_counts (cfg : Config) (room : Nat → Bool)
    (files : List (List GoString)) (hs : 2 ≤ cfg.QueueInitSize) :
    ∃ r, initialRecovery cfg room [] files = some r
      ∧ ∀ q m,
        (0 < netCount (replayFiles files) q m →
          (copies r.queues q m : Int) = netCount (replayFiles files) q m)
        ∧ (netCount (replayFiles files) q m ≤ 0 → copies r.queues q m = 0) := by
  obtain ⟨r, hrun, _, hcopies, _⟩ := initialRecovery_spec cfg room files
  refine ⟨r, hrun, ?_⟩
  intro q m
  rw [hcopies hs q m]
  constructor
  · intro hpos
    exact Int.toNat_of_nonneg (le_of_lt hpos)
  · intro hle
    exact Int.toNat_eq_zero.2 hle

theorem recovery_materialises_counts_witness :
    ∃ r, initialRecovery ⟨2, 100, []⟩ (fun _ => true) []
          [[str "SET+jobs+a", str "SET+jobs+a", str "SET+jobs+a"], [str "GET+jobs+b"]] = some r
      ∧ ∀ q m,
        (0 < netCount (replayFiles
              [[str "SET+jobs+a", str "SET+jobs+a", str "SET+jobs+a"], [str "GET+jobs+b"]]) q m →
          (copies r.queues q m : Int) = netCount (replayFiles
              [[str "SET+jobs+a", str "SET+jobs+a", str "SET+jobs+a"], [str "GET+jobs+b"]]) q m)
        ∧ (netCount (replayFiles
              [[str "SET+jobs+a", str "SET+jobs+a", str "SET+jobs+a"], [str "GET+jobs+b"]]) q m ≤ 0 →
            copies r.queues q m = 0) :=
  recovery_materialises_counts ⟨2, 100, []⟩ (fun _ => true)
    [[str "SET+jobs+a", str "SET+jobs+a", str "SET+jobs+a"], [str "GET+jobs+b"]] (by decide)

/-! ## Which queues recovery creates -/

/-- C6, counterexample. The journal SET jobs a, GET jobs a leaves the entry
jobs = {a: 0} in the working map, and recovery creates the queue jobs, empty, although
no message under that name has a positive net count. -/
theorem recovery_presence_counterexample :
    replayFiles [[str "SET+jobs+a", str "GET+jobs+a"]] = [(str "jobs", [(str "a", 0)])]
    ∧ initialRecovery ⟨2, 100, []⟩ (fun _ => true) [] [[str "SET+jobs+a", str "GET+jobs+a"]]
      = some ⟨[(str "jobs", ⟨[], 2⟩)], [], 0⟩
    ∧ GoMap.get [(str "jobs", (⟨[], 2⟩ : Chan))] (str "jobs") = some ⟨[], 2⟩
    ∧ ¬ ∃ m, 0 < netCount (replayFiles [[str "SET+jobs+a", str "GET+jobs+a"]]) (str "jobs") m := by
  refine ⟨by decide, by decide, by decide, ?_⟩
  rintro ⟨m, hm⟩
  have e : replayFiles [[str "SET+jobs+a", str "GET+jobs+a"]]
      = [(str "jobs", [(str "a", 0)])] := by decide
  rw [e] at hm
  by_cases h : str "a" = m
  · simp [netCount, GoMap.get, h] at hm
  · simp [netCount, GoMap.get, h] at hm

/-- C6, amended. For every journal and every capacity, startup recovery returns and
a queue name is present in the store if and only if the working map of the fold still
has an entry for that name; every name with a message of positive net count is
present; for the journal SET jobs a, GET jobs a the store holds the queue jobs, empty. -/
theorem recovery_presence (cfg : Config) (room : Nat → Bool) (files : List (List GoString)) :
    (∃ r, initialRecovery cfg room [] files = some r
      ∧ ∀ q, (r.queues.get q ≠ none ↔ GoMap.get (replayFiles files) q ≠ none)
        ∧ ((∃ m, 0 < netCount (replayFiles files) q m) → r.queues.get q ≠ none))
    ∧ initialRecovery cfg room [] [[str "SET+jobs+a", str "GET+jobs+a"]]
      = some ⟨[(str "jobs", ⟨[], cfg.QueueInitSize⟩)], [], 0⟩ := by
  constructor
  · obtain ⟨r, hrun, hpres, _, _⟩ := initialRecovery_spec cfg room files
    refine ⟨r, hrun, ?_⟩
    intro q
    refine ⟨not_congr (hpres q), ?_⟩
    rintro ⟨m, hm⟩ habs
    have := (hpres q).1 habs
    simp [netCount, this] at hm
  · have e : replayFiles [[str "SET+jobs+a", str "GET+jobs+a"]]
        = [(str "jobs", [(str "a", 0)])] := by decide
    simp only [initialRecovery, e]
    rfl

theorem recovery_presence_witness :
    (∃ r, initialRecovery ⟨2, 100, []⟩ (fun _ => true) []
          [[str "SET+jobs+a", str "DEL+jobs+", str "PUT+work+x"]] = some r
      ∧ ∀ q, (r.queues.get q ≠ none ↔ GoMap.get (replayFiles
            [[str "SET+jobs+a", str "DEL+jobs+", str "PUT+work+x"]]) q ≠ none)
        ∧ ((∃ m, 0 < netCount (replayFiles
            [[str "SET+jobs+a", str "DEL+jobs+", str "PUT+work+x"]]) q m) →
          r.queues.get q ≠ none)) :=
  (recovery_presence ⟨2, 100, []⟩ (fun _ => true)
    [[str "SET+jobs+a", str "DEL+jobs+", str "PUT+work+x"]]).1

/-! ## The compactor's output -/

theorem Emitter.emit_spec (cfg : Config) (e : Emitter) (recovery : GoString)
    (h : e.ready cfg) :
    (e.emit cfg recovery).lines = e.lines ++ [QueryEscape recovery]
      ∧ (e.emit cfg recovery).ready cfg := by
  unfold Emitter.emit Emitter.lines Emitter.ready
  by_cases hc : e.recoveryFileSize ≥ cfg.RecoveryFileSize
  · simp only [hc, if_true]
    cases hf : e.file <;> simp
  · simp only [hc, if_false]
    rcases h with h | h
    · cases hf : e.file with
      | none => exact absurd hf h
      | some f => simp
    · exact absurd h hc

theorem emitCopies_spec (cfg : Config) (recovery : GoString) (n : Nat) :
    ∀ e : Emitter, e.ready cfg →
      (emitCopies cfg recovery n e).lines = e.lines ++ List.replicate n (QueryEscape recovery)
        ∧ (emitCopies cfg recovery n e).ready cfg := by
  induction n with
  | zero => intro e h; simp [emitCopies, h]
  | succ n ih =>
    intro e h
    obtain ⟨h1, h2⟩ := Emitter.emit_spec cfg e recovery h
    obtain ⟨h3, h4⟩ := ih (e.emit cfg recovery) h2
    refine ⟨?_, h4⟩
    simp only [emitCopies, h3, h1, List.replicate_succ]
    simp

theorem emitMessages_spec (cfg : Config) (q : GoString) (queueMap : GoMap Int) :
    ∀ e : Emitter, e.ready cfg →
      (emitMessages cfg q queueMap e).lines = e.lines ++
          ((queueMap.map (fun p => List.replicate p.2.toNat (SET, q, p.1))).flatten).map
            Record.encode
        ∧ (emitMessages cfg q queueMap e).ready cfg := by
  induction queueMap with
  | nil => intro e h; simp [emitMessages, h]
  | cons p queueMap ih =>
    intro e h
    obtain ⟨m, count⟩ := p
    obtain ⟨h1, h2⟩ := emitCopies_spec cfg (getRecovery SET q m) count.toNat e h
    obtain ⟨h3, h4⟩ := ih _ h2
    refine ⟨?_, h4⟩
    simp only [emitMessages, h3, h1, List.map_cons, List.flatten_cons, List.map_append,
      List.map_replicate, List.append_assoc]
    rfl

theorem emitQueues_spec (cfg : Config) (queuesMap : QueuesMap) :
    ∀ e : Emitter, e.ready cfg →
      (emitQueues cfg queuesMap e).lines = e.lines ++ (setRecords queuesMap).map Record.encode
        ∧ (emitQueues cfg queuesMap e).ready cfg := by
  induction queuesMap with
  | nil => intro e h; simp [emitQueues, setRecords, h]
  | cons p queuesMap ih =>
    intro e h
    obtain ⟨q, inner⟩ := p
    obtain ⟨h1, h2⟩ := emitMessages_spec cfg q inner e h
    obtain ⟨h3, h4⟩ := ih _ h2
    refine ⟨?_, h4⟩
    simp only [setRecords] at h3
    simp only [emitQueues, h3, h1, setRecords, List.map_cons, List.flatten_cons,
      List.map_append, List.append_assoc]

/-- The segments the compactor writes hold, read in order, one encoded SET record per
unit of positive count. -/
theorem emitSegments_flatten (cfg : Config) (queuesMap : QueuesMap) :
    (emitSegments cfg queuesMap).flatten = (setRecords queuesMap).map Record.encode := by
  have h := (emitQueues_spec cfg queuesMap ⟨[], none, cfg.RecoveryFileSize⟩
    (Or.inr (le_refl _))).1
  simpa [emitSegments, Emitter.lines] using h

theorem count_inner_records (q1 q m : GoString) (queueMap : GoMap Int) :
    ((queueMap.map (fun e => List.replicate e.2.toNat ((SET, q1, e.1) : Record))).flatten).count
        (SET, q, m)
      = if q1 = q then (expandCounts queueMap).count m else 0 := by
  induction queueMap with
  | nil => simp [expandCounts]
  | cons p queueMap ih =>
    obtain ⟨x, c⟩ := p
    simp only [List.map_cons, List.flatten_cons, List.count_append, ih, expandCounts,
      List.count_replicate]
    by_cases e : q1 = q <;> by_cases e2 : x = m <;> simp [e, e2]

theorem count_setRecords_of_not_mem (queuesMap : QueuesMap) (q m : GoString)
    (h : q ∉ GoMap.keys queuesMap) : (setRecords queuesMap).count (SET, q, m) = 0 := by
  induction queuesMap with
  | nil => simp [setRecords]
  | cons p queuesMap ih =>
    obtain ⟨q1, inner⟩ := p
    simp only [GoMap.keys, List.map_cons, List.mem_cons, not_or] at h
    have h1 := ih h.2
    simp only [setRecords] at h1
    simp only [setRecords, List.map_cons, List.flatten_cons, List.count_append, h1,
      count_inner_records]
    simp [Ne.symm h.1]

theorem count_setRecords (queuesMap : QueuesMap) (q m : GoString)
    (h : QueuesMap.wellFormed queuesMap) :
    (setRecords queuesMap).count (SET, q, m) = (netCount queuesMap q m).toNat := by
  induction queuesMap with
  | nil => simp [setRecords, netCount, GoMap.get]
  | cons p queuesMap ih =>
    obtain ⟨q1, inner⟩ := p
    obtain ⟨hnd, hsp, hinner⟩ := h
    simp only [GoMap.keys, List.map_cons, List.nodup_cons] at hnd
    have hrest : QueuesMap.wellFormed queuesMap :=
      ⟨hnd.2, fun x hx => hsp x (by simp only [GoMap.keys, List.map_cons, List.mem_cons]; exact Or.inr hx),
        fun x hx => hinner x (List.mem_cons_of_mem _ hx)⟩
    have h1 := ih hrest
    simp only [setRecords] at h1
    simp only [setRecords, List.map_cons, List.flatten_cons, List.count_append,
      count_inner_records]
    by_cases e : q1 = q
    · subst e
      have h0 := count_setRecords_of_not_mem queuesMap q1 m hnd.1
      simp only [setRecords] at h0
      simp only [if_true, h0, Nat.add_zero, netCount, GoMap.get, Option.some_bind]
      exact count_expandCounts inner m (hinner (q1, inner) (by simp))
    · simp only [e, if_false, Nat.zero_add, h1, netCount, GoMap.get]

theorem mem_setRecords (queuesMap : QueuesMap) (r : Record) (h : r ∈ setRecords queuesMap) :
    r.1 = SET ∧ r.2.1 ∈ GoMap.keys queuesMap := by
  simp only [setRecords, List.mem_flatten, List.mem_map] at h
  obtain ⟨l, ⟨p, hp, rfl⟩, hr⟩ := h
  simp only [List.mem_flatten, List.mem_map] at hr
  obtain ⟨l1, ⟨e, _, rfl⟩, hr1⟩ := hr
  have := List.eq_of_mem_replicate hr1
  subst this
  exact ⟨rfl, List.mem_map.2 ⟨p, hp, rfl⟩⟩

theorem afterLastDel_of_no_del (q : GoString) (records : List Record)
    (h : ∀ r ∈ records, r.1 ≠ DEL) : afterLastDel q records = records := by
  unfold afterLastDel
  have : records.reverse.takeWhile (fun r => !r.isDel q) = records.reverse := by
    rw [List.takeWhile_eq_self_iff]
    intro r hr
    have := h r (List.mem_reverse.1 hr)
    simp [Record.isDel, this]
  rw [this, List.reverse_reverse]

/-- Folding the compactor's records: each count is the positive part of the count of
the map they were written from. -/
theorem netCount_setRecords (queuesMap : QueuesMap) (h : QueuesMap.wellFormed queuesMap)
    (q m : GoString) :
    netCount (replayLines [] ((setRecords queuesMap).map Record.encode)) q m
      = max (netCount queuesMap q m) 0 := by
  obtain ⟨d1, d2, _⟩ := methods_distinct
  have hwf : ∀ r ∈ setRecords queuesMap, r.wellFormed := by
    intro r hr
    obtain ⟨h1, h2⟩ := mem_setRecords queuesMap r hr
    exact ⟨Or.inl h1, h.2.1 _ h2⟩
  have hnodel : ∀ r ∈ setRecords queuesMap, r.1 ≠ DEL := by
    intro r hr
    rw [(mem_setRecords queuesMap r hr).1]
    exact d2
  have hnoget : (setRecords queuesMap).count (GET, q, m) = 0 := by
    rw [List.count_eq_zero]
    intro hmem
    exact d1 (mem_setRecords queuesMap _ hmem).1.symm
  rw [replayLines_eq_replayRecords, filterMap_decode_encode _ hwf, netCount_replayRecords]
  unfold netAfterLastDel
  rw [afterLastDel_of_no_del q _ hnodel, hnoget, count_setRecords queuesMap q m h,
    Int.toNat_eq_max]
  simp

/-! ## The records recovery re-journals -/

theorem recoverCopy_journal (cfg : Config) (room : Nat → Bool) (q m : GoString)
    (r r1 : Recovery) (h : recoverCopy cfg room q m r = some r1) :
    ∀ rec ∈ r1.journal, rec ∈ r.journal ∨ rec = getRecovery SET q m := by
  unfold recoverCopy at h
  cases hg : increaseQueueSize r.queues q cfg.QueueInitSize with
  | none => simp [hg] at h
  | some queues =>
    simp only [hg, Option.map_some', Option.some.injEq] at h
    subst h
    intro rec hrec
    cases hs : trySend queues q m with
    | none =>
      simp only [hs] at hrec
      exact Or.inl hrec
    | some queues1 =>
      cases hroom : room r.offers with
      | false =>
        simp only [hs, hroom, Bool.false_eq_true, if_false] at hrec
        exact Or.inl hrec
      | true =>
        simp only [hs, hroom, if_true, List.mem_append, List.mem_singleton] at hrec
        exact hrec

theorem recoverCopies_journal (cfg : Config) (room : Nat → Bool) (q m : GoString) (n : Nat) :
    ∀ r r1 : Recovery, recoverCopies cfg room q m n r = some r1 →
      ∀ rec ∈ r1.journal, rec ∈ r.journal ∨ (0 < n ∧ rec = getRecovery SET q m) := by
  induction n with
  | zero =>
    intro r r1 h rec hrec
    simp only [recoverCopies, Option.some.injEq] at h
    subst h
    exact Or.inl hrec
  | succ n ih =>
    intro r r1 h rec hrec
    simp only [recoverCopies] at h
    cases hA : recoverCopy cfg room q m r with
    | none => simp [hA] at h
    | some rA =>
      simp only [hA, Option.some_bind] at h
      rcases ih rA r1 h rec hrec with h1 | ⟨_, h1⟩
      · rcases recoverCopy_journal cfg room q m r rA hA rec h1 with h2 | h2
        · exact Or.inl h2
        · exact Or.inr ⟨Nat.succ_pos n, h2⟩
      · exact Or.inr ⟨Nat.succ_pos n, h1⟩

theorem recoverMessages_journal (cfg : Config) (room : Nat → Bool) (q : GoString)
    (queueMap : GoMap Int) :
    ∀ r r1 : Recovery, recoverMessages cfg room q queueMap r = some r1 →
      ∀ rec ∈ r1.journal, rec ∈ r.journal ∨
        ∃ m, rec = getRecovery SET q m ∧ ((SET, q, m) : Record) ∈
          (queueMap.map (fun e => List.replicate e.2.toNat ((SET, q, e.1) : Record))).flatten := by
  induction queueMap with
  | nil =>
    intro r r1 h rec hrec
    simp only [recoverMessages, Option.some.injEq] at h
    subst h
    exact Or.inl hrec
  | cons p queueMap ih =>
    intro r r1 h rec hrec
    obtain ⟨m, count⟩ := p
    simp only [recoverMessages] at h
    cases hA : recoverCopies cfg room q m count.toNat r with
    | none => simp [hA] at h
    | some rA =>
      simp only [hA, Option.some_bind] at h
      rcases ih rA r1 h rec hrec with h1 | ⟨m1, h1, h2⟩
      · rcases recoverCopies_journal cfg room q m count.toNat r rA hA rec h1 with h3 | ⟨h3, h4⟩
        · exact Or.inl h3
        · refine Or.inr ⟨m, h4, ?_⟩
          simp only [List.map_cons, List.flatten_cons, List.mem_append]
          exact Or.inl (List.mem_replicate.2 ⟨Nat.pos_iff_ne_zero.1 h3, rfl⟩)
      · refine Or.inr ⟨m1, h1, ?_⟩
        simp only [List.map_cons, List.flatten_cons, List.mem_append]
        exact Or.inr h2

theorem recoverQueues_journal (cfg : Config) (room : Nat → Bool) (queuesMap : QueuesMap) :
    ∀ r r1 : Recovery, recoverQueues cfg room queuesMap r = some r1 →
      ∀ rec ∈ r1.journal, rec ∈ r.journal ∨
        ∃ q m, rec = getRecovery SET q m ∧ ((SET, q, m) : Record) ∈ setRecords queuesMap := by
  induction queuesMap with
  | nil =>
    intro r r1 h rec hrec
    simp only [recoverQueues, Option.some.injEq] at h
    subst h
    exact Or.inl hrec
  | cons p queuesMap ih =>
    intro r r1 h rec hrec
    obtain ⟨q, inner⟩ := p
    simp only [recoverQueues] at h
    cases hA : recoverMessages cfg room q inner
        { r with queues := r.queues.set q ⟨[], cfg.QueueInitSize⟩ } with
    | none => simp [hA] at h
    | some rA =>
      simp only [hA, Option.some_bind] at h
      rcases ih rA r1 h rec hrec with h1 | ⟨q1, m1, h1, h2⟩
      · rcases recoverMessages_journal cfg room q inner _ rA hA rec h1 with h3 | ⟨m, h3, h4⟩
        · exact Or.inl h3
        · refine Or.inr ⟨q, m, h3, ?_⟩
          simp only [setRecords, List.map_cons, List.flatten_cons, List.mem_append]
          exact Or.inl h4
      · refine Or.inr ⟨q1, m1, h1, ?_⟩
        simp only [setRecords] at h2
        simp only [setRecords, List.map_cons, List.flatten_cons, List.mem_append]
        exact Or.inr h2

/-- A SET record the working map stands for belongs to a message of positive net count,
and conversely. -/
theorem mem_setRecords_iff (queuesMap : QueuesMap) (h : QueuesMap.wellFormed queuesMap)
    (q m : GoString) :
    ((SET, q, m) : Record) ∈ setRecords queuesMap ↔ 0 < netCount queuesMap q m := by
  have hc := count_setRecords queuesMap q m h
  rw [← List.count_pos_iff, hc]
  omega

/-- Every record startup recovery re-journals is the SET record of a message whose
folded net count is positive. -/
theorem initialRecovery_journal (cfg : Config) (room : Nat → Bool)
    (files : List (List GoString)) (r : Recovery)
    (h : initialRecovery cfg room [] files = some r) :
    ∀ rec ∈ r.journal, ∃ q m, rec = getRecovery SET q m
      ∧ 0 < netCount (replayFiles files) q m := by
  intro rec hrec
  rcases recoverQueues_journal cfg room (replayFiles files) ⟨[], [], 0⟩ r h rec hrec with
    h1 | ⟨q, m, h1, h2⟩
  · simp at h1
  · exact ⟨q, m, h1, (mem_setRecords_iff _ (replayFiles_wellFormed files) q m).1 h2⟩

/-- Segments whose lines are all shorter than the scanner's limit are scanned back as
they were written. -/
theorem scan_segments_of_short (segments : List (List GoString))
    (h : ∀ line ∈ segments.flatten, line.length < MaxScanTokenSize) :
    segments.map scanLines = segments := by
  have hall : ∀ seg ∈ segments, scanLines seg = seg := by
    intro seg hseg
    apply scanLines_of_short
    intro line hline
    exact h line (List.mem_flatten.2 ⟨seg, hseg, hline⟩)
  conv_rhs => rw [← List.map_id segments]
  exact List.map_congr_left (fun seg hseg => by simpa using hall seg hseg)

/-- The segments the compactor writes for a working map in which every message of
positive net count has a journal line shorter than the scanner's limit are scanned back
as they were written. -/
theorem scan_emitSegments (cfg : Config) (queuesMap : QueuesMap)
    (hwf : QueuesMap.wellFormed queuesMap)
    (hshort : ∀ q m, 0 < netCount queuesMap q m →
      (QueryEscape (getRecovery SET q m)).length < MaxScanTokenSize) :
    (emitSegments cfg queuesMap).map scanLines = emitSegments cfg queuesMap := by
  apply scan_segments_of_short
  intro line hline
  rw [emitSegments_flatten] at hline
  obtain ⟨rec, hrec, rfl⟩ := List.mem_map.1 hline
  obtain ⟨method, q, m⟩ := rec
  have hm : method = SET := (mem_setRecords queuesMap _ hrec).1
  subst hm
  exact hshort q m ((mem_setRecords_iff queuesMap hwf q m).1 hrec)

/-! ## Replay idempotence -/

/-- C8, counterexample. The journal GET jobs a folds to the count -1 for `a`; recovery
creates the queue jobs, empty, and re-journals nothing, so a replay of the new journal
counts 0 for `a` and rebuilds a store without the queue jobs. With `QueueInitSize = 1`
the journal SET jobs a, SET jobs a folds to 2, one copy is materialised and
re-journaled, and the replay of the new journal counts 1. And the journal of the one
unescaped line `SET jobs !!...!` with 22000 bytes `!`, a line of 22009 bytes that the
scanner yields, folds to the count 1; the record is re-journaled with every `!` escaped
as `%21`, a line of 66009 bytes that the scanner does not yield, so the replay of the
new journal reads nothing, counts 0 and rebuilds the empty store. -/
theorem replay_idempotence_counterexample :
    initialRecovery ⟨2, 100, []⟩ (fun _ => true) [] [[str "GET+jobs+a"]]
      = some ⟨[(str "jobs", ⟨[], 2⟩)], [], 0⟩
    ∧ netCount (replayFiles [[str "GET+jobs+a"]]) (str "jobs") (str "a") = -1
    ∧ netCount (replayFiles ((writingRecovery ⟨2, 100, []⟩ []).map scanLines))
        (str "jobs") (str "a") = 0
    ∧ initialRecovery ⟨2, 100, []⟩ (fun _ => true) []
        ((writingRecovery ⟨2, 100, []⟩ []).map scanLines) = some ⟨[], [], 0⟩
    ∧ initialRecovery ⟨1, 100, []⟩ (fun _ => true) [] [[str "SET+jobs+a", str "SET+jobs+a"]]
      = some ⟨[(str "jobs", ⟨[str "a"], 1⟩)], [str "SET jobs a"], 1⟩
    ∧ netCount (replayFiles [[str "SET+jobs+a", str "SET+jobs+a"]]) (str "jobs") (str "a") = 2
    ∧ netCount (replayFiles ((writingRecovery ⟨1, 100, []⟩ [str "SET jobs a"]).map scanLines))
        (str "jobs") (str "a") = 1
    ∧ (getRecovery SET (str "jobs") bangMessage).length = 22009
    ∧ scanLines [getRecovery SET (str "jobs") bangMessage]
      = [getRecovery SET (str "jobs") bangMessage]
    ∧ netCount (replayFiles [[getRecovery SET (str "jobs") bangMessage]])
        (str "jobs") bangMessage = 1
    ∧ initialRecovery ⟨2, 100, []⟩ (fun _ => true) []
        [[getRecovery SET (str "jobs") bangMessage]]
      = some ⟨[(str "jobs", ⟨[bangMessage], 2⟩)], [getRecovery SET (str "jobs") bangMessage], 1⟩
    ∧ writingRecovery ⟨2, 100, []⟩ [getRecovery SET (str "jobs") bangMessage]
      = [[QueryEscape (getRecovery SET (str "jobs") bangMessage)]]
    ∧ (QueryEscape (getRecovery SET (str "jobs") bangMessage)).length = 66009
    ∧ (writingRecovery ⟨2, 100, []⟩ [getRecovery SET (str "jobs") bangMessage]).map scanLines
      = [[]]
    ∧ netCount (replayFiles [[]]) (str "jobs") bangMessage = 0
    ∧ initialRecovery ⟨2, 100, []⟩ (fun _ => true) [] [[]] = some ⟨[], [], 0⟩ := by
  obtain ⟨hraw, h37, h43, hesc⟩ := bangMessage_facts
  have hdec := decode_raw_jobs bangMessage h37 h43
  have hlong : MaxScanTokenSize ≤ (QueryEscape (getRecovery SET (str "jobs") bangMessage)).length := by
    rw [hesc]
    decide
  refine ⟨by decide, by decide, by decide, by decide, by decide, by decide, by decide,
    hraw, ?_, ?_, recover_single _ bangMessage hdec, written_single _, hesc, ?_, rfl, rfl⟩
  · apply scanLines_of_short
    intro line hline
    rw [List.mem_singleton.1 hline, hraw]
    decide
  · rw [replayFiles_single _ bangMessage hdec]
    exact netCount_single bangMessage
  · rw [written_single, List.map_cons, List.map_nil, scan_single_long _ hlong]

/-- C8, amended. For every journal in which every message of positive net count has a
journal line `SET q m` shorter than the 65536 bytes of the scanner's buffer, with a
capacity of at least 2 and no append rejected: replaying the journal, materialising the
store and replaying the records re-journaled for it (as the writer lays them out in
segments and the scanner reads them back) gives, for every queue and message, the
positive part of the net count the first replay gives, hence the same count wherever
that one is not negative; and materialising the second replay gives a store with the
same number of copies of every message in every queue. -/
theorem replay_idempotence (cfg : Config) (room : Nat → Bool) (files : List (List GoString))
    (hs : 2 ≤ cfg.QueueInitSize) (hall : ∀ k, room k = true)
    (hshort : ∀ q m, 0 < netCount (replayFiles files) q m →
      (QueryEscape (getRecovery SET q m)).length < MaxScanTokenSize) :
    ∃ r, initialRecovery cfg room [] files = some r
      ∧ (∀ q m, netCount (replayFiles ((writingRecovery cfg r.journal).map scanLines)) q m
          = max (netCount (replayFiles files) q m) 0)
      ∧ ∃ r2, initialRecovery cfg room [] ((writingRecovery cfg r.journal).map scanLines)
            = some r2
        ∧ ∀ q m, copies r2.queues q m = copies r.queues q m := by
  obtain ⟨r, hrun, _, hcopies, hT⟩ := initialRecovery_spec cfg room files
  obtain ⟨records, hTr⟩ := hT hs hall
  have hj : ∀ rec ∈ r.journal, (QueryEscape rec).length < MaxScanTokenSize := by
    intro rec hrec
    obtain ⟨q, m, rfl, hpos⟩ := initialRecovery_journal cfg room files r hrun rec hrec
    exact hshort q m hpos
  have hd := hTr.durable hj
  have hscan := scan_writingRecovery cfg r.journal hj
  have hnet : ∀ q m, netCount (replayFiles (writingRecovery cfg r.journal)) q m
      = (copies r.queues q m : Int) := by
    intro q m
    have := hd q m
    simp only [journalLines] at this
    rw [hscan] at this
    rw [this]
    unfold replayFiles
    rw [foldl_replayLines]
  obtain ⟨r2, hrun2, _, hcopies2, _⟩ :=
    initialRecovery_spec cfg room (writingRecovery cfg r.journal)
  refine ⟨r, hrun, ?_, r2, ?_, ?_⟩
  · intro q m
    rw [hscan, hnet q m, hcopies hs q m, Int.toNat_eq_max]
  · rw [hscan]
    exact hrun2
  · intro q m
    rw [hcopies2 hs q m, hnet q m]
    simp

theorem replay_idempotence_witness :
    ∃ r, initialRecovery ⟨2, 100, []⟩ (fun _ => true) []
          [[str "SET+jobs+a", str "SET+jobs+a", str "GET+jobs+b"]] = some r
      ∧ (∀ q m, netCount (replayFiles ((writingRecovery ⟨2, 100, []⟩ r.journal).map scanLines))
            q m
          = max (netCount (replayFiles
              [[str "SET+jobs+a", str "SET+jobs+a", str "GET+jobs+b"]]) q m) 0)
      ∧ ∃ r2, initialRecovery ⟨2, 100, []⟩ (fun _ => true) []
            ((writingRecovery ⟨2, 100, []⟩ r.journal).map scanLines) = some r2
        ∧ ∀ q m, copies r2.queues q m = copies r.queues q m :=
  replay_idempotence ⟨2, 100, []⟩ (fun _ => true)
    [[str "SET+jobs+a", str "SET+jobs+a", str "GET+jobs+b"]] (by decide) (fun _ => rfl)
    (by
      intro q m h
      have e : replayFiles [[str "SET+jobs+a", str "SET+jobs+a", str "GET+jobs+b"]]
          = [(str "jobs", [(str "a", 2), (str "b", -1)])] := by decide
      rw [e] at h
      by_cases hq : str "jobs" = q
      · subst hq
        by_cases hm : str "a" = m
        · subst hm
          decide
        · by_cases hb : str "b" = m
          · subst hb
            exact absurd h (by decide)
          · simp [netCount, GoMap.get, hm, hb] at h
      · simp [netCount, GoMap.get, hq] at h)

/-! ## Compaction -/

theorem entry_applyRecord_set (queuesMap : QueuesMap) (q1 m1 q m : GoString) :
    QueuesMap.entry (applyRecord queuesMap SET q1 m1) q m =
      if q1 = q ∧ m1 = m then some ((QueuesMap.entry queuesMap q m).getD 0 + 1)
      else QueuesMap.entry queuesMap q m := by
  unfold applyRecord QueuesMap.entry
  cases hq : GoMap.get queuesMap q1 <;>
    by_cases e : q1 = q <;> by_cases e2 : m1 = m <;>
    simp_all [GoMap.get_set, GoMap.get]

theorem get_applyRecord_set (queuesMap : QueuesMap) (q1 m1 q : GoString) :
    GoMap.get (applyRecord queuesMap SET q1 m1) q = none
      ↔ q1 ≠ q ∧ GoMap.get queuesMap q = none := by
  unfold applyRecord
  cases hq : GoMap.get queuesMap q1 <;> by_cases e : q1 = q <;>
    simp_all [GoMap.get_set, GoMap.get]

/-- The fold of SET records only, from the empty map: a message has an entry exactly
when a record names it, with the number of its records as count, and a queue name has
an entry exactly when a record names it. -/
theorem replayRecords_sets (records : List Record) (h : ∀ r ∈ records, r.1 = SET)
    (q m : GoString) :
    QueuesMap.entry (replayRecords [] records) q m
        = (if 0 < records.count (SET, q, m) then some (records.count (SET, q, m) : Int)
           else none)
      ∧ (GoMap.get (replayRecords [] records) q = none ↔ ∀ r ∈ records, r.2.1 ≠ q) := by
  induction records using List.reverseRecOn with
  | nil => simp [replayRecords, QueuesMap.entry, GoMap.get]
  | append_singleton records r ih =>
    obtain ⟨method, q1, m1⟩ := r
    have hm : method = SET := h (method, q1, m1) (by simp)
    subst hm
    obtain ⟨ih1, ih2⟩ := ih (fun x hx => h x (by simp [hx]))
    rw [replayRecords_append]
    constructor
    · simp only []
      rw [entry_applyRecord_set, ih1, List.count_append]
      by_cases e : q1 = q <;> by_cases e2 : m1 = m
      · subst e e2
        by_cases hc : 0 < records.count (SET, q1, m1) <;> simp [hc]
        omega
      · have hne : ((SET, q1, m1) : Record) ≠ (SET, q, m) := by
          intro hh
          exact e2 (Prod.mk.inj (Prod.mk.inj hh).2).2
        simp [e2, List.count_cons, hne]
      · have hne : ((SET, q1, m1) : Record) ≠ (SET, q, m) := by
          intro hh
          exact e (Prod.mk.inj (Prod.mk.inj hh).2).1
        simp [e, List.count_cons, hne]
      · have hne : ((SET, q1, m1) : Record) ≠ (SET, q, m) := by
          intro hh
          exact e (Prod.mk.inj (Prod.mk.inj hh).2).1
        simp [e, List.count_cons, hne]
    · simp only []
      rw [get_applyRecord_set, ih2]
      constructor
      · rintro ⟨h1, h2⟩ x hx
        rcases List.mem_append.1 hx with hx | hx
        · exact h2 x hx
        · rw [List.mem_singleton.1 hx]
          exact h1
      · intro h1
        exact ⟨h1 (SET, q1, m1) (by simp), fun x hx => h1 x (by simp [hx])⟩

/-- C7, counterexample. The segment SET jobs a, GET jobs a folds to the map
jobs = {a: 0}, the compactor emits no record for it and the fold of its output is the
empty map; the segment GET jobs a folds to the count -1 and the output to the count 0;
for the directory GET jobs a | SET jobs a a full replay counts 0 for `a` before
the compaction and 1 after it. And the segment of the one unescaped line
`SET jobs !!...!` with 22000 bytes `!` folds to jobs = {!!...!: 1}; the compactor emits
the record with every `!` escaped as `%21`, a line of 66009 bytes that the scanner does
not yield, so the fold of its output is the empty map. -/
theorem compaction_counterexample :
    replayFiles [[str "SET+jobs+a", str "GET+jobs+a"]] = [(str "jobs", [(str "a", 0)])]
    ∧ emitSegments ⟨2, 100, []⟩ (replayFiles [[str "SET+jobs+a", str "GET+jobs+a"]]) = []
    ∧ replayFiles ((emitSegments ⟨2, 100, []⟩
        (replayFiles [[str "SET+jobs+a", str "GET+jobs+a"]])).map scanLines) = []
    ∧ netCount (replayFiles [[str "GET+jobs+a"]]) (str "jobs") (str "a") = -1
    ∧ netCount (replayFiles ((emitSegments ⟨2, 100, []⟩
        (replayFiles [[str "GET+jobs+a"]])).map scanLines)) (str "jobs") (str "a") = 0
    ∧ netCount (replayFiles [[str "GET+jobs+a"], [str "SET+jobs+a"]]) (str "jobs") (str "a") = 0
    ∧ netCount (replayFiles ((cleanup ⟨2, 100, []⟩
        [[str "GET+jobs+a"], [str "SET+jobs+a"]]).map scanLines)) (str "jobs") (str "a") = 1
    ∧ replayFiles [[getRecovery SET (str "jobs") bangMessage]]
      = [(str "jobs", [(bangMessage, 1)])]
    ∧ emitSegments ⟨2, 100, []⟩ (replayFiles [[getRecovery SET (str "jobs") bangMessage]])
      = [[QueryEscape (getRecovery SET (str "jobs") bangMessage)]]
    ∧ (QueryEscape (getRecovery SET (str "jobs") bangMessage)).length = 66009
    ∧ replayFiles ((emitSegments ⟨2, 100, []⟩
        (replayFiles [[getRecovery SET (str "jobs") bangMessage]])).map scanLines) = [] := by
  obtain ⟨hraw, h37, h43, hesc⟩ := bangMessage_facts
  have hdec := decode_raw_jobs bangMessage h37 h43
  have hfold := replayFiles_single _ bangMessage hdec
  have hlong : MaxScanTokenSize ≤ (QueryEscape (getRecovery SET (str "jobs") bangMessage)).length := by
    rw [hesc]
    decide
  refine ⟨by decide, by decide, by decide, by decide, by decide, by decide, by decide,
    hfold, ?_, hesc, ?_⟩
  · rw [hfold, emit_single]
  · rw [hfold, emit_single, List.map_cons, List.map_nil, scan_single_long _ hlong]
    rfl

/-- C7, amended. For every list of segments in which every message of positive net
count has a journal line `SET q m` shorter than the 65536 bytes of the scanner's
buffer, the fold of the segments the compactor emits for them, as the scanner reads
them back, holds for every queue name and message the positive part of the net count
the fold of the original segments holds: the message has an entry, with the same count,
exactly when its original net count is positive, and none when that count is zero or
negative or the original has no entry; a queue name has an entry exactly when one of
its messages has a positive original net count. The compactor folds every segment of
the directory but the newest, which it leaves in place after its output. -/
theorem compaction_equivalence (cfg : Config) (segments : List (List GoString))
    (newest : List GoString) (q m : GoString)
    (hshort : ∀ q m, 0 < netCount (replayFiles segments) q m →
      (QueryEscape (getRecovery SET q m)).length < MaxScanTokenSize) :
    netCount (replayFiles ((emitSegments cfg (replayFiles segments)).map scanLines)) q m
      = max (netCount (replayFiles segments) q m) 0
    ∧ QueuesMap.entry
          (replayFiles ((emitSegments cfg (replayFiles segments)).map scanLines)) q m
      = (if 0 < netCount (replayFiles segments) q m
          then some (netCount (replayFiles segments) q m) else none)
    ∧ (GoMap.get (replayFiles ((emitSegments cfg (replayFiles segments)).map scanLines)) q
          ≠ none
        ↔ ∃ m1, 0 < netCount (replayFiles segments) q m1)
    ∧ cleanup cfg (segments ++ [newest])
      = emitSegments cfg (replayFiles segments) ++ [newest] := by
  have hwf := replayFiles_wellFormed segments
  have hout : replayFiles ((emitSegments cfg (replayFiles segments)).map scanLines)
      = replayRecords [] (setRecords (replayFiles segments)) := by
    rw [scan_emitSegments cfg _ hwf hshort]
    unfold replayFiles
    rw [foldl_replayLines (emitSegments cfg _), emitSegments_flatten,
      replayLines_eq_replayRecords, filterMap_decode_encode]
    intro r hr
    obtain ⟨h1, h2⟩ := mem_setRecords _ r hr
    exact ⟨Or.inl h1, hwf.2.1 _ h2⟩
  have hsets : ∀ r ∈ setRecords (replayFiles segments), r.1 = SET :=
    fun r hr => (mem_setRecords _ r hr).1
  obtain ⟨hentry, hget⟩ := replayRecords_sets _ hsets q m
  have hcount := count_setRecords (replayFiles segments) q m hwf
  have hE : QueuesMap.entry (replayRecords [] (setRecords (replayFiles segments))) q m
      = (if 0 < netCount (replayFiles segments) q m
          then some (netCount (replayFiles segments) q m) else none) := by
    rw [hentry, hcount]
    by_cases hpos : 0 < netCount (replayFiles segments) q m
    · have h1 : 0 < (netCount (replayFiles segments) q m).toNat := by omega
      rw [if_pos h1, if_pos hpos, Int.toNat_of_nonneg (le_of_lt hpos)]
    · have h1 : ¬ 0 < (netCount (replayFiles segments) q m).toNat := by omega
      rw [if_neg h1, if_neg hpos]
  rw [hout]
  refine ⟨?_, hE, ?_, ?_⟩
  · have hn : netCount (replayRecords [] (setRecords (replayFiles segments))) q m
        = (QueuesMap.entry (replayRecords [] (setRecords (replayFiles segments))) q m).getD 0 :=
      rfl
    rw [hn, hE]
    by_cases hpos : 0 < netCount (replayFiles segments) q m
    · rw [if_pos hpos, Option.getD_some, max_eq_left (le_of_lt hpos)]
    · rw [if_neg hpos, Option.getD_none, max_eq_right (not_lt.1 hpos)]
  · rw [not_iff_comm, hget]
    constructor
    · rintro hno r hr hq
      obtain ⟨method, q1, m1⟩ := r
      have hm : method = SET := hsets _ hr
      subst hm
      simp only [] at hq
      subst hq
      exact hno ⟨m1, (mem_setRecords_iff _ hwf q1 m1).1 hr⟩
    · rintro hall ⟨m1, hm1⟩
      exact hall (SET, q, m1) ((mem_setRecords_iff _ hwf q m1).2 hm1) rfl
  · simp [cleanup, cleanupFold]

theorem compaction_equivalence_witness :
    netCount (replayFiles ((emitSegments ⟨2, 2, []⟩ (replayFiles
        [[str "SET+jobs+a", str "SET+jobs+a"], [str "SET+jobs+a", str "GET+jobs+b"]])).map
          scanLines)) (str "jobs") (str "a")
      = max (netCount (replayFiles
        [[str "SET+jobs+a", str "SET+jobs+a"], [str "SET+jobs+a", str "GET+jobs+b"]])
          (str "jobs") (str "a")) 0
    ∧ QueuesMap.entry (replayFiles ((emitSegments ⟨2, 2, []⟩ (replayFiles
        [[str "SET+jobs+a", str "SET+jobs+a"], [str "SET+jobs+a", str "GET+jobs+b"]])).map
          scanLines)) (str "jobs") (str "a")
      = (if 0 < netCount (replayFiles
            [[str "SET+jobs+a", str "SET+jobs+a"], [str "SET+jobs+a", str "GET+jobs+b"]])
              (str "jobs") (str "a")
          then some (netCount (replayFiles
            [[str "SET+jobs+a", str "SET+jobs+a"], [str "SET+jobs+a", str "GET+jobs+b"]])
              (str "jobs") (str "a")) else none)
    ∧ (GoMap.get (replayFiles ((emitSegments ⟨2, 2, []⟩ (replayFiles
        [[str "SET+jobs+a", str "SET+jobs+a"], [str "SET+jobs+a", str "GET+jobs+b"]])).map
          scanLines)) (str "jobs") ≠ none
        ↔ ∃ m1, 0 < netCount (replayFiles
            [[str "SET+jobs+a", str "SET+jobs+a"], [str "SET+jobs+a", str "GET+jobs+b"]])
              (str "jobs") m1)
    ∧ cleanup ⟨2, 2, []⟩
        ([[str "SET+jobs+a", str "SET+jobs+a"], [str "SET+jobs+a", str "GET+jobs+b"]]
          ++ [[str "SET+work+x"]])
      = emitSegments ⟨2, 2, []⟩ (replayFiles
          [[str "SET+jobs+a", str "SET+jobs+a"], [str "SET+jobs+a", str "GET+jobs+b"]])
        ++ [[str "SET+work+x"]] :=
  compaction_equivalence ⟨2, 2, []⟩
    [[str "SET+jobs+a", str "SET+jobs+a"], [str "SET+jobs+a", str "GET+jobs+b"]]
    [str "SET+work+x"] (str "jobs") (str "a")
    (by
      intro q m h
      have e : replayFiles
            [[str "SET+jobs+a", str "SET+jobs+a"], [str "SET+jobs+a", str "GET+jobs+b"]]
          = [(str "jobs", [(str "a", 3), (str "b", -1)])] := by decide
      rw [e] at h
      by_cases hq : str "jobs" = q
      · subst hq
        by_cases hm : str "a" = m
        · subst hm
          decide
        · by_cases hb : str "b" = m
          · subst hb
            exact absurd h (by decide)
          · simp [netCount, GoMap.get, hm, hb] at h
      · simp [netCount, GoMap.get, hq] at h)

/-! ## Delete -/

/-- C11. Delete removes the queue entirely: when the queue `name` exists, with any
number of pending messages, delete removes the name from the store, leaves every other
queue as it was, offers the record DEL name with the empty message to the journal (it
is the one record appended when `recoveryCh` has room, and nothing is appended
otherwise), and a count of `name` afterwards replies NotFound. -/
theorem delete_removes_queue (room : Bool) (st : State) (name : GoString) (ch : Chan)
    (hq : st.queues.get name = some ch) :
    (deleteHandler room st name).1.queues.get name = none
    ∧ (∀ other, other ≠ name →
        (deleteHandler room st name).1.queues.get other = st.queues.get other)
    ∧ (room = true → (deleteHandler room st name).1.journal
          = st.journal ++ [getRecovery DEL name []]
        ∧ (deleteHandler room st name).2 = .ok)
    ∧ (room = false → (deleteHandler room st name).1.journal = st.journal
        ∧ (deleteHandler room st name).2 = .journalRejected)
    ∧ getRecovery DEL name [] = str "DEL " ++ name ++ str " "
    ∧ countHandler (deleteHandler room st name).1 name
      = ((deleteHandler room st name).1, .notFound) := by
  have hdel : (st.queues.delete name).get name = none := by
    rw [GoMap.get_delete]; simp
  have hother : ∀ other, other ≠ name →
      (st.queues.delete name).get other = st.queues.get other := by
    intro other hne
    rw [GoMap.get_delete]
    simp [Ne.symm hne]
  have hrec : getRecovery DEL name [] = str "DEL " ++ name ++ str " " := by
    have e1 : str "DEL " = DEL ++ [SP] := by decide
    have e2 : str " " = [SP] := by decide
    rw [e1, e2]
    simp [getRecovery]
  cases room with
  | false =>
    simp only [deleteHandler, hq, Bool.false_eq_true, if_false]
    refine ⟨hdel, hother, by simp, by simp, hrec, ?_⟩
    simp [countHandler, hdel]
  | true =>
    simp only [deleteHandler, hq, if_true]
    refine ⟨hdel, hother, by simp, by simp, hrec, ?_⟩
    simp [countHandler, hdel]

theorem delete_removes_queue_witness :
    (deleteHandler true ⟨[(str "jobs", ⟨[str "a", str "b"], 2⟩), (str "work", ⟨[str "c"], 2⟩)], []⟩
        (str "jobs")).1
      = ⟨[(str "work", ⟨[str "c"], 2⟩)], [str "DEL jobs "]⟩
    ∧ countHandler (deleteHandler true
        ⟨[(str "jobs", ⟨[str "a", str "b"], 2⟩), (str "work", ⟨[str "c"], 2⟩)], []⟩
        (str "jobs")).1 (str "jobs")
      = ((deleteHandler true
        ⟨[(str "jobs", ⟨[str "a", str "b"], 2⟩), (str "work", ⟨[str "c"], 2⟩)], []⟩
        (str "jobs")).1, .notFound) :=
  ⟨by decide,
   (delete_removes_queue true
      ⟨[(str "jobs", ⟨[str "a", str "b"], 2⟩), (str "work", ⟨[str "c"], 2⟩)], []⟩
      (str "jobs") ⟨[str "a", str "b"], 2⟩ (by decide)).2.2.2.2.2⟩

/-! ## A rejected set on an absent queue -/

/-- C12, counterexample. A set of the empty message on the empty store replies 400
and leaves the queue jobs in the store, empty, with the configured capacity. -/
theorem rejected_set_counterexample :
    setHandler ⟨2, 100, []⟩ ⟨fun _ => false, fun _ _ => .row, fun _ => .notExist, fun _ _ => none⟩ true State.empty (str "jobs") []
      = some (⟨[(str "jobs", ⟨[], 2⟩)], []⟩, .badRequest)
    ∧ State.empty.queues.get (str "jobs") = none
    ∧ GoMap.get [(str "jobs", (⟨[], 2⟩ : Chan))] (str "jobs") = some ⟨[], 2⟩
    ∧ setHandler ⟨2, 100, []⟩ ⟨fun _ => true, fun _ _ => .row, fun _ => .notExist, fun _ _ => none⟩ true State.empty (str "jobs")
        (str "file:x")
      = some (⟨[(str "jobs", ⟨[], 2⟩)], []⟩, .notAcceptable) := by
  refine ⟨by decide, by decide, by decide, by decide⟩

/-- C12, amended. A set that is rejected (empty message, or a payload whose existence
check fails) on an absent queue name returns with the error reply, appends nothing to
the journal, enqueues no message and changes no other queue, but it leaves the name in
the store: the queue has been created, empty, with the configured initial capacity,
before the message was looked at. -/
theorem rejected_set_creates_queue (cfg : Config) (env : Env) (room : Bool) (st : State)
    (name message : GoString) (habsent : st.queues.get name = none)
    (hrej : message = [] ∨ ∃ err, checkPayload cfg env message = some err) :
    ∃ reply, setHandler cfg env room st name message
        = some (⟨st.queues.set name ⟨[], cfg.QueueInitSize⟩, st.journal⟩, reply)
      ∧ reply.status ≠ 200
      ∧ (message = [] → reply = .badRequest)
      ∧ (message ≠ [] → checkPayload cfg env message = some reply)
      ∧ (st.queues.set name ⟨[], cfg.QueueInitSize⟩).get name = some ⟨[], cfg.QueueInitSize⟩
      ∧ ∀ other, other ≠ name →
          (st.queues.set name ⟨[], cfg.QueueInitSize⟩).get other = st.queues.get other := by
  have hget : (st.queues.set name ⟨[], cfg.QueueInitSize⟩).get name
      = some ⟨[], cfg.QueueInitSize⟩ := by
    rw [GoMap.get_set]; simp
  have hgrow : increaseQueueSize (st.queues.set name ⟨[], cfg.QueueInitSize⟩) name
      cfg.QueueInitSize = some (st.queues.set name ⟨[], cfg.QueueInitSize⟩) := by
    rw [increaseQueueSize_eq] <;> simp [chanOf_of_get hget]
    intro hlt
    omega
  have hother : ∀ other, other ≠ name →
      (st.queues.set name ⟨[], cfg.QueueInitSize⟩).get other = st.queues.get other := by
    intro other hne
    rw [GoMap.get_set]
    simp [Ne.symm hne]
  by_cases hm : message = []
  · refine ⟨.badRequest, ?_, by decide, fun _ => rfl, fun h => absurd hm h, hget, hother⟩
    simp [setHandler, habsent, hgrow, hm]
  · rcases hrej with h | ⟨err, herr⟩
    · exact absurd h hm
    · refine ⟨err, ?_, ?_, fun h => absurd h hm, fun _ => herr, hget, hother⟩
      · simp [setHandler, habsent, hgrow, hm, herr]
      · rcases checkPayload_err cfg env message err herr with e | e <;> subst e <;> decide

theorem rejected_set_creates_queue_witness :
    ∃ reply, setHandler ⟨2, 100, []⟩ ⟨fun _ => true, fun _ _ => .row, fun _ => .notExist, fun _ _ => none⟩ true
          ⟨[(str "work", ⟨[str "c"], 2⟩)], []⟩ (str "jobs") (str "file:x")
        = some (⟨GoMap.set [(str "work", ⟨[str "c"], 2⟩)] (str "jobs") ⟨[], 2⟩, []⟩, reply)
      ∧ reply.status ≠ 200 :=
  let ⟨reply, h1, h2, _⟩ := rejected_set_creates_queue ⟨2, 100, []⟩
    ⟨fun _ => true, fun _ _ => .row, fun _ => .notExist, fun _ _ => none⟩ true ⟨[(str "work", ⟨[str "c"], 2⟩)], []⟩ (str "jobs")
    (str "file:x") (by decide) (Or.inr ⟨.notAcceptable, by decide⟩)
  ⟨reply, h1, h2⟩

/-! ## Get under journal backpressure -/

/-- C13, counterexample. With `recoveryCh` full, a get on the queue jobs holding a, b
replies 500 and the front message a is gone from the live queue; a fetch does the
same. -/
theorem get_backpressure_counterexample :
    getHandler false ⟨[(str "jobs", ⟨[str "a", str "b"], 2⟩)], []⟩ (str "jobs")
      = (⟨[(str "jobs", ⟨[str "b"], 2⟩)], []⟩, .journalRejected)
    ∧ fetchHandler ⟨2, 100, []⟩
        ⟨fun _ => false, fun _ _ => .row, fun _ => .notExist, fun _ _ => none⟩ false
        ⟨[(str "jobs", ⟨[str "a", str "b"], 2⟩)], []⟩ (str "jobs")
      = (⟨[(str "jobs", ⟨[str "b"], 2⟩)], []⟩, .journalRejected)
    ∧ copies [(str "jobs", ⟨[str "a", str "b"], 2⟩)] (str "jobs") (str "a") = 1
    ∧ copies [(str "jobs", ⟨[str "b"], 2⟩)] (str "jobs") (str "a") = 0 := by
  refine ⟨by decide, by decide, by decide, by decide⟩

/-- C13, amended. When the queue `name` holds at least one message and `recoveryCh` is
full, get and fetch reply with the 500 of the journal branch and append nothing to the
journal; the store is not rolled back: the front message has been taken out of the
live queue and is returned to nobody, the messages behind it stay in order, the
capacity and every other queue are unchanged. -/
theorem get_under_backpressure (cfg : Config) (env : Env) (st : State)
    (name front : GoString) (rest : List GoString)
    (cap : Nat) (hq : st.queues.get name = some ⟨front :: rest, cap⟩) :
    getHandler false st name
      = (⟨st.queues.set name ⟨rest, cap⟩, st.journal⟩, .journalRejected)
    ∧ fetchHandler cfg env false st name
      = (⟨st.queues.set name ⟨rest, cap⟩, st.journal⟩, .journalRejected)
    ∧ Reply.journalRejected.status = 500
    ∧ (st.queues.set name ⟨rest, cap⟩).get name = some ⟨rest, cap⟩
    ∧ ∀ other, other ≠ name →
        (st.queues.set name ⟨rest, cap⟩).get other = st.queues.get other := by
  have hrecv := tryRecv_cons hq (rfl : (⟨front :: rest, cap⟩ : Chan).buf = front :: rest)
  refine ⟨?_, ?_, rfl, ?_, ?_⟩
  · simp [getHandler, hq, hrecv]
  · simp [fetchHandler, hq, hrecv]
  · rw [GoMap.get_set]; simp
  · intro other hne
    rw [GoMap.get_set]
    simp [Ne.symm hne]

theorem get_under_backpressure_witness :
    getHandler false ⟨[(str "jobs", ⟨[str "a", str "b"], 2⟩)], [str "SET jobs a"]⟩ (str "jobs")
      = (⟨GoMap.set [(str "jobs", ⟨[str "a", str "b"], 2⟩)] (str "jobs") ⟨[str "b"], 2⟩,
          [str "SET jobs a"]⟩, .journalRejected) :=
  (get_under_backpressure ⟨2, 100, []⟩
    ⟨fun _ => false, fun _ _ => .row, fun _ => .notExist, fun _ _ => none⟩
    ⟨[(str "jobs", ⟨[str "a", str "b"], 2⟩)], [str "SET jobs a"]⟩
    (str "jobs") (str "a") [str "b"] 2 (by decide)).1

/-! ## List -/

/-- C14, counterexample. After set jobs hello and a get that returns hello, the queue
jobs exists and holds no message, and list still returns its name. -/
theorem list_counterexample :
    serve ⟨2, 100, []⟩ ⟨fun _ => false, fun _ _ => .row, fun _ => .notExist, fun _ _ => none⟩ State.empty
        [(Request.set (str "jobs") (str "hello"), true), (Request.get (str "jobs"), true),
          (Request.list, true)]
      = some (⟨[(str "jobs", ⟨[], 2⟩)], [str "SET jobs hello", str "GET jobs hello"]⟩,
          [.ok, .message (str "hello"), .names [str "jobs"]])
    ∧ (chanOf [(str "jobs", ⟨[], 2⟩)] (str "jobs")).buf = [] := by
  refine ⟨by decide, by decide⟩

/-- C14, amended. List returns exactly the names present in the store, each once,
whether or not the queue holds a message, and changes nothing: a name is in the result
if and only if the store has a queue of that name. -/
theorem list_returns_all_names (st : State) (hnd : (GoMap.keys st.queues).Nodup) :
    ∃ names, listHandler st = (st, .names names)
      ∧ names.Nodup
      ∧ ∀ q, q ∈ names ↔ st.queues.get q ≠ none := by
  refine ⟨st.queues.map Prod.fst, rfl, hnd, ?_⟩
  intro q
  have := GoMap.get_eq_none st.queues q
  simp only [GoMap.keys] at this
  constructor
  · intro h habs
    exact (this.1 habs) h
  · intro h
    by_contra hc
    exact h (this.2 hc)

theorem list_returns_all_names_witness :
    ∃ names, listHandler ⟨[(str "jobs", ⟨[], 2⟩), (str "work", ⟨[str "c"], 2⟩)], []⟩
        = (⟨[(str "jobs", ⟨[], 2⟩), (str "work", ⟨[str "c"], 2⟩)], []⟩, .names names)
      ∧ names.Nodup
      ∧ ∀ q, q ∈ names ↔
        GoMap.get [(str "jobs", (⟨[], 2⟩ : Chan)), (str "work", ⟨[str "c"], 2⟩)] q ≠ none :=
  list_returns_all_names ⟨[(str "jobs", ⟨[], 2⟩), (str "work", ⟨[str "c"], 2⟩)], []⟩
    (by decide)

/-! ## Skip is a rotation -/

/-- C15. Skip is non-destructive and unjournaled: on an existing queue with contents
`L` and for every integer `n`, skip returns with OK, appends nothing to the journal,
changes no other queue and leaves the queue with the same capacity, length and multiset
of messages; the new contents are `L` rotated left by `n mod |L|` positions when
`n > 0` and `L` is not empty, and `L` otherwise. -/
theorem skip_rotates (st : State) (name : GoString) (ch : Chan) (n : Int)
    (hq : st.queues.get name = some ch) (hlen : ch.buf.length ≤ ch.cap) :
    ∃ L1, skipHandler st name (some n)
        = some (⟨st.queues.set name ⟨L1, ch.cap⟩, st.journal⟩, .ok)
      ∧ L1 = (if 0 < n ∧ ch.buf ≠ [] then rotateLeft ch.buf (n.toNat % ch.buf.length)
              else ch.buf)
      ∧ L1.length = ch.buf.length
      ∧ L1.Perm ch.buf
      ∧ (st.queues.set name ⟨L1, ch.cap⟩).get name = some ⟨L1, ch.cap⟩
      ∧ ∀ other, other ≠ name →
          (st.queues.set name ⟨L1, ch.cap⟩).get other = st.queues.get other := by
  refine ⟨ch.buf.rotate n.toNat, ?_, ?_, List.length_rotate _ _, List.rotate_perm _ _, ?_, ?_⟩
  · simp [skipHandler, hq, skipLoop_spec n.toNat ch hlen]
  · by_cases h : 0 < n ∧ ch.buf ≠ []
    · rw [if_pos h]
      exact List.rotate_eq_drop_append_take_mod
    · rw [if_neg h]
      by_cases hn : 0 < n
      · have hb : ch.buf = [] := by
          by_contra hne
          exact h ⟨hn, hne⟩
        rw [hb]
        simp
      · have h0 : n.toNat = 0 := Int.toNat_eq_zero.2 (not_lt.1 hn)
        rw [h0]
        simp
  · rw [GoMap.get_set]; simp
  · intro other hne
    rw [GoMap.get_set]
    simp [Ne.symm hne]

theorem skip_rotates_witness :
    ∃ L1, skipHandler ⟨[(str "jobs", ⟨[str "a", str "b", str "c"], 4⟩)], []⟩ (str "jobs") (some 5)
        = some (⟨GoMap.set [(str "jobs", ⟨[str "a", str "b", str "c"], 4⟩)] (str "jobs")
            ⟨L1, 4⟩, []⟩, .ok)
      ∧ L1 = [str "c", str "a", str "b"] := by
  obtain ⟨L1, h1, h2, _⟩ := skip_rotates ⟨[(str "jobs", ⟨[str "a", str "b", str "c"], 4⟩)], []⟩
    (str "jobs") ⟨[str "a", str "b", str "c"], 4⟩ 5 (by decide) (by decide)
  refine ⟨L1, h1, ?_⟩
  rw [h2]
  decide

/-! ## Journal line round trip -/

theorem upperhex_ne_newline : ∀ n : Fin 16, upperhex n.val ≠ 10 := by decide

theorem newline_not_mem_QueryEscape (s : GoString) : (10 : Byte) ∉ QueryEscape s := by
  induction s with
  | nil => simp [QueryEscape]
  | cons c s ih =>
    unfold QueryEscape
    by_cases h1 : c = SP
    · simp only [h1, if_true, List.mem_cons, not_or]
      exact ⟨by decide, ih⟩
    · simp only [h1, if_false]
      by_cases h2 : shouldEscape c = true
      · have hhi : c.val / 16 < 16 := by have := c.isLt; omega
        have hlo : c.val % 16 < 16 := by omega
        have e1 := upperhex_ne_newline ⟨c.val / 16, hhi⟩
        have e2 := upperhex_ne_newline ⟨c.val % 16, hlo⟩
        simp only [] at e1 e2
        simp only [h2, if_true, List.mem_cons, not_or]
        exact ⟨by decide, Ne.symm e1, Ne.symm e2, ih⟩
      · have h3 : shouldEscape c = false := by simpa using h2
        have hc : c ≠ 10 := by
          rintro rfl
          revert h3
          decide
        simp only [h3, Bool.false_eq_true, if_false, List.mem_cons, not_or]
        exact ⟨Ne.symm hc, ih⟩

/-- C20. Journal line round trip: for every method among SET, GET, DEL, every queue
name without a space and every message (empty, or with spaces, `+`, `%`, newlines),
unescaping the written line and splitting it on its first two spaces gives back the
method, the queue name and the message, and the written line has no newline in it. -/
theorem journal_line_round_trip (method queueName message : GoString)
    (hmethod : method = SET ∨ method = GET ∨ method = DEL) (hname : SP ∉ queueName) :
    QueryUnescape (QueryEscape (getRecovery method queueName message))
      = some (getRecovery method queueName message)
    ∧ SplitN SP 3 (getRecovery method queueName message) = [method, queueName, message]
    ∧ decodeLine (QueryEscape (getRecovery method queueName message))
      = some (method, queueName, message)
    ∧ (10 : Byte) ∉ QueryEscape (getRecovery method queueName message) := by
  have hm : SP ∉ method := by
    rcases hmethod with e | e | e <;> subst e
    · exact SP_not_mem_methods.1
    · exact SP_not_mem_methods.2.1
    · exact SP_not_mem_methods.2.2
  exact ⟨QueryUnescape_QueryEscape _, SplitN_getRecovery method queueName message hm hname,
    decodeLine_encode method queueName message hm hname, newline_not_mem_QueryEscape _⟩

theorem journal_line_round_trip_witness :
    QueryEscape (getRecovery SET (str "jobs") (str "a b+c%d\ne")) = str "SET+jobs+a+b%2Bc%25d%0Ae"
    ∧ decodeLine (QueryEscape (getRecovery SET (str "jobs") (str "a b+c%d\ne")))
      = some (SET, str "jobs", str "a b+c%d\ne")
    ∧ decodeLine (QueryEscape (getRecovery DEL (str "jobs") []))
      = some (DEL, str "jobs", []) :=
  ⟨by decide,
   (journal_line_round_trip SET (str "jobs") (str "a b+c%d\ne") (Or.inl rfl) (by decide)).2.2.1,
   (journal_line_round_trip DEL (str "jobs") [] (Or.inr (Or.inr rfl)) (by decide)).2.2.1⟩

/-! ## Free slot after growth -/

/-- What `increaseQueueSize` does to any present channel with `len ≤ cap`: it leaves the
store alone when the growth condition is false, waits for ever when the condition is
true and the channel is empty, and moves the contents to a buffer of capacity
`cap + size` otherwise. -/
theorem increaseQueueSize_cases (queues : Queues) (name : GoString) (ch : Chan) (size : Nat)
    (hq : queues.get name = some ch) (hlen : ch.buf.length ≤ ch.cap) :
    increaseQueueSize queues name size =
      if ch.cap - ch.buf.length < size / 2 then
        (if ch.buf = [] then none else some (queues.set name ⟨ch.buf, ch.cap + size⟩))
      else some queues := by
  have hch : chanOf queues name = ch := chanOf_of_get hq
  have hdiv : ((size : Int) / 2) = ((size / 2 : Nat) : Int) := by simp
  unfold increaseQueueSize
  simp only [hch]
  by_cases hc : ch.cap - ch.buf.length < size / 2
  · have hc1 : (ch.cap : Int) - (ch.buf.length : Int) < (size : Int) / 2 := by
      rw [hdiv]; omega
    simp only [hc, hc1, if_true]
    by_cases hb : ch.buf = []
    · simp [hb, drain]
    · have hd := drain_eq ch.buf ⟨[], ch.cap + size⟩ hb (by simp only [List.length_nil]; omega)
      simp [hb, hd]
  · have hc1 : ¬ (ch.cap : Int) - (ch.buf.length : Int) < (size : Int) / 2 := by
      rw [hdiv]; omega
    simp only [hc, hc1, if_false]

/-- C18. Capacity exhaustion is unreachable for an increment of at least 2: for every
queue with `len ≤ cap` (any contents, any capacity) and every `s ≥ 2`, whenever
`increaseQueueSize` returns, the queue has its contents unchanged and at least one free
slot, so the non-blocking enqueue after it succeeds; it returns unless the queue is
empty with a capacity below `s / 2`, hence always when `cap ≥ s`; in `setHandler` on a
well-formed store the reply is then never the 500 of a full queue, and the copy loop of
`initialRecovery` enqueues every copy. For `s = 1` the growth condition is never true:
the store is returned unchanged, and a set on a full queue of capacity 1 is refused. -/
theorem free_slot_after_grow (cfg : Config) (env : Env) (queues : Queues) (name : GoString)
    (ch : Chan) (s : Nat) (hq : queues.get name = some ch)
    (hlen : ch.buf.length ≤ ch.cap) :
    (2 ≤ s → ∀ queues1, increaseQueueSize queues name s = some queues1 →
        ∃ c1, queues1.get name = some ⟨ch.buf, c1⟩ ∧ ch.buf.length < c1
          ∧ ∀ message, trySend queues1 name message
              = some (queues1.set name ⟨ch.buf ++ [message], c1⟩))
    ∧ (2 ≤ s → (ch.buf ≠ [] ∨ s / 2 ≤ ch.cap) →
        ∃ queues1, increaseQueueSize queues name s = some queues1)
    ∧ (2 ≤ s → s ≤ ch.cap → ∃ queues1, increaseQueueSize queues name s = some queues1)
    ∧ (ch.buf = [] → ch.cap < s / 2 → increaseQueueSize queues name s = none)
    ∧ (2 ≤ cfg.QueueInitSize → ∀ (room : Bool) (st : State) (q message : GoString),
        Queues.wellFormed cfg.QueueInitSize st.queues →
        ∃ st1 reply, setHandler cfg env room st q message = some (st1, reply)
          ∧ reply ≠ .queueFull)
    ∧ (2 ≤ cfg.QueueInitSize → ∀ (room : Nat → Bool) (r : Recovery) (q message : GoString)
        (ch0 : Chan), Queues.wellFormed cfg.QueueInitSize r.queues →
        r.queues.get q = some ch0 →
        ∃ r1 c1, recoverCopy cfg room q message r = some r1
          ∧ r1.queues.get q = some ⟨ch0.buf ++ [message], c1⟩)
    ∧ increaseQueueSize queues name 1 = some queues
    ∧ setHandler ⟨1, cfg.RecoveryFileSize, cfg.FileBasePath⟩ env true
        ⟨[(str "jobs", ⟨[str "a"], 1⟩)], []⟩ (str "jobs") (str "b")
      = some (⟨[(str "jobs", ⟨[str "a"], 1⟩)], []⟩, .queueFull) := by
  have hcases := increaseQueueSize_cases queues name ch s hq hlen
  refine ⟨?_, ?_, ?_, ?_, ?_, ?_, ?_, ?_⟩
  · intro hs queues1 hrun
    rw [hcases] at hrun
    by_cases hc : ch.cap - ch.buf.length < s / 2
    · simp only [hc, if_true] at hrun
      by_cases hb : ch.buf = []
      · simp [hb] at hrun
      · simp only [hb, if_false, Option.some.injEq] at hrun
        subst hrun
        have hget : (queues.set name ⟨ch.buf, ch.cap + s⟩).get name
            = some ⟨ch.buf, ch.cap + s⟩ := by rw [GoMap.get_set]; simp
        have hfree : ch.buf.length < ch.cap + s := by omega
        refine ⟨ch.cap + s, hget, hfree, ?_⟩
        intro message
        rw [trySend_of_get message hget]
        simp [hfree]
    · simp only [hc, if_false, Option.some.injEq] at hrun
      subst hrun
      have hfree : ch.buf.length < ch.cap := by omega
      refine ⟨ch.cap, by rw [hq], hfree, ?_⟩
      intro message
      rw [trySend_of_get message hq]
      simp [hfree]
  · intro _ hret
    rw [hcases]
    by_cases hc : ch.cap - ch.buf.length < s / 2
    · have hb : ch.buf ≠ [] := by
        rcases hret with h | h
        · exact h
        · intro e
          rw [e] at hc
          simp only [List.length_nil, Nat.sub_zero] at hc
          omega
      simp [hc, hb]
    · simp [hc]
  · intro _ hcap
    rw [hcases]
    by_cases hc : ch.cap - ch.buf.length < s / 2
    · have hb : ch.buf ≠ [] := by
        intro e
        rw [e] at hc
        simp only [List.length_nil, Nat.sub_zero] at hc
        omega
      simp [hc, hb]
    · simp [hc]
  · intro hb hcap
    rw [hcases]
    have hc : ch.cap - ch.buf.length < s / 2 := by
      rw [hb]
      simpa using hcap
    rw [if_pos hc, if_pos hb]
  · intro hs room st q message hwf
    obtain ⟨queuesG, c1, _, _, _, hfree, _, hset⟩ :=
      setHandler_spec cfg env room st q message (fun c hc => hwf q c hc)
    rw [hset]
    by_cases hm : message = []
    · simp only [hm, if_true]
      exact ⟨_, _, rfl, by simp⟩
    · simp only [hm, if_false]
      cases hcp : checkPayload cfg env message with
      | some err =>
        refine ⟨_, err, rfl, ?_⟩
        rcases checkPayload_err cfg env message err hcp with e | e <;> subst e <;> simp
      | none =>
        simp only [hfree hs, if_true]
        cases room
        · exact ⟨_, _, rfl, by simp⟩
        · exact ⟨_, _, rfl, by simp⟩
  · intro hs room r q message ch0 hwf hget
    obtain ⟨r1, ch1, hrun, hget1, _, _, hbuf⟩ := recoverCopy_spec cfg room q message r ch0 hwf hget
    refine ⟨r1, ch1.cap, hrun, ?_⟩
    rw [hget1, ← (hbuf hs).1]
  · rw [increaseQueueSize_cases queues name ch 1 hq hlen]
    simp
  · have hgrow : increaseQueueSize [(str "jobs", ⟨[str "a"], 1⟩)] (str "jobs") 1
        = some [(str "jobs", ⟨[str "a"], 1⟩)] := by decide
    have hcheck : checkPayload ⟨1, cfg.RecoveryFileSize, cfg.FileBasePath⟩ env (str "b")
        = none := by
      unfold checkPayload
      have : SplitN 58 2 (str "b") = [str "b"] := by decide
      rw [this]
    have hne : str "b" ≠ [] := by decide
    have hget : GoMap.get [(str "jobs", (⟨[str "a"], 1⟩ : Chan))] (str "jobs")
        = some ⟨[str "a"], 1⟩ := by decide
    have hsend : trySend [(str "jobs", ⟨[str "a"], 1⟩)] (str "jobs") (str "b") = none := by
      decide
    simp [setHandler, hget, hgrow, hne, hcheck, hsend]

theorem free_slot_after_grow_witness :
    ∃ c1, GoMap.get (GoMap.set [(str "jobs", (⟨[str "a", str "b"], 2⟩ : Chan))] (str "jobs")
          ⟨[str "a", str "b"], 4⟩) (str "jobs") = some ⟨[str "a", str "b"], c1⟩
      ∧ [str "a", str "b"].length < c1 :=
  let ⟨c1, h1, h2, _⟩ := (free_slot_after_grow ⟨2, 100, []⟩ ⟨fun _ => false, fun _ _ => .row, fun _ => .notExist, fun _ _ => none⟩
    [(str "jobs", ⟨[str "a", str "b"], 2⟩)] (str "jobs") ⟨[str "a", str "b"], 2⟩ 2
    (by decide) (by decide)).1 (by decide)
    (GoMap.set [(str "jobs", ⟨[str "a", str "b"], 2⟩)] (str "jobs") ⟨[str "a", str "b"], 4⟩)
    (by decide)
  ⟨c1, h1, h2⟩

/-! ## The growth loop terminates -/

theorem initialRecovery_wellFormed (cfg : Config) (room : Nat → Bool)
    (files : List (List GoString)) :
    ∃ r, initialRecovery cfg room [] files = some r
      ∧ Queues.wellFormed cfg.QueueInitSize r.queues := by
  have hwf0 : Queues.wellFormed cfg.QueueInitSize (⟨[], [], 0⟩ : Recovery).queues := by
    intro q ch hch
    simp [GoMap.get] at hch
  obtain ⟨r, hrun, hwf, _⟩ := recoverQueues_spec cfg room (replayFiles files) ⟨[], [], 0⟩
    (replayFiles_wellFormed files).1 hwf0
  exact ⟨r, hrun, hwf⟩

/-- C19. The growth copy loop always terminates: for every configured initial capacity,
startup recovery returns, every sequence of list, count, skip, set, get, fetch and
delete requests served after it returns, and every queue of every state so reached
has a capacity of at least the configured size and holds at most `cap` messages; hence
whenever the growth condition holds the queue is not empty, the loop of
`increaseQueueSize` moves exactly its `|L|` messages, in order, and ends, and
`increaseQueueSize` returns. -/
theorem growth_loop_terminates (cfg : Config) (env : Env) (room : Nat → Bool)
    (files : List (List GoString)) (reqs : List (Request × Bool)) :
    ∃ r, initialRecovery cfg room [] files = some r
      ∧ ∃ st replies, serve cfg env ⟨r.queues, r.journal⟩ reqs = some (st, replies)
        ∧ ∀ q ch, st.queues.get q = some ch →
          cfg.QueueInitSize ≤ ch.cap ∧ ch.buf.length ≤ ch.cap
          ∧ (ch.cap - ch.buf.length < cfg.QueueInitSize / 2 →
              ch.buf ≠ []
              ∧ drain ch.buf ⟨[], ch.cap + cfg.QueueInitSize⟩
                = some ⟨ch.buf, ch.cap + cfg.QueueInitSize⟩
              ∧ increaseQueueSize st.queues q cfg.QueueInitSize
                = some (st.queues.set q ⟨ch.buf, ch.cap + cfg.QueueInitSize⟩))
          ∧ (¬ ch.cap - ch.buf.length < cfg.QueueInitSize / 2 →
              increaseQueueSize st.queues q cfg.QueueInitSize = some st.queues) := by
  obtain ⟨r, hrun, hwf⟩ := initialRecovery_wellFormed cfg room files
  obtain ⟨st, replies, hserve, hwf1⟩ := serve_total cfg env reqs ⟨r.queues, r.journal⟩ hwf
  refine ⟨r, hrun, st, replies, hserve, ?_⟩
  intro q ch hq
  obtain ⟨hlen, hcap⟩ := hwf1 q ch hq
  have hcases := increaseQueueSize_cases st.queues q ch cfg.QueueInitSize hq hlen
  refine ⟨hcap, hlen, ?_, ?_⟩
  · intro hc
    have hb : ch.buf ≠ [] := by
      intro e
      rw [e] at hc
      simp only [List.length_nil, Nat.sub_zero] at hc
      omega
    refine ⟨hb, ?_, ?_⟩
    · have := drain_eq ch.buf ⟨[], ch.cap + cfg.QueueInitSize⟩ hb
        (by simp only [List.length_nil]; omega)
      simpa using this
    · rw [hcases, if_pos hc, if_neg hb]
  · intro hc
    rw [hcases, if_neg hc]

/-! ## The compactor and the newest segment -/

theorem sortStrings_perm (names : List GoString) : (sortStrings names).Perm names :=
  List.perm_insertionSort _ names

theorem sortStrings_sorted (names : List GoString) :
    List.Sorted (fun a b => a ≤ b) (sortStrings names) :=
  List.sorted_insertionSort (fun a b : GoString => a ≤ b) names

theorem get_foldl_delete (consumed : List GoString) :
    ∀ (dir : Dir) (name : GoString),
      (consumed.foldl GoMap.delete dir).get name
        = if name ∈ consumed then none else dir.get name := by
  induction consumed with
  | nil => intro dir name; simp
  | cons c consumed ih =>
    intro dir name
    simp only [List.foldl_cons, ih, GoMap.get_delete, List.mem_cons]
    by_cases h1 : name ∈ consumed
    · simp [h1]
    · by_cases h2 : c = name
      · simp [h1, h2]
      · have h3 : ¬ name = c := fun e => h2 e.symm
        simp [h1, h2, h3]

theorem emitSegments_nil (cfg : Config) : emitSegments cfg [] = [] := by
  simp [emitSegments, emitQueues]

/-- C17. The compactor never touches the newest segment: for every directory of
segment files with distinct names, with `newest` the last name in sorted order (the
greatest one) and `older` the names before it, the emitted segments are the fold of the
files of `older`, each read once, in sorted order; the file `newest` is still in the
directory afterwards with its lines, every other file has been removed, and the
emitted segments do not depend on the lines of `newest`; with zero or one segment the
directory is unchanged and nothing is emitted. -/
theorem compactor_spares_newest (cfg : Config) (dir : Dir) (hnd : (GoMap.keys dir).Nodup) :
    (dir.length ≤ 1 → cleanupDir cfg dir = (dir, []))
    ∧ (dir ≠ [] → ∃ older newest, sortStrings (GoMap.keys dir) = older ++ [newest])
    ∧ ∀ older newest, sortStrings (GoMap.keys dir) = older ++ [newest] →
        (∀ name ∈ GoMap.keys dir, name ≤ newest)
        ∧ List.Sorted (fun a b => a ≤ b) older
        ∧ newest ∉ older
        ∧ (∀ name, name ∈ GoMap.keys dir ↔ name ∈ older ∨ name = newest)
        ∧ (cleanupDir cfg dir).2 = emitSegments cfg (replayFiles (older.map (Dir.lines dir)))
        ∧ (cleanupDir cfg dir).1.get newest = dir.get newest
        ∧ dir.get newest ≠ none
        ∧ (∀ name, name ≠ newest → (cleanupDir cfg dir).1.get name = none)
        ∧ ∀ dir1 : Dir, GoMap.keys dir1 = GoMap.keys dir →
            (∀ name, name ≠ newest → dir1.get name = dir.get name) →
            (cleanupDir cfg dir1).2 = (cleanupDir cfg dir).2 := by
  refine ⟨?_, ?_, ?_⟩
  · intro hlen
    cases dir with
    | nil => simp [cleanupDir, sortStrings, GoMap.keys, replayFiles, emitSegments_nil]
    | cons f dir =>
      cases dir with
      | nil => simp [cleanupDir, sortStrings, GoMap.keys, replayFiles, emitSegments_nil]
      | cons g dir => simp at hlen
  · intro hne
    have hs : sortStrings (GoMap.keys dir) ≠ [] := by
      intro e
      have := (sortStrings_perm (GoMap.keys dir)).length_eq
      rw [e] at this
      cases dir with
      | nil => exact hne rfl
      | cons f dir => simp [GoMap.keys] at this
    exact ⟨_, _, (List.dropLast_append_getLast hs).symm⟩
  · intro older newest hsort
    have hperm := sortStrings_perm (GoMap.keys dir)
    have hsorted := sortStrings_sorted (GoMap.keys dir)
    rw [hsort] at hperm hsorted
    have hnd1 : (older ++ [newest]).Nodup := hperm.nodup_iff.2 hnd
    have hnot : newest ∉ older := by
      intro hmem
      have := (List.nodup_append.1 hnd1).2.2
      exact this hmem (by simp)
    have hmem : ∀ name, name ∈ GoMap.keys dir ↔ name ∈ older ∨ name = newest := by
      intro name
      rw [← hperm.mem_iff]
      simp
    have hdrop : (older ++ [newest]).dropLast = older := by simp
    have hpair := List.pairwise_append.1 hsorted
    refine ⟨?_, hpair.1, hnot, hmem, ?_, ?_, ?_, ?_, ?_⟩
    · intro name hname
      rcases (hmem name).1 hname with h | h
      · exact hpair.2.2 name h newest (by simp)
      · rw [h]
    · simp only [cleanupDir, hsort, hdrop]
    · simp only [cleanupDir, hsort, hdrop, get_foldl_delete, hnot, if_false]
    · rw [Ne, GoMap.get_eq_none]
      exact fun h => h ((hmem newest).2 (Or.inr rfl))
    · intro name hne
      simp only [cleanupDir, hsort, hdrop, get_foldl_delete]
      by_cases h : name ∈ older
      · simp [h]
      · simp only [h, if_false]
        rw [GoMap.get_eq_none]
        intro hk
        rcases (hmem name).1 hk with h1 | h1
        · exact h h1
        · exact hne h1
    · intro dir1 hkeys hsame
      simp only [cleanupDir, hkeys, hsort, hdrop]
      have : older.map (Dir.lines dir1) = older.map (Dir.lines dir) := by
        apply List.map_congr_left
        intro name hname
        have hne : name ≠ newest := fun e => hnot (e ▸ hname)
        simp [Dir.lines, hsame name hne]
      rw [this]

theorem compactor_spares_newest_witness :
    cleanupDir ⟨2, 100, []⟩ [(str "2", [str "SET+jobs+b"]), (str "1", [str "SET+jobs+a"]),
        (str "3", [str "GET+jobs+a"])]
      = ([(str "3", [str "GET+jobs+a"])], [[str "SET+jobs+a", str "SET+jobs+b"]])
    ∧ cleanupDir ⟨2, 100, []⟩ [(str "1", [str "SET+jobs+a"])]
      = ([(str "1", [str "SET+jobs+a"])], []) :=
  ⟨by decide,
   (compactor_spares_newest ⟨2, 100, []⟩ [(str "1", [str "SET+jobs+a"])] (by decide)).1
     (by decide)⟩

/-! ## Malformed lines -/

/-- A line that does not decode into three fields leaves the working map as it is. -/
theorem replayLine_undecodable (queuesMap : QueuesMap) (line : GoString)
    (h : decodeLine line = none) : replayLine queuesMap line = queuesMap := by
  simp [replayLine, h]

/-- A malformed line changes no net count. -/
theorem netCount_replayLine_malformed (queuesMap : QueuesMap) (line : GoString)
    (h : malformed line = true) (q m : GoString) :
    netCount (replayLine queuesMap line) q m = netCount queuesMap q m := by
  unfold malformed at h
  cases hu : QueryUnescape line with
  | none =>
    have hd : decodeLine line = none := by simp [decodeLine, hu]
    simp [replayLine, hd]
  | some l =>
    simp only [hu] at h
    split at h
    · rename_i method queueName message heq
      have hd : decodeLine line = some (method, queueName, message) := by
        simp [decodeLine, hu, heq]
      simp only [Bool.not_eq_true', Bool.or_eq_false_iff, decide_eq_false_iff_not] at h
      simp only [replayLine, hd]
      rw [netCount_applyRecord]
      simp [h.1.1, h.1.2, h.2]
    · rename_i hno
      have hd : decodeLine line = none := by
        unfold decodeLine
        simp only [hu]
      simp [replayLine, hd]

theorem netCount_replayLine_congr (qm1 qm2 : QueuesMap) (line : GoString)
    (h : ∀ q m, netCount qm1 q m = netCount qm2 q m) (q m : GoString) :
    netCount (replayLine qm1 line) q m = netCount (replayLine qm2 line) q m := by
  unfold replayLine
  cases decodeLine line with
  | none => exact h q m
  | some r =>
    obtain ⟨a, b, c⟩ := r
    simp only [netCount_applyRecord, h]

/-- The net counts of a fold are those of the fold without the malformed lines. -/
theorem netCount_without_malformed (lines : List GoString) :
    ∀ (qm1 qm2 : QueuesMap), (∀ q m, netCount qm1 q m = netCount qm2 q m) →
      ∀ q m, netCount (replayLines qm1 lines) q m
        = netCount (replayLines qm2 (lines.filter (fun l => !malformed l))) q m := by
  induction lines with
  | nil => intro qm1 qm2 h q m; exact h q m
  | cons l lines ih =>
    intro qm1 qm2 h q m
    by_cases hm : malformed l = true
    · simp only [replayLines, List.foldl_cons, List.filter_cons, hm, Bool.not_true,
        Bool.false_eq_true, if_false]
      apply ih
      intro q1 m1
      rw [netCount_replayLine_malformed qm1 l hm, h]
    · have hm1 : malformed l = false := by simpa using hm
      simp only [replayLines, List.foldl_cons, List.filter_cons, hm1, Bool.not_false, if_true]
      apply ih
      intro q1 m1
      exact netCount_replayLine_congr qm1 qm2 l h q1 m1

/-- C16, the code at the failing input. The line `PUT jobs x` (written `PUT+jobs+x`)
is malformed, yet the fold keeps an entry for the queue jobs in the working map, at
startup and in the compactor alike, and startup recovery creates the queue jobs; the
fold of the sequence without the malformed line gives the empty map and the empty
store. -/
theorem malformed_line_leaves_entry :
    malformed (str "PUT+jobs+x") = true
    ∧ replayFiles [[str "PUT+jobs+x"]] = [(str "jobs", [])]
    ∧ replayFiles [[str "PUT+jobs+x"].filter (fun l => !malformed l)] = []
    ∧ cleanupFold [[str "PUT+jobs+x"], []] = [(str "jobs", [])]
    ∧ initialRecovery ⟨2, 100, []⟩ (fun _ => true) [] [[str "PUT+jobs+x"]]
      = some ⟨[(str "jobs", ⟨[], 2⟩)], [], 0⟩
    ∧ initialRecovery ⟨2, 100, []⟩ (fun _ => true) []
        [[str "PUT+jobs+x"].filter (fun l => !malformed l)]
      = some ⟨[], [], 0⟩
    ∧ replayFiles [[str "%zz", str "SET+jobs", str "SET+jobs+a"]] = [(str "jobs", [(str "a", 1)])] := by
  refine ⟨by decide, by decide, by decide, by decide, by decide, by decide, by decide⟩

end LMQ
